import Mathlib

/-!
Verification model of the state-transform and dependency-inference engine of
the go-terraform repository (package tfx), together with the parts of the
vendored terraform v0.11.11 library (resource state keys and resource
addresses) that the engine calls into.  All definitions are direct
translations of the Go source; Go maps are modelled as association lists with
a fixed (insertion-order) iteration, which is a deterministic refinement of
Go's unordered map iteration, and Go panics are modelled as a distinct abort
outcome.
-/

namespace GoTf

/-! ## Basic Go string helpers -/

/-- Go strings.Split(s, ".") on the character list.  Always nonempty. -/
def splitDotsL : List Char → List (List Char)
  | [] => [[]]
  | c :: cs =>
    if c = '.' then [] :: splitDotsL cs
    else
      match splitDotsL cs with
      | [] => [[c]]
      | h :: t => (c :: h) :: t

/-- Go strings.Split(s, "."). -/
def splitDots (s : String) : List String :=
  (splitDotsL s.data).map (fun l => ⟨l⟩)

/-- Go strings.Join(parts, "."). -/
def joinDots : List String → String
  | [] => ""
  | [x] => x
  | x :: xs => x ++ "." ++ joinDots xs

/-- Prefix test on character lists (Go strings.HasPrefix). -/
def hasPfxL : List Char → List Char → Bool
  | [], _ => true
  | _ :: _, [] => false
  | p :: ps, c :: cs => p = c && hasPfxL ps cs

/-- Go strings.HasPrefix. -/
def hasPfx (s pfx : String) : Bool :=
  hasPfxL pfx.data s.data

/-- Go s[len(pfx):] for an ASCII pfx (byte slicing = char dropping here). -/
def dropPfx (s pfx : String) : String :=
  ⟨s.data.drop pfx.data.length⟩

/-- Decimal digit test (ASCII). -/
def isDigitCh (c : Char) : Bool :=
  '0' ≤ c && c ≤ '9'

/-- Value of a decimal digit. -/
def digitVal (c : Char) : Nat :=
  c.toNat - '0'.toNat

/-- Parses a nonempty all-digit string to a Nat (no bound check). -/
def parseDigits : List Char → Option Nat
  | [] => none
  | cs =>
    if cs.all isDigitCh then
      some (cs.foldl (fun acc c => acc * 10 + digitVal c) 0)
    else none

/-- Go strconv.Atoi on a 64-bit platform: optional sign, decimal digits,
errors on anything else and on values outside the int64 range. -/
def goAtoi (s : String) : Option Int :=
  match s.data with
  | '+' :: ds => (parseDigits ds).bind fun n =>
      if (n : Int) ≤ 2 ^ 63 - 1 then some (n : Int) else none
  | '-' :: ds => (parseDigits ds).bind fun n =>
      if (n : Int) ≤ 2 ^ 63 then some (-(n : Int)) else none
  | ds => (parseDigits ds).bind fun n =>
      if (n : Int) ≤ 2 ^ 63 - 1 then some (n : Int) else none

/-- Go's string ordering on the character lists: lexicographic by code
point, which on valid UTF-8 agrees with Go's byte-wise comparison. -/
def strLtL : List Char → List Char → Bool
  | [], [] => false
  | [], _ :: _ => true
  | _ :: _, [] => false
  | a :: as, b :: bs =>
    if a.toNat < b.toNat then true
    else if b.toNat < a.toNat then false
    else strLtL as bs

/-- Go string comparison (s < t). -/
def strLt (a b : String) : Bool :=
  strLtL a.data b.data

/-- Insert into a strictly ascending deduplicated list. -/
def insertSD (x : String) : List String → List String
  | [] => [x]
  | y :: ys =>
    if strLt x y then x :: y :: ys
    else if x = y then y :: ys
    else y :: insertSD x ys

/-- Sorted deduplicated form of a list of strings (the result of collecting
the strings into a Go map used as a set and then sort.Strings). -/
def sortedDedup (l : List String) : List String :=
  l.foldr insertSD []

/-! ## Errors and panics

Go errors and panic values are modelled as tagged constructors carrying the
formatted arguments instead of formatted strings. -/

inductive TfErr where
  /-- terraform: "Malformed resource state key: %s" -/
  | malformedKey (k : String)
  /-- terraform: "Malformed resource state key index: %s" -/
  | malformedKeyIndex (k : String)
  /-- terraform: "invalid resource address %q" (tokenizer failure) -/
  | invalidAddress (s : String)
  /-- terraform: strconv.Atoi failure on the bracketed index -/
  | invalidResourceIndex (s : String)
  /-- terraform: "Unexpected value for InstanceType field: %q" -/
  | unexpectedInstanceType (s : String)
  /-- terraform: "must target specific data instance: %s" -/
  | dataWithoutType (s : String)
  /-- tfx: "incomplete resource address %q" -/
  | incompleteAddress (addr : String)
  /-- tfx: "address collision for %q" (two explicitly mapped sources) -/
  | addressCollision (addr : String)
  /-- tfx panic: "address collision: " (state map build, step 1) -/
  | panicAddrCollision (addr : String)
  /-- tfx panic: "resource state key collision: " (step 5) -/
  | panicKeyCollision (k : String)
  /-- tfx panic: "multiple source values for %s.%s" (dependency inference) -/
  | ambiguousSource (typ attr : String)
  /-- tfx panic: "unexpected next attribute for %s: %s" (getValsHelper) -/
  | unexpectedNextAttr (typ next : String)
  /-- tfx panic: "unexpected value type for %s: %T" (getValsHelper) -/
  | unexpectedValType (typ : String)
deriving DecidableEq, Repr

/-! ## Vendored terraform v0.11.11 library: resource state keys

Models terraform/resource.go (ResourceStateKey, ParseResourceStateKey) for
the pinned dependency github.com/hashicorp/terraform v0.11.11. -/

inductive ResourceMode where
  | managed
  | data
deriving DecidableEq, Repr

inductive InstanceType where
  | invalid
  | primary
  | tainted
  | deposed
deriving DecidableEq, Repr

structure ResourceStateKey where
  name : String
  typ : String
  mode : ResourceMode
  idx : Int
deriving DecidableEq, Repr

/-- terraform RootModulePath. -/
def rootModulePath : List String := ["root"]

/-- terraform ParseResourceStateKey: splits on dots, strips a leading
"data" segment, expects type.name with an optional integer index. -/
def parseResourceStateKey (k : String) : Except TfErr ResourceStateKey :=
  let parts := splitDots k
  let (mode, parts) :=
    match parts with
    | "data" :: rest => (ResourceMode.data, rest)
    | _ => (ResourceMode.managed, parts)
  match parts with
  | [t, n] => .ok { name := n, typ := t, mode := mode, idx := -1 }
  | [t, n, i] =>
    match goAtoi i with
    | some v => .ok { name := n, typ := t, mode := mode, idx := v }
    | none => .error (.malformedKeyIndex k)
  | _ => .error (.malformedKey k)

/-- terraform ResourceStateKey.String. -/
def resourceStateKeyString (rsk : ResourceStateKey) : String :=
  let pfx := match rsk.mode with
    | .managed => ""
    | .data => "data."
  if rsk.idx = -1 then pfx ++ rsk.typ ++ "." ++ rsk.name
  else pfx ++ rsk.typ ++ "." ++ rsk.name ++ "." ++ toString rsk.idx

/-! ## Vendored terraform v0.11.11 library: resource addresses

Models terraform/resource_address.go.  The Go regexp in
tokenizeResourceAddress is case-insensitive (`(?i)` prefix) and unanchored;
it is run with FindAllStringSubmatch and the tokenizer demands exactly one
match.  Because every subpattern is optional the regexp matches at every
position, so the leftmost-first match always exists and starts at position
0; there is exactly one match overall iff that first match consumes the
whole input (an empty leftover would start a second, empty match past the
first one).  The matcher below is a small backtracking engine whose result
order realizes the leftmost-greedy submatch semantics of Go's regexp
engine, so the head of its result list at position 0 is the Go match and
tokenization succeeds exactly when its remainder is empty. -/

/-- ASCII case folding for `(?i)` literal matching.  The pattern's literals
are the ASCII letters of "module" and "data" plus punctuation; none of
these letters has a non-ASCII simple case folding, so ASCII folding is
exact here. -/
def lowCh : Char → Char
  | 'A' => 'a' | 'B' => 'b' | 'C' => 'c' | 'D' => 'd' | 'E' => 'e'
  | 'F' => 'f' | 'G' => 'g' | 'H' => 'h' | 'I' => 'i' | 'J' => 'j'
  | 'K' => 'k' | 'L' => 'l' | 'M' => 'm' | 'N' => 'n' | 'O' => 'o'
  | 'P' => 'p' | 'Q' => 'q' | 'R' => 'r' | 'S' => 's' | 'T' => 't'
  | 'U' => 'u' | 'V' => 'v' | 'W' => 'w' | 'X' => 'x' | 'Y' => 'y'
  | 'Z' => 'z' | c => c

/-- Case folding of a whole string, for stating which identifiers collide
case-insensitively with the pattern's literals. -/
def lowStr (s : String) : String :=
  ⟨s.data.map lowCh⟩

/-- Capture group names of the tokenizer regexp. -/
inductive GroupId where
  | path
  | moduleName
  | dataPfx
  | typ
  | name
  | instType
  | idx
deriving DecidableEq, Repr

/-- Character classes appearing in the tokenizer regexp. -/
inductive CharCls where
  /-- [^.] -/
  | notDot
  /-- [^.\[\]] -/
  | notDotBracket
  /-- \w (Go: [0-9A-Za-z_]) -/
  | word
  /-- \d -/
  | digit
deriving DecidableEq, Repr

def charMatches (cc : CharCls) (c : Char) : Bool :=
  match cc with
  | .notDot => c ≠ '.'
  | .notDotBracket => c ≠ '.' && c ≠ '[' && c ≠ ']'
  | .word => ('0' ≤ c && c ≤ '9') || ('a' ≤ c && c ≤ 'z') ||
             ('A' ≤ c && c ≤ 'Z') || c = '_'
  | .digit => '0' ≤ c && c ≤ '9'

/-- Regular expressions (the subset used by the address tokenizer; the
Kleene star is expressed as a bounded greedy repetition, see repRE). -/
inductive RE where
  | eps
  | lit (c : Char)
  | cls (cc : CharCls)
  | cat (a b : RE)
  | opt (r : RE)
  | grp (g : GroupId) (r : RE)
deriving Repr

/-- Group captures: assignments, most recent first. -/
abbrev Captures := List (GroupId × List Char)

/-- Greedy r{0,n}: prefer one more iteration, fall back to the empty
match.  For a body that cannot match the empty string (every starred body
of the address pattern starts with a mandatory character), this enumerates
exactly the matches of r* in greedy preference order once n is at least
the input length. -/
def repRE (r : RE) : Nat → RE
  | 0 => .eps
  | n + 1 => .opt (.cat r (repRE r n))

/-- Backtracking matcher.  Returns every (captures, remaining input) pair
in the engine's preference order: greedy quantifiers try longer matches
first, so the head of the list is Go's leftmost-greedy match at the start
of the input.  Literals compare case-insensitively, realizing the
pattern's `(?i)` flag (every literal of the pattern is lowercase). -/
def reRun : RE → List Char → Captures → List (Captures × List Char)
  | .eps, s, k => [(k, s)]
  | .lit c, s, k =>
    match s with
    | [] => []
    | c' :: rest => if c' = c ∨ lowCh c' = c then [(k, rest)] else []
  | .cls cc, s, k =>
    match s with
    | [] => []
    | c' :: rest => if charMatches cc c' then [(k, rest)] else []
  | .cat a b, s, k =>
    (reRun a s k).flatMap fun p => reRun b p.2 p.1
  | .opt r, s, k => reRun r s k ++ [(k, s)]
  | .grp g r, s, k =>
    (reRun r s k).map fun p =>
      ((g, s.take (s.length - p.2.length)) :: p.1, p.2)

/-- Literal string as a regex. -/
def litsRE (cs : List Char) : RE :=
  cs.foldr (fun c r => .cat (.lit c) r) .eps

/-- One or more characters of a class (x+ = x x{0,n}). -/
def plusRE (cc : CharCls) (n : Nat) : RE :=
  .cat (.cls cc) (repRE (.cls cc) n)

/-- The tokenizer pattern for inputs of length at most n, transcribed group
for group from Go:
  (?i)(?P<path>(?:module\.(?P<module_name>[^.]+)\.?)*)
  (?P<data_prefix>(?:data\.)?)
  (?:(?P<type>[^.]+)\.(?P<name>[^.\[\]]*))?
  (?:\.(?P<instance_type>\w+))?(?:\[(?P<index>\d+)\])?
The `(?i)` flag lives in reRun's literal case; the starred name class is a
bounded greedy repetition like the other quantifiers. -/
def addrREn (n : Nat) : RE :=
  .cat (.grp .path (repRE (.cat (litsRE "module.".data)
      (.cat (.grp .moduleName (plusRE .notDot n)) (.opt (.lit '.')))) n))
  (.cat (.grp .dataPfx (.opt (litsRE "data.".data)))
  (.cat (.opt (.cat (.grp .typ (plusRE .notDot n))
      (.cat (.lit '.') (.grp .name (repRE (.cls .notDotBracket) n)))))
  (.cat (.opt (.cat (.lit '.') (.grp .instType (plusRE .word n))))
        (.opt (.cat (.lit '[') (.cat (.grp .idx (plusRE .digit n))
            (.lit ']')))))))

/-- Capture lookup; unmatched groups read as "" exactly like the Go map
built from FindAllStringSubmatch. -/
def capGet (k : Captures) (g : GroupId) : String :=
  match k.lookup g with
  | some cs => ⟨cs⟩
  | none => ""

/-- terraform tokenizeResourceAddress: FindAllStringSubmatch with the
demand of exactly one overall match.  The fully-optional pattern matches at
position 0, and that leftmost-greedy match (the head of reRun's preference
list) is unique overall exactly when it consumes the entire input;
otherwise a second match follows and the tokenizer reports the address as
invalid. -/
def tokenizeResourceAddress (s : String) : Except TfErr Captures :=
  match reRun (addrREn s.data.length) s.data [] with
  | [] => .error (.invalidAddress s)
  | p :: _ => if p.2.isEmpty then .ok p.1 else .error (.invalidAddress s)

/-- terraform ParseResourceIndex. -/
def parseResourceIndex (s : String) : Except TfErr Int :=
  if s = "" then .ok (-1)
  else
    match goAtoi s with
    | some v => .ok v
    | none => .error (.invalidResourceIndex s)

/-- terraform ParseInstanceType. -/
def parseInstanceType (s : String) : Except TfErr InstanceType :=
  if s = "" || s = "primary" then .ok .primary
  else if s = "deposed" then .ok .deposed
  else if s = "tainted" then .ok .tainted
  else .error (.unexpectedInstanceType s)

/-- terraform ParseResourcePath: splits the path capture on dots and drops
empty segments and the literal "module" separators. -/
def parseResourcePath (s : String) : List String :=
  if s = "" then []
  else (splitDots s).filter fun seg => seg ≠ "" && seg ≠ "module"

structure ResourceAddress where
  path : List String
  idx : Int
  instType : InstanceType
  instTypeSet : Bool
  name : String
  typ : String
  mode : ResourceMode
deriving DecidableEq, Repr

/-- terraform ParseResourceAddress. -/
def parseResourceAddress (s : String) : Except TfErr ResourceAddress := do
  let m ← tokenizeResourceAddress s
  let mode := if capGet m .dataPfx ≠ "" then ResourceMode.data
              else ResourceMode.managed
  let resourceIndex ← parseResourceIndex (capGet m .idx)
  let instanceType ← parseInstanceType (capGet m .instType)
  let path := parseResourcePath (capGet m .path)
  if mode = .data && capGet m .typ = "" then
    .error (.dataWithoutType s)
  else
    .ok { path := path, idx := resourceIndex, instType := instanceType,
          instTypeSet := capGet m .instType ≠ "",
          name := capGet m .name, typ := capGet m .typ, mode := mode }

/-- terraform ResourceAddress.String. -/
def resourceAddressString (r : ResourceAddress) : String :=
  let parts := r.path.flatMap fun p => ["module", p]
  let parts := parts ++ (match r.mode with
    | .managed => []
    | .data => ["data"])
  let parts := parts ++ (if r.typ ≠ "" then [r.typ] else [])
  let parts := parts ++
    (if r.name ≠ "" then
      let n := r.name
      let n := if r.instTypeSet then
          match r.instType with
          | .primary => n ++ ".primary"
          | .deposed => n ++ ".deposed"
          | .tainted => n ++ ".tainted"
          | .invalid => n
        else n
      let n := if r.idx ≥ 0 then n ++ "[" ++ toString r.idx ++ "]" else n
      [n]
    else [])
  joinDots parts

/-! ## State graph model

tf.State / tf.ModuleState / tf.ResourceState as used by package tfx.  Go's
unordered maps become association lists; Apply's per-map iteration order is
fixed to list order, a deterministic refinement (its observable results are
iteration-order independent: collisions are detected symmetrically and all
rebuilt dependency lists are sorted). -/

structure InstanceState where
  id : String := ""
  attributes : List (String × String) := []
deriving DecidableEq, Repr

/-- A decoded attribute value, as produced by schema.ResourceData.Get:
nested lists, sets and maps of string leaves.  `other` stands for any value
of a type getValsHelper does not handle. -/
inductive Val where
  | str (s : String)
  | list (xs : List Val)
  | set (xs : List Val)
  | map (m : List (String × Val))
  | null
  | other
deriving Repr

structure ResourceState where
  typ : String := ""
  dependencies : List String := []
  primary : InstanceState := {}
  /-- Modelled from the spec: the schema-decoded attribute tree returned by
  Resource.Data().Get (the Resource.Data helper is not part of the provided
  sources); per §4.4 it maps a top-level attribute name to its decoded
  value. -/
  dataVals : List (String × Val) := []
deriving Repr

structure ModuleState where
  path : List String
  resources : List (String × ResourceState)
deriving Repr

structure TfState where
  modules : List ModuleState
deriving Repr

/-- terraform State.ModuleByPath, returning the index of the first module
with the given path (pointer identity is modelled by the index). -/
def moduleIdxByPath (s : TfState) (p : List String) : Option Nat :=
  s.modules.findIdx? fun m => m.path = p

/-! ## tfx/state.go: address conversions -/

/-- tfx stateKeyToAddress. -/
def stateKeyToAddress (path : List String) (key : String) :
    Except TfErr String := do
  let k ← parseResourceStateKey key
  let path := if path.length = 0 then rootModulePath else path
  .ok (resourceAddressString
    { path := path, idx := k.idx, instType := .invalid, instTypeSet := false,
      name := k.name, typ := k.typ, mode := k.mode })

/-- tfx addressToStateKey. -/
def addressToStateKey (addr : String) :
    Except TfErr (List String × String) := do
  let k ← parseResourceAddress addr
  if k.typ = "" || k.name = "" then
    .error (.incompleteAddress addr)
  else
    let path := if k.path.length = 0 then rootModulePath else k.path
    .ok (path, resourceStateKeyString
      { name := k.name, typ := k.typ, mode := k.mode, idx := k.idx })

/-! ## tfx/state.go: StateTransform.Apply -/

abbrev StateTransform := List (String × String)

/-- "module.root." (the rootPrefix constant in Apply). -/
def rootPfx : String := "module.root."

/-- A reference to a module object: either the i-th module of the input
state or the i-th module allocated in the temporary staging state.
State.AddModule is lookup-or-create, so nodes moved to the same absent
path share one staging module. -/
inductive ModRef where
  | real (i : Nat)
  | tmp (i : Nat)
deriving DecidableEq, Repr

/-- The per-resource node of Apply.  `repl` and `deps` hold node ids
(indices into the node list) in place of Go's pointers. -/
structure Node where
  addr : String
  key : String
  repl : Option Nat := none
  mod : Option ModRef
  res : ResourceState
  deps : List (Option Nat) := []
deriving Repr

/-- Abort of a phase: an error return or a Go panic. -/
inductive Abort where
  | fail (e : TfErr)
  | panicked (e : TfErr)
deriving Repr

/-- Outcome of Apply: success with the new state, an error return paired
with the state as the caller observes it after the call, or a panic (whose
partially mutated state is not modelled, since a Go panic aborts). -/
inductive ApplyOut where
  | ok (s' : TfState)
  | err (e : TfErr) (after : TfState)
  | panicked (e : TfErr)
deriving Repr

/-- Replaces the i-th node. -/
def nodeUpdate (nodes : List Node) (i : Nat) (f : Node → Node) : List Node :=
  match nodes[i]? with
  | some n => nodes.set i (f n)
  | none => nodes

/-- Go map insert (replace an existing key in place, else append). -/
def tmInsert : List (String × Nat) → String → Nat → List (String × Nat)
  | [], a, nid => [(a, nid)]
  | e :: rest, a, nid =>
    if e.1 = a then (a, nid) :: rest else e :: tmInsert rest a nid

/-- Step 1, per module: add a node per resource (state key decoded to an
address), panicking on a duplicate address across the whole state. -/
def phase1Res (mi : Nat) (path : List String) :
    List (String × ResourceState) → List Node → Except Abort (List Node)
  | [], acc => .ok acc
  | (k, r) :: rest, acc =>
    match stateKeyToAddress path k with
    | .error e => .error (.fail e)
    | .ok addr =>
      if acc.any (fun n => n.addr = addr) then
        .error (.panicked (.panicAddrCollision addr))
      else
        phase1Res mi path rest
          (acc ++ [{ addr := addr, key := k, mod := some (.real mi),
                     res := r }])

/-- Step 1, per module: the module-local key-to-node map used to resolve
dependencies (last write wins, like a Go map). -/
def moduleMapOf (nodes : List Node) (ids : List Nat) :
    List (String × Nat) :=
  ids.foldl (fun acc j =>
    match nodes[j]? with
    | some n => tmInsert acc n.key j
    | none => acc) []

/-- Step 1, per module: resolve every dependency of the module's nodes to a
sibling node id (`none` marks a dangling reference). -/
def resolveDeps (nodes : List Node) (ids : List Nat) : List Node :=
  let mm := moduleMapOf nodes ids
  ids.foldl (fun acc j =>
    nodeUpdate acc j fun n =>
      { n with deps := n.res.dependencies.map fun d => mm.lookup d }) nodes

/-- Step 1: index all modules.  Node ids are allocated in module order and,
within a module, resource order. -/
def phase1Go : Nat → List ModuleState → List Node → Except Abort (List Node)
  | _, [], acc => .ok acc
  | mi, m :: ms, acc => do
    let start := acc.length
    let acc ← phase1Res mi m.path m.resources acc
    let acc := resolveDeps acc (List.range' start (acc.length - start))
    phase1Go (mi + 1) ms acc

def phase1 (s : TfState) : Except Abort (List Node) :=
  phase1Go 0 s.modules []

/-- Step 2: the transform lookup for a node address — the address itself,
then (for root-module resources) its unqualified form. -/
def lookupMapping (st : StateTransform) (naddr : String) : Option String :=
  match st.lookup naddr with
  | some v => some v
  | none =>
    if hasPfx naddr rootPfx then st.lookup (dropPfx naddr rootPfx)
    else none

/-- Step 2: a destination address without a "module." qualifier refers to
the root module. -/
def normalizeDest (a : String) : String :=
  if hasPfx a "module." then a else rootPfx ++ a

/-- Step 2: apply the transform to each node, recording results keyed by
final address; an unmapped node is kept unless superseded by a mapped one,
a node mapped to "" is deleted, and two explicitly mapped nodes with the
same destination are an AddressCollisionError. -/
def phase2Go (st : StateTransform) :
    List Nat → List Node → List (String × Nat) →
    Except TfErr (List Node × List (String × Nat))
  | [], nodes, tm => .ok (nodes, tm)
  | nid :: rest, nodes, tm =>
    match nodes[nid]? with
    | none => phase2Go st rest nodes tm
    | some n =>
      match lookupMapping st n.addr with
      | none =>
        (match tm.lookup n.addr with
        | none => phase2Go st rest nodes (tmInsert tm n.addr nid)
        | some rid =>
          phase2Go st rest
            (nodeUpdate nodes nid fun n =>
              { n with repl := some rid, mod := none }) tm)
      | some a =>
        if a = "" then
          phase2Go st rest
            (nodeUpdate nodes nid fun n => { n with mod := none }) tm
        else
          let a := normalizeDest a
          let next (nodes' : List Node) : Except TfErr (List Node × List (String × Nat)) :=
            phase2Go st rest
              (nodeUpdate nodes' nid fun n =>
                { n with addr := a, key := "" }) (tmInsert tm a nid)
          match tm.lookup a with
          | some uid =>
            (match nodes[uid]? with
            | some u =>
              if u.key = "" then .error (.addressCollision a)
              else next (nodeUpdate nodes uid fun u =>
                { u with repl := some nid, mod := none })
            | none => next nodes)
          | none => next nodes

def phase2 (st : StateTransform) (nodes : List Node) :
    Except TfErr (List Node × List (String × Nat)) :=
  phase2Go st (List.range nodes.length) nodes []

/-- Step 3: give every moved node its new key and destination module
(tmpState.AddModule is lookup-or-create: a staging module is allocated for
a path absent from the state only once and then reused), then follow one
level of replacement indirection in every dependency link. -/
def phase3Go (s : TfState) :
    List (String × Nat) → List Node → List (List String) →
    Except TfErr (List Node × List (List String))
  | [], nodes, tmps => .ok (nodes, tmps)
  | (_, nid) :: rest, nodes, tmps =>
    match nodes[nid]? with
    | none => phase3Go s rest nodes tmps
    | some n => do
      let (nodes, tmps) ←
        if n.key = "" then do
          let (path, key) ← addressToStateKey n.addr
          let (mref, tmps) :=
            match moduleIdxByPath s path with
            | some i => (ModRef.real i, tmps)
            | none =>
              match tmps.findIdx? (fun q => q = path) with
              | some t => (ModRef.tmp t, tmps)
              | none => (ModRef.tmp tmps.length, tmps ++ [path])
          pure (nodeUpdate nodes nid fun n =>
            { n with key := key, mod := some mref }, tmps)
        else
          pure (nodes, tmps)
      let nodes := nodeUpdate nodes nid fun n =>
        { n with deps := n.deps.map fun d =>
            match d with
            | some did =>
              (match nodes[did]? with
              | some dn => match dn.repl with
                | some rid => some rid
                | none => d
              | none => d)
            | none => none }
      phase3Go s rest nodes tmps

def phase3 (s : TfState) (nodes : List Node) (tm : List (String × Nat)) :
    Except TfErr (List Node × List (List String)) :=
  phase3Go s tm nodes []

/-- Step 5, per node: the rebuilt dependency list — superseded references
were already redirected, references to deleted nodes and to nodes now in a
different module are dropped (unresolved references keep their original
key), self references and empty entries are dropped, and the rest is
deduplicated and sorted. -/
def newDepsOf (nodes : List Node) (n : Node) : List String :=
  let collected := (n.res.dependencies.zip n.deps).filterMap fun od =>
    match od.2 with
    | none => some od.1
    | some did =>
      match nodes[did]? with
      | some dn => if dn.mod = n.mod then some dn.key else none
      | none => none
  sortedDedup (collected.filter fun dep => dep ≠ "" && dep ≠ n.key)

/-- Steps 4 and 5: the resources written into each module object (the
original maps having been cleared), in transform-map order, panicking if
two surviving nodes share a module object and state key. -/
def phase45Go (nodes : List Node) :
    List (String × Nat) → List (ModRef × String × ResourceState) →
    Except TfErr (List (ModRef × String × ResourceState))
  | [], writes => .ok writes
  | (_, nid) :: rest, writes =>
    match nodes[nid]? with
    | none => phase45Go nodes rest writes
    | some n =>
      match n.mod with
      | none => phase45Go nodes rest writes
      | some mref =>
        if writes.any (fun w => w.1 = mref && w.2.1 = n.key) then
          .error (.panicKeyCollision n.key)
        else
          phase45Go nodes rest
            (writes ++ [(mref, n.key,
              { n.res with dependencies := newDepsOf nodes n })])

/-- State sort order of terraform State.sort: shorter paths first, then
lexicographic on the dot-joined path. -/
def modLess (a b : ModuleState) : Bool :=
  if a.path.length ≠ b.path.length then
    decide (a.path.length < b.path.length)
  else strLt (joinDots a.path) (joinDots b.path)

/-- Stable insertion into a sorted module list (ties keep earlier entries
first). -/
def modInsert (x : ModuleState) : List ModuleState → List ModuleState
  | [] => [x]
  | y :: ys => if modLess x y then x :: y :: ys else y :: modInsert x ys

def sortMods (l : List ModuleState) : List ModuleState :=
  l.foldl (fun acc x => modInsert x acc) []

/-- Replace the staging module with the same path (AddModuleState), else
append. -/
def survIns : List (Nat × List String) → Nat × List String →
    List (Nat × List String)
  | [], e => [e]
  | f :: rest, e => if f.2 = e.2 then e :: rest else f :: survIns rest e

/-- Steps 4 and 5, assembly: original modules keep their position with
rebuilt resource maps; staging modules are installed by AddModuleState
(a later staging module replaces an earlier one with the same path), and
adding any staging module re-sorts the module list. -/
def assemble (s : TfState) (tmps : List (List String))
    (writes : List (ModRef × String × ResourceState)) : TfState :=
  let realMods := s.modules.mapIdx fun i m =>
    { m with resources := writes.filterMap fun w =>
        if w.1 = ModRef.real i then some w.2 else none }
  let tmpObjs := (List.range tmps.length).zip tmps
  let surv := tmpObjs.foldl survIns []
  let tmpMods := surv.map fun e =>
    { path := e.2, resources := writes.filterMap fun w =>
        if w.1 = ModRef.tmp e.1 then some w.2 else none : ModuleState }
  if tmps.isEmpty then { modules := realMods }
  else { modules := sortMods (realMods ++ tmpMods) }

/-- tfx StateTransform.Apply, composed from the five steps.  Every error
return happens before the state is mutated, so the state paired with an
error outcome is the input state. -/
def StateTransform.Apply (st : StateTransform) (s : TfState) : ApplyOut :=
  if st.isEmpty then .ok s
  else
    match phase1 s with
    | .error (.fail e) => .err e s
    | .error (.panicked e) => .panicked e
    | .ok nodes =>
      match phase2 st nodes with
      | .error e => .err e s
      | .ok (nodes, tm) =>
        match phase3 s nodes tm with
        | .error e => .err e s
        | .ok (nodes, tmps) =>
          match phase45Go nodes tm [] with
          | .error e => .panicked e
          | .ok writes => .ok (assemble s tmps writes)

/-- The loop of StateTransform.Inverse over the remaining entries. -/
def invGo : StateTransform → StateTransform → Option StateTransform
  | [], inv => some inv
  | e :: rest, inv =>
    if e.2 = "" || inv.any (fun f => f.1 = e.2) then none
    else invGo rest (inv ++ [(e.2, e.1)])

/-- tfx StateTransform.Inverse: the reversed mapping, or none when the
transform deletes a resource or maps two sources to one destination. -/
def StateTransform.Inverse (st : StateTransform) : Option StateTransform :=
  invGo st []

/-! ## tfx/provider.go: dependency inference -/

/-- tfx DepSpec. -/
structure DepSpec where
  attr : String
  srcType : String
  srcAttr : String
deriving DecidableEq, Repr

/-- tfx DepMap (resource type to dependency specifications). -/
abbrev DepMap := List (String × List DepSpec)

/-- tfx Resource (a state key paired with its resource state). -/
structure Resource where
  key : String
  state : ResourceState
deriving Repr

/-- tfx splitAttr: split at the first dot. -/
def splitAttrL : List Char → List Char × List Char
  | [] => ([], [])
  | c :: cs =>
    if c = '.' then ([], cs)
    else
      let p := splitAttrL cs
      (c :: p.1, p.2)

def splitAttr (s : String) : String × String :=
  let p := splitAttrL s.data
  (⟨p.1⟩, ⟨p.2⟩)

/-- Modelled from the spec: Resource.Data().Get(attr) (the Data helper is
not part of the provided sources) — the schema-decoded value of a top-level
attribute, a missing attribute reading as a nil value. -/
def dataGet (r : ResourceState) (attr : String) : Val :=
  (r.dataVals.lookup attr).getD .null

mutual

/-- tfx getValsHelper: collect the non-empty string leaves of a decoded
value at the remaining dotted path, recursing through lists, sets and maps;
a leaf with path left over or an unhandled value type is a panic. -/
def getValsHelper : Val → String → String → Except TfErr (List String)
  | .str s, typ, next =>
    if next ≠ "" then .error (.unexpectedNextAttr typ next)
    else .ok (if s ≠ "" then [s] else [])
  | .list xs, typ, next => getValsHelperList xs typ next
  | .set xs, typ, next => getValsHelperList xs typ next
  | .map m, typ, next =>
    if next = "" then getValsHelperAll m typ
    else
      let p := splitAttr next
      getValsHelperFind m p.1 typ p.2
  | .null, _, _ => .ok []
  | .other, typ, _ => .error (.unexpectedValType typ)

/-- Helper: a list or set member sequence, values concatenated in order. -/
def getValsHelperList : List Val → String → String → Except TfErr (List String)
  | [], _, _ => .ok []
  | v :: vs, typ, next => do
    let a ← getValsHelper v typ next
    let b ← getValsHelperList vs typ next
    .ok (a ++ b)

/-- Helper: all values of a map when the attribute path is exhausted. -/
def getValsHelperAll : List (String × Val) → String → Except TfErr (List String)
  | [], _ => .ok []
  | e :: rest, typ => do
    let a ← getValsHelper e.2 typ ""
    let b ← getValsHelperAll rest typ
    .ok (a ++ b)

/-- Helper: descend into a map at one path segment (a missing key is a nil
value, contributing nothing). -/
def getValsHelperFind : List (String × Val) → String → String → String →
    Except TfErr (List String)
  | [], _, _, _ => .ok []
  | e :: rest, attr, typ, next =>
    if e.1 = attr then getValsHelper e.2 typ next
    else getValsHelperFind rest attr typ next

end

/-- tfx getVals: all non-empty values of a (possibly nested) attribute; a
flat attribute hit is returned directly, otherwise the decoded tree is
walked. -/
def getVals (r : ResourceState) (attr : String) : Except TfErr (List String) :=
  match r.primary.attributes.lookup attr with
  | some v => .ok (if v ≠ "" then [v] else [])
  | none =>
    let p := splitAttr attr
    getValsHelper (dataGet r p.1) r.typ p.2

/-- tfx unique: sort and deduplicate, returning short lists unchanged. -/
def unique (s : List String) : List String :=
  if s.length < 2 then s else sortedDedup s

/-- tfx DepSpec.infer: for each candidate source of the spec's source type
(other than the destination itself), add a dependency when the source
attribute has exactly one value and it occurs among the destination values;
more than one source value is a panic. -/
def DepSpec.infer (ds : DepSpec) (dst : Resource)
    (typeMap : List (String × List Resource)) : Except TfErr Resource :=
  let srcs := (typeMap.lookup ds.srcType).getD []
  if srcs.isEmpty then .ok dst
  else do
    let vals ← getVals dst.state ds.attr
    if vals.isEmpty then .ok dst
    else
      srcs.foldlM (fun dst src =>
        if dst.key = src.key then .ok dst
        else do
          let sv ← getVals src.state ds.srcAttr
          match sv with
          | [v1] =>
            .ok (if vals.contains v1 then
                { dst with state := { dst.state with dependencies :=
                    dst.state.dependencies ++ [src.key] } }
              else dst)
          | _ :: _ :: _ => .error (.ambiguousSource ds.srcType ds.srcAttr)
          | [] => .ok dst) dst

/-- Append a resource to its type's group (Go map lookup plus append). -/
def typeMapApp : List (String × List Resource) → String → Resource →
    List (String × List Resource)
  | [], t, r => [(t, [r])]
  | e :: rest, t, r =>
    if e.1 = t then (e.1, e.2 ++ [r]) :: rest else e :: typeMapApp rest t r

/-- The per-module grouping of resources by type (typeMap in Infer). -/
def moduleTypeMap (m : ModuleState) : List (String × List Resource) :=
  m.resources.foldl (fun acc e =>
    typeMapApp acc e.2.typ { key := e.1, state := e.2 }) []

/-- tfx DepMap.Infer on a single resource: run every spec of its type, then
deduplicate when anything was added. -/
def inferRes (dm : DepMap) (tmap : List (String × List Resource))
    (k : String) (r : ResourceState) : Except TfErr (String × ResourceState) :=
  let specs := (dm.lookup r.typ).getD []
  if specs.isEmpty then .ok (k, r)
  else do
    let res ← specs.foldlM (fun cur sp => sp.infer cur tmap)
      ({ key := k, state := r } : Resource)
    let deps := res.state.dependencies
    .ok (k, { res.state with dependencies :=
      if deps.length ≠ r.dependencies.length then unique deps else deps })

/-- tfx DepMap.Infer: updates dependencies for all resources; a panic in
any inference step aborts the whole pass. -/
def DepMap.Infer (dm : DepMap) (s : TfState) : Except TfErr TfState := do
  let modules ← s.modules.mapM fun m => do
    let tmap := moduleTypeMap m
    let resources ← m.resources.mapM fun e => inferRes dm tmap e.1 e.2
    pure { m with resources := resources }
  pure { modules := modules }

/-! ## Equivalences and well-formedness used by the statements -/

/-- Set equality of dependency lists. -/
def DepsSetEq (a b : List String) : Prop :=
  ∀ d, d ∈ a ↔ d ∈ b

/-- Equality of resources up to set equality of the dependency list. -/
def ResEquivDeps (a b : ResourceState) : Prop :=
  a.typ = b.typ ∧ a.primary = b.primary ∧ DepsSetEq a.dependencies b.dependencies

/-- Equality of resource maps as finite maps (Go map deep equality),
values compared by R. -/
def ResMapEquiv (R : ResourceState → ResourceState → Prop)
    (a b : List (String × ResourceState)) : Prop :=
  (∀ k, (a.lookup k).isSome ↔ (b.lookup k).isSome) ∧
  (∀ k ra rb, a.lookup k = some ra → b.lookup k = some rb → R ra rb)

/-- Deep equality of states with dependency lists compared as sets (module
lists pointwise, resource maps as maps). -/
def StateEquiv (a b : TfState) : Prop :=
  a.modules.length = b.modules.length ∧
  ∀ (i : Nat) (ma mb : ModuleState),
    a.modules[i]? = some ma → b.modules[i]? = some mb →
    ma.path = mb.path ∧ ResMapEquiv ResEquivDeps ma.resources mb.resources

/-- No dependency of any resource dangles: each one is the state key of a
resource in the same module. -/
def NoDangling (s : TfState) : Prop :=
  ∀ m ∈ s.modules, ∀ e ∈ m.resources, ∀ d ∈ e.2.dependencies,
    ∃ r', (d, r') ∈ m.resources

/-- Per-module state keys are unique (Go map keys). -/
def WFKeys (s : TfState) : Prop :=
  ∀ m ∈ s.modules, (m.resources.map Prod.fst).Nodup

/-! ## Concrete states used to instantiate the theorems -/

/-- The graph of the collision scenario: root resources a.a and b.b. -/
def collisionState : TfState :=
  { modules := [
      { path := ["root"]
        resources := [("a.a", { typ := "a" }), ("b.b", { typ := "b" })] }] }

/-- The transform of the collision scenario. -/
def collisionTr : StateTransform := [("a.a", "c.c"), ("b.b", "c.c")]

/-- The graph of the rename scenario: x.x, y.y (deps x.x),
z.z (deps x.x y.y). -/
def renameState : TfState :=
  { modules := [
      { path := ["root"]
        resources := [
          ("x.x", { typ := "x" }),
          ("y.y", { typ := "y", dependencies := ["x.x"] }),
          ("z.z", { typ := "z", dependencies := ["x.x", "y.y"] })] }] }

/-- The expected result of the rename scenario: w.w, y.y (deps w.w),
z.z (deps w.w y.y). -/
def renameResult : TfState :=
  { modules := [
      { path := ["root"]
        resources := [
          ("w.w", { typ := "x" }),
          ("y.y", { typ := "y", dependencies := ["w.w"] }),
          ("z.z", { typ := "z", dependencies := ["w.w", "y.y"] })] }] }

/-- The result of replacing b.b by a.a (one explicitly mapped source, one
merely kept): a replacement, not a collision. -/
def replaceResult : TfState :=
  { modules := [
      { path := ["root"]
        resources := [("b.b", { typ := "a" })] }] }

/-- The nodes phase 1 builds for collisionState. -/
def collisionNodes : List Node :=
  [{ addr := "module.root.a.a", key := "a.a", mod := some (.real 0),
     res := { typ := "a" } },
   { addr := "module.root.b.b", key := "b.b", mod := some (.real 0),
     res := { typ := "b" } }]

/-- The dependency-inference scenario graph: gadget.g1 with id g1 and
widget.w1 whose ref attribute is g1. -/
def inferScenario : TfState :=
  { modules := [
      { path := ["root"]
        resources := [
          ("gadget.g1", { typ := "gadget"
                          primary := { attributes := [("id", "g1")] } }),
          ("widget.w1", { typ := "widget"
                          primary := { attributes := [("ref", "g1")] } })] }] }

/-- The rule table of the dependency-inference scenario. -/
def inferDm : DepMap :=
  [("widget", [{ attr := "ref", srcType := "gadget", srcAttr := "id" }])]

/-- The inference scenario result: widget.w1 depends on gadget.g1. -/
def inferScenarioOut : TfState :=
  { modules := [
      { path := ["root"]
        resources := [
          ("gadget.g1", { typ := "gadget"
                          primary := { attributes := [("id", "g1")] } }),
          ("widget.w1", { typ := "widget"
                          dependencies := ["gadget.g1"]
                          primary := { attributes := [("ref", "g1")] } })] }] }

/-- Every attribute flattening the inference pass can perform on this
state succeeds (no AttributePathError anywhere), so the only possible
abort is the ambiguous-source panic. -/
def CleanGetVals (dm : DepMap) (s : TfState) : Prop :=
  ∀ m ∈ s.modules, ∀ e ∈ m.resources,
    ∀ sp ∈ (dm.lookup e.2.typ).getD [],
      (∃ vs, getVals e.2 sp.attr = .ok vs) ∧
      ∀ src ∈ ((moduleTypeMap m).lookup sp.srcType).getD [],
        ∃ vs, getVals src.state sp.srcAttr = .ok vs

/-- The ambiguity scenario source: its id attribute decodes to two
values. -/
def ambGadgetRS : ResourceState :=
  { typ := "gadget", dataVals := [("id", .list [.str "a", .str "b"])] }

/-- The ambiguity scenario destination. -/
def ambWidgetRS : ResourceState :=
  { typ := "widget", primary := { attributes := [("ref", "a")] } }

def ambModule : ModuleState :=
  { path := ["root"]
    resources := [("gadget.g1", ambGadgetRS), ("widget.w1", ambWidgetRS)] }

/-- The ambiguity scenario graph. -/
def ambScenario : TfState := { modules := [ambModule] }

/-- The explicit destination of a node under a transform: its resolved
mapping when present, non-deleting, and normalized. -/
def explicitDest (st : StateTransform) (n : Node) : Option String :=
  match lookupMapping st n.addr with
  | some a => if a = "" then none else some (normalizeDest a)
  | none => none

/-- Two transforms resolve an address equivalently when the phase-2 lookup
yields no mapping in both, or mappings that agree on deletion and on the
normalized destination. -/
def MappingEquiv (st1 st2 : StateTransform) (x : String) : Prop :=
  match lookupMapping st1 x, lookupMapping st2 x with
  | none, none => True
  | some a1, some a2 =>
    (a1 = "" ↔ a2 = "") ∧ normalizeDest a1 = normalizeDest a2
  | _, _ => False

/-- The dangling-edge scenario graph: x.x carries a dependency on a
resource key that exists nowhere, y.y depends on x.x. -/
def danglingState : TfState :=
  { modules := [
      { path := ["root"]
        resources := [
          ("x.x", { typ := "x", dependencies := ["ghost.g"] }),
          ("y.y", { typ := "y", dependencies := ["x.x"] })] }] }

/-- The transform of the dangling-edge scenario. -/
def danglingTr : StateTransform := [("x.x", "x.x2")]

/-- What Apply returns on the dangling-edge scenario: the rename went
through, the resolved edge was rewired, and the dangling key survived
verbatim. -/
def danglingResult : TfState :=
  { modules := [
      { path := ["root"]
        resources := [
          ("x.x2", { typ := "x", dependencies := ["ghost.g"] }),
          ("y.y", { typ := "y", dependencies := ["x.x2"] })] }] }

/-- No dependency slot of any node is an unresolved (nil) reference. -/
def DepsClosed (nodes : List Node) : Prop :=
  ∀ (i : Nat) (n : Node), nodes[i]? = some n → (none : Option Nat) ∉ n.deps

/-- Every node that still owns a module object is reachable from the
transform map. -/
def TmCovers (tm : List (String × Nat)) (nodes : List Node) : Prop :=
  ∀ (j : Nat) (dn : Node), nodes[j]? = some dn → dn.mod ≠ none →
    ∃ a, (a, j) ∈ tm

/-- The matcher's first (most preferred) outcome: captures k' with
remaining input s'. -/
def FirstRun (r : RE) (s : List Char) (k k' : Captures)
    (s' : List Char) : Prop :=
  ∃ t, reRun r s k = (k', s') :: t

/-- The rendered characters of a module path: "module." then the component
then the separating dot, per component. -/
def pRenderL (ps : List String) : List Char :=
  ps.flatMap fun p => "module.".data ++ (p.data ++ ['.'])

/-- The state after the inverse round trip of the replacement scenario:
b.b's original resource is gone for good. -/
def invRoundOut : TfState :=
  { modules := [
      { path := ["root"]
        resources := [("a.a", { typ := "a" })] }] }

/-- A state with a single module. -/
def singleMod (p : List String)
    (R : List (String × ResourceState)) : TfState :=
  { modules := [{ path := p, resources := R }] }

/-- The final address a transform gives the resource keyed k of the module
at path p (the address itself when the key is unmapped). -/
def renAddr (T : StateTransform) (p : List String) (k : String) : String :=
  match stateKeyToAddress p k with
  | .ok a =>
    match T.lookup a with
    | some v => normalizeDest v
    | none => a
  | .error _ => k

/-- The new state key a transform gives the resource keyed k of the module
at path p. -/
def renKey (T : StateTransform) (p : List String) (k : String) : String :=
  match stateKeyToAddress p k with
  | .ok a =>
    match T.lookup a with
    | some v =>
      match addressToStateKey v with
      | .ok pr => pr.2
      | .error _ => k
    | none => k
  | .error _ => k

/-- The relabeling Apply performs on one resource entry under a clean
same-module transform: the key is renamed, and the dependency list is
renamed, deduplicated and sorted. -/
def renRes (T : StateTransform) (p : List String)
    (e : String × ResourceState) : String × ResourceState :=
  (renKey T p e.1,
   { e.2 with dependencies :=
       sortedDedup (e.2.dependencies.map (renKey T p)) })

/-- The j-th state key of a resource list ("" out of range). -/
def kIdx (R : List (String × ResourceState)) (j : Nat) : String :=
  match R[j]? with
  | some e => e.1
  | none => ""

/-- The j-th resource of a resource list. -/
def rIdx (R : List (String × ResourceState)) (j : Nat) : ResourceState :=
  match R[j]? with
  | some e => e.2
  | none => {}

/-- Whether the transform explicitly maps the j-th resource's address. -/
def mappedIdx (T : StateTransform) (p : List String)
    (R : List (String × ResourceState)) (j : Nat) : Bool :=
  match stateKeyToAddress p (kIdx R j) with
  | .ok a => (T.lookup a).isSome
  | .error _ => false

/-- The kept dependency keys of step 5, over explicit (original key,
resolved slot) pairs: what newDepsOf collects before filtering. -/
def colOf (nodes : List Node) (m : Option ModRef)
    (pairs : List (String × Option Nat)) : List String :=
  pairs.filterMap fun od =>
    match od.2 with
    | none => some od.1
    | some did =>
      match nodes[did]? with
      | some dn => if dn.mod = m then some dn.key else none
      | none => none

/-- Cleanliness of a single-module graph: state keys are unique; every key
renders to an address that decodes back to the same identity; and every
dependency names a sibling other than the resource itself. -/
def CleanGraph (p : List String)
    (R : List (String × ResourceState)) : Prop :=
  (R.map Prod.fst).Nodup ∧
  (∀ e ∈ R, ∃ a, stateKeyToAddress p e.1 = .ok a ∧
    addressToStateKey a = .ok (p, e.1)) ∧
  (∀ e ∈ R, ∀ d ∈ e.2.dependencies, d ≠ e.1 ∧ ∃ r', (d, r') ∈ R)

/-- The module.root.-stripped probe of step 2 misses the transform at
address x: either x is not root-qualified, or no entry of T mentions the
stripped form on either side (canonical identities never trip this: a
stripped address whose shape still parses within the same module would
need a resource type spelled "module", which the tokenizer folds into the
path). -/
abbrev probeMiss (T : StateTransform) (x : String) : Prop :=
  hasPfx x rootPfx = true →
    ∀ e ∈ T, e.1 ≠ dropPfx x rootPfx ∧ e.2 ≠ dropPfx x rootPfx

/-- Cleanliness of a transform against a single-module graph: nonempty,
with unique sources, injective; every entry relates two canonical
addresses of the module at path p; a destination that is an existing
address of the graph is itself a source of the transform (no implicit
replacements); and the root-stripped probe of step 2 misses the transform
at every address involved (graph addresses, sources and destinations). -/
def CleanTransform (p : List String)
    (R : List (String × ResourceState)) (T : StateTransform) : Prop :=
  T ≠ [] ∧
  (T.map Prod.fst).Nodup ∧
  (∀ e1 ∈ T, ∀ e2 ∈ T, e1.2 = e2.2 → e1.1 = e2.1) ∧
  (∀ e ∈ T,
    (∃ k1, addressToStateKey e.1 = .ok (p, k1) ∧
      stateKeyToAddress p k1 = .ok e.1) ∧
    (∃ k2, addressToStateKey e.2 = .ok (p, k2) ∧
      stateKeyToAddress p k2 = .ok e.2)) ∧
  (∀ e ∈ T, ∀ e' ∈ R, stateKeyToAddress p e'.1 = .ok e.2 →
    ∃ e0 ∈ T, e0.1 = e.2) ∧
  (∀ e' ∈ R, ∀ a, stateKeyToAddress p e'.1 = .ok a → probeMiss T a) ∧
  (∀ e ∈ T, probeMiss T e.1 ∧ probeMiss T e.2)

/-! ## Theorems -/

theorem strData_append (a b : String) : (a ++ b).data = a.data ++ b.data := by
  cases a
  cases b
  rfl

theorem hasPfxL_append (p s : List Char) : hasPfxL p (p ++ s) = true := by
  induction p with
  | nil => rfl
  | cons c cs ih => simpa [hasPfxL] using ih

theorem hasPfx_append (p s : String) : hasPfx (p ++ s) p = true := by
  unfold hasPfx
  rw [strData_append]
  exact hasPfxL_append _ _

theorem dropPfx_append (p s : String) : dropPfx (p ++ s) p = s := by
  unfold dropPfx
  rw [strData_append, List.drop_left]

theorem hasPfxL_exists {p s : List Char} (h : hasPfxL p s = true) :
    ∃ t, s = p ++ t := by
  induction p generalizing s with
  | nil => exact ⟨s, rfl⟩
  | cons c cs ih =>
    cases s with
    | nil => simp [hasPfxL] at h
    | cons d ds =>
      simp only [hasPfxL, Bool.and_eq_true, decide_eq_true_eq] at h
      obtain ⟨t, ht⟩ := ih h.2
      exact ⟨t, by rw [h.1, ht]; rfl⟩

theorem hasPfx_exists {s p : String} (h : hasPfx s p = true) :
    ∃ t, s = p ++ t := by
  obtain ⟨t, ht⟩ := hasPfxL_exists h
  refine ⟨⟨t⟩, ?_⟩
  cases s
  cases p
  exact congrArg String.mk ht

theorem pfx_add_drop {s p : String} (h : hasPfx s p = true) :
    p ++ dropPfx s p = s := by
  obtain ⟨t, rfl⟩ := hasPfx_exists h
  rw [dropPfx_append]

theorem append_ne_self (p s : String) (hp : p.data ≠ []) :
    p ++ s ≠ s := by
  intro h
  have := congrArg (fun x => x.data.length) h
  simp only [strData_append, List.length_append] at this
  have : p.data.length = 0 := by omega
  exact hp (List.length_eq_zero.mp this)

theorem strAppend_assoc (a b c : String) :
    a ++ b ++ c = a ++ (b ++ c) := by
  cases a with | _ la =>
  cases b with | _ lb =>
  cases c with | _ lc =>
  exact congrArg String.mk (List.append_assoc la lb lc)

theorem rootPfx_module : rootPfx = "module." ++ "root." := by rfl

theorem normalizeDest_hasPfx (a : String) :
    hasPfx (normalizeDest a) "module." = true := by
  unfold normalizeDest
  by_cases h : hasPfx a "module." = true
  · rw [if_pos h]
    exact h
  · rw [if_neg h, rootPfx_module, strAppend_assoc]
    exact hasPfx_append _ _

theorem invGo_ok (st inv : StateTransform)
    (h1 : ∀ e ∈ st, e.2 ≠ "") (h2 : (st.map Prod.snd).Nodup)
    (h3 : ∀ e ∈ st, ∀ f ∈ inv, f.1 ≠ e.2) :
    invGo st inv = some (inv ++ st.map fun e => (e.2, e.1)) := by
  induction st generalizing inv with
  | nil => simp [invGo]
  | cons e rest ih =>
    have he : e.2 ≠ "" := h1 e (by simp)
    have hnd : e.2 ∉ rest.map Prod.snd ∧ (rest.map Prod.snd).Nodup := by
      simpa using h2
    have hinv : ∀ x ∈ rest, ∀ f ∈ inv ++ [(e.2, e.1)], f.1 ≠ x.2 := by
      intro x hx f hf
      rcases List.mem_append.mp hf with hf | hf
      · exact h3 x (by simp [hx]) f hf
      · simp only [List.mem_singleton] at hf
        subst hf
        intro heq
        refine hnd.1 ?_
        rw [show e.2 = x.2 from heq]
        exact List.mem_map_of_mem Prod.snd hx
    rw [invGo, if_neg]
    · rw [ih (inv ++ [(e.2, e.1)]) (fun x hx => h1 x (by simp [hx]))
        hnd.2 hinv]
      simp
    · simp only [Bool.or_eq_true, decide_eq_true_eq, List.any_eq_true,
        not_or]
      refine ⟨he, ?_⟩
      rintro ⟨f, hf, hfe⟩
      exact h3 e (by simp) f hf hfe

theorem invGo_none (st inv : StateTransform)
    (h : (∃ e ∈ st, e.2 = "") ∨ ¬ (st.map Prod.snd).Nodup ∨
      ∃ e ∈ st, ∃ f ∈ inv, f.1 = e.2) :
    invGo st inv = none := by
  induction st generalizing inv with
  | nil => simp at h
  | cons e rest ih =>
    by_cases hcond : (e.2 = "" || inv.any (fun f => f.1 = e.2)) = true
    · simp only [invGo, hcond, if_true]
    · rw [invGo, if_neg hcond]
      simp only [Bool.or_eq_true, decide_eq_true_eq, List.any_eq_true,
        not_or] at hcond
      apply ih
      rcases h with ⟨x, hx, hx2⟩ | h | ⟨x, hx, f, hf, hfx⟩
      · rcases List.mem_cons.mp hx with rfl | hx
        · exact absurd hx2 hcond.1
        · exact Or.inl ⟨x, hx, hx2⟩
      · simp only [List.map_cons, List.nodup_cons] at h
        by_cases hmem : e.2 ∈ rest.map Prod.snd
        · rcases List.mem_map.mp hmem with ⟨x, hx, hx2⟩
          exact Or.inr (Or.inr ⟨x, hx, (e.2, e.1), by simp, by simp [hx2]⟩)
        · exact Or.inr (Or.inl (fun hn => h ⟨hmem, hn⟩))
      · rcases List.mem_cons.mp hx with rfl | hx
        · exact False.elim (hcond.2 ⟨f, hf, hfx⟩)
        · exact Or.inr (Or.inr ⟨x, hx, f, List.mem_append_left _ hf, hfx⟩)

/-- C7: Inverse returns the reversed mapping exactly when the transform has
no empty-string (deletion) values and no duplicate destinations; otherwise
it returns the "no inverse" result (none). -/
theorem inverse_characterization (st : StateTransform) :
    ((∀ e ∈ st, e.2 ≠ "") ∧ (st.map Prod.snd).Nodup →
      StateTransform.Inverse st = some (st.map fun e => (e.2, e.1))) ∧
    (¬ ((∀ e ∈ st, e.2 ≠ "") ∧ (st.map Prod.snd).Nodup) →
      StateTransform.Inverse st = none) := by
  constructor
  · intro ⟨h1, h2⟩
    simpa using invGo_ok st [] h1 h2 (by simp)
  · intro h
    apply invGo_none
    rcases not_and_or.mp h with h | h
    · push_neg at h
      rcases h with ⟨x, hx, hx2⟩
      exact Or.inl ⟨x, hx, by simpa using hx2⟩
    · exact Or.inr (Or.inl h)

/-- C7 witness: a clean transform inverts; a deleting transform does not. -/
theorem inverse_characterization_witness :
    StateTransform.Inverse [("a.a", "b.b")] = some [("b.b", "a.a")] ∧
    StateTransform.Inverse [("a.a", "")] = none :=
  ⟨(inverse_characterization [("a.a", "b.b")]).1 (by decide),
   (inverse_characterization [("a.a", "")]).2 (by decide)⟩

/-- C1: whenever Apply returns an error, the state the caller observes is
exactly the input state — every mutation of the graph happens after the
last error return. -/
theorem apply_error_leaves_state (st : StateTransform) (s : TfState)
    (e : TfErr) (after : TfState)
    (h : StateTransform.Apply st s = .err e after) : after = s := by
  unfold StateTransform.Apply at h
  split at h
  · cases h
  · repeat' split at h
    all_goals try cases h
    all_goals rfl

/-- C1 witness: the collision scenario errors and leaves the graph as it
was. -/
theorem apply_error_leaves_state_witness : collisionState = collisionState :=
  apply_error_leaves_state collisionTr collisionState
    (.addressCollision "module.root.c.c") collisionState (by rfl)

/-- C5: the rename scenario — the transform x.x to w.w rewrites the moved
resource's key and redirects every edge that pointed at x.x to w.w. -/
theorem apply_rename_scenario :
    StateTransform.Apply [("x.x", "w.w")] renameState = .ok renameResult := by
  rfl

theorem mem_of_lookup {α β : Type} [BEq α] [LawfulBEq α]
    {l : List (α × β)} {a : α} {v : β}
    (h : l.lookup a = some v) : (a, v) ∈ l := by
  induction l with
  | nil => simp [List.lookup] at h
  | cons e rest ih =>
    rw [List.lookup] at h
    split at h
    · rename_i hae
      obtain rfl : a = e.1 := by simpa using hae
      obtain rfl : v = e.2 := by simpa using h.symm
      simp
    · exact List.mem_cons_of_mem _ (ih h)

theorem tmInsert_lookup_self (tm : List (String × Nat)) (a : String)
    (nid : Nat) : (tmInsert tm a nid).lookup a = some nid := by
  induction tm with
  | nil => simp [tmInsert, List.lookup]
  | cons e rest ih =>
    rw [tmInsert]
    split
    · simp [List.lookup]
    · rename_i hne
      rw [List.lookup]
      have : (a == e.1) = false := beq_false_of_ne fun h => hne h.symm
      rw [this]
      exact ih

theorem tmInsert_lookup_ne (tm : List (String × Nat)) (a b : String)
    (nid : Nat) (h : b ≠ a) :
    (tmInsert tm a nid).lookup b = tm.lookup b := by
  induction tm with
  | nil => simp [tmInsert, List.lookup, beq_false_of_ne h]
  | cons e rest ih =>
    rw [tmInsert]
    split
    · rename_i hea
      subst hea
      rw [List.lookup, List.lookup, beq_false_of_ne h]
    · rw [List.lookup, List.lookup]
      split
      · rfl
      · exact ih

theorem tmInsert_mem {tm : List (String × Nat)} {a : String} {nid : Nat}
    {e : String × Nat} (h : e ∈ tmInsert tm a nid) :
    e = (a, nid) ∨ e ∈ tm := by
  induction tm with
  | nil => simpa [tmInsert] using h
  | cons f rest ih =>
    rw [tmInsert] at h
    split at h
    · rcases List.mem_cons.mp h with rfl | h
      · exact Or.inl rfl
      · exact Or.inr (List.mem_cons_of_mem _ h)
    · rcases List.mem_cons.mp h with rfl | h
      · exact Or.inr (List.mem_cons_self _ _)
      · rcases ih h with h | h
        · exact Or.inl h
        · exact Or.inr (List.mem_cons_of_mem _ h)

theorem nodeUpdate_length (nodes : List Node) (i : Nat) (f : Node → Node) :
    (nodeUpdate nodes i f).length = nodes.length := by
  unfold nodeUpdate
  split <;> simp

theorem nodeUpdate_getElem_ne (nodes : List Node) (i j : Nat)
    (f : Node → Node) (h : j ≠ i) :
    (nodeUpdate nodes i f)[j]? = nodes[j]? := by
  unfold nodeUpdate
  split
  · exact List.getElem?_set_ne (fun he => h he.symm)
  · rfl

theorem nodeUpdate_getElem_self {nodes : List Node} {i : Nat} {n : Node}
    (f : Node → Node) (h : nodes[i]? = some n) :
    (nodeUpdate nodes i f)[i]? = some (f n) := by
  unfold nodeUpdate
  rw [h]
  have hlt : i < nodes.length := by
    by_contra hge
    rw [List.getElem?_eq_none (by omega)] at h
    cases h
  rw [List.getElem?_set_self' ]
  rw [List.getElem?_eq_getElem hlt]
  rfl

theorem explicitDest_elim {st : StateTransform} {n : Node} {A : String}
    (h : explicitDest st n = some A) :
    ∃ a, lookupMapping st n.addr = some a ∧ a ≠ "" ∧ normalizeDest a = A := by
  unfold explicitDest at h
  rcases hLM : lookupMapping st n.addr with _ | a <;> rw [hLM] at h <;>
    dsimp only at h
  · cases h
  · by_cases ha : a = ""
    · rw [if_pos ha] at h
      cases h
    · rw [if_neg ha] at h
      exact ⟨a, rfl, ha, by injection h⟩

theorem phase2Go_one_mapped (st : StateTransform) :
    ∀ (ids : List Nat) (nodes : List Node) (tm : List (String × Nat)),
    ids.Nodup → (∀ e ∈ tm, e.2 ∉ ids) →
    ∀ (j : Nat) (n2 : Node) (A : String) (uid : Nat),
    j ∈ ids → nodes[j]? = some n2 → explicitDest st n2 = some A →
    tm.lookup A = some uid →
    (∃ u, nodes[uid]? = some u ∧ u.key = "") →
    ∃ a, phase2Go st ids nodes tm = .error (.addressCollision a) := by
  intro ids
  induction ids with
  | nil =>
    intro nodes tm _ _ j n2 A uid hj
    cases hj
  | cons id rest ih =>
    intro nodes tm hnd hcl j n2 A uid hj hn2 hE2 htm hu
    obtain ⟨u, hnu, hku⟩ := hu
    have huid_mem : (A, uid) ∈ tm := mem_of_lookup htm
    have huid_notin : uid ∉ id :: rest := hcl _ huid_mem
    have hid_nin : id ∉ rest := (List.nodup_cons.mp hnd).1
    have hnd' : rest.Nodup := (List.nodup_cons.mp hnd).2
    by_cases hij : id = j
    · subst hij
      obtain ⟨a, hLM, ha, hA⟩ := explicitDest_elim hE2
      refine ⟨A, ?_⟩
      simp only [phase2Go, hn2, hLM, if_neg ha, hA, htm, hnu, if_pos hku]
    · have hj' : j ∈ rest := by
        rcases List.mem_cons.mp hj with h | h
        · exact absurd h.symm hij
        · exact h
      have hjid : j ≠ id := fun h => hij h.symm
      have huid_id : uid ≠ id := fun h => huid_notin (h ▸ List.mem_cons_self _ _)
      have huid_rest : uid ∉ rest := fun h => huid_notin (List.mem_cons_of_mem _ h)
      have hcl' : ∀ e ∈ tm, e.2 ∉ rest :=
        fun e he hr => hcl e he (List.mem_cons_of_mem _ hr)
      rcases hn : nodes[id]? with _ | n
      · simp only [phase2Go, hn]
        exact ih nodes tm hnd' hcl' j n2 A uid hj' hn2 hE2 htm ⟨u, hnu, hku⟩
      · simp only [phase2Go, hn]
        rcases hLM : lookupMapping st n.addr with _ | a
        · simp only [hLM]
          rcases hT : tm.lookup n.addr with _ | rid
          · simp only [hT]
            have hne : A ≠ n.addr := by
              intro h
              rw [h, hT] at htm
              cases htm
            refine ih nodes (tmInsert tm n.addr id) hnd' ?_ j n2 A uid hj'
              hn2 hE2 ?_ ⟨u, hnu, hku⟩
            · intro e he hr
              rcases tmInsert_mem he with rfl | he'
              · exact hid_nin hr
              · exact hcl' e he' hr
            · rw [tmInsert_lookup_ne _ _ _ _ hne]
              exact htm
          · simp only [hT]
            refine ih (nodeUpdate nodes id _) tm hnd' hcl' j n2 A uid hj'
              ?_ hE2 htm ⟨u, ?_, hku⟩
            · rw [nodeUpdate_getElem_ne _ _ _ _ hjid]
              exact hn2
            · rw [nodeUpdate_getElem_ne _ _ _ _ huid_id]
              exact hnu
        · by_cases ha : a = ""
          · simp only [hLM]
            rw [if_pos ha]
            refine ih (nodeUpdate nodes id _) tm hnd' hcl' j n2 A uid hj'
              ?_ hE2 htm ⟨u, ?_, hku⟩
            · rw [nodeUpdate_getElem_ne _ _ _ _ hjid]
              exact hn2
            · rw [nodeUpdate_getElem_ne _ _ _ _ huid_id]
              exact hnu
          · simp only [hLM]
            rw [if_neg ha]
            rcases hT : tm.lookup (normalizeDest a) with _ | uid2
            · simp only [hT]
              have hne : A ≠ normalizeDest a := by
                intro h
                rw [h, hT] at htm
                cases htm
              refine ih (nodeUpdate nodes id _)
                (tmInsert tm (normalizeDest a) id) hnd' ?_ j n2 A uid hj'
                ?_ hE2 ?_ ⟨u, ?_, hku⟩
              · intro e he hr
                rcases tmInsert_mem he with rfl | he'
                · exact hid_nin hr
                · exact hcl' e he' hr
              · rw [nodeUpdate_getElem_ne _ _ _ _ hjid]
                exact hn2
              · rw [tmInsert_lookup_ne _ _ _ _ hne]
                exact htm
              · rw [nodeUpdate_getElem_ne _ _ _ _ huid_id]
                exact hnu
            · simp only [hT]
              rcases hnu2 : nodes[uid2]? with _ | u2
              · simp only [hnu2]
                have hne : A ≠ normalizeDest a := by
                  intro h
                  rw [h, hT] at htm
                  injection htm with h2
                  rw [h2, hnu] at hnu2
                  cases hnu2
                refine ih (nodeUpdate nodes id _)
                  (tmInsert tm (normalizeDest a) id) hnd' ?_ j n2 A uid hj'
                  ?_ hE2 ?_ ⟨u, ?_, hku⟩
                · intro e he hr
                  rcases tmInsert_mem he with rfl | he'
                  · exact hid_nin hr
                  · exact hcl' e he' hr
                · rw [nodeUpdate_getElem_ne _ _ _ _ hjid]
                  exact hn2
                · rw [tmInsert_lookup_ne _ _ _ _ hne]
                  exact htm
                · rw [nodeUpdate_getElem_ne _ _ _ _ huid_id]
                  exact hnu
              · simp only [hnu2]
                by_cases hk2 : u2.key = ""
                · rw [if_pos hk2]
                  exact ⟨normalizeDest a, rfl⟩
                · rw [if_neg hk2]
                  have huu : uid ≠ uid2 := by
                    intro h
                    subst h
                    rw [hnu] at hnu2
                    injection hnu2 with h2
                    exact hk2 (h2 ▸ hku)
                  have hne : A ≠ normalizeDest a := by
                    intro h
                    rw [h, hT] at htm
                    injection htm with h2
                    exact huu h2.symm
                  have huid2_mem : (normalizeDest a, uid2) ∈ tm :=
                    mem_of_lookup hT
                  have huid2_id : uid2 ≠ id :=
                    fun h => hcl _ huid2_mem (h ▸ List.mem_cons_self _ _)
                  have huid2_j : uid2 ≠ j :=
                    fun h => hcl _ huid2_mem
                      (h ▸ List.mem_cons_of_mem _ hj')
                  refine ih (nodeUpdate (nodeUpdate nodes uid2 _) id _)
                    (tmInsert tm (normalizeDest a) id) hnd' ?_ j n2 A uid
                    hj' ?_ hE2 ?_ ⟨u, ?_, hku⟩
                  · intro e he hr
                    rcases tmInsert_mem he with rfl | he'
                    · exact hid_nin hr
                    · exact hcl' e he' hr
                  · rw [nodeUpdate_getElem_ne _ _ _ _ hjid,
                      nodeUpdate_getElem_ne _ _ _ _ huid2_j.symm]
                    exact hn2
                  · rw [tmInsert_lookup_ne _ _ _ _ hne]
                    exact htm
                  · rw [nodeUpdate_getElem_ne _ _ _ _ huid_id,
                      nodeUpdate_getElem_ne _ _ _ _ huu]
                    exact hnu

theorem phase2Go_head_mapped (st : StateTransform) (id : Nat)
    (rest : List Nat) (nodes : List Node) (tm : List (String × Nat))
    (hid_nin : id ∉ rest) (hnd' : rest.Nodup)
    (hcl : ∀ e ∈ tm, e.2 ∉ id :: rest)
    (n1 : Node) (hn1 : nodes[id]? = some n1) (A : String)
    (hE1 : explicitDest st n1 = some A)
    (j : Nat) (hj : j ∈ rest) (n2 : Node) (hn2 : nodes[j]? = some n2)
    (hE2 : explicitDest st n2 = some A) :
    ∃ a, phase2Go st (id :: rest) nodes tm =
      .error (.addressCollision a) := by
  obtain ⟨a1, hLM1, ha1, hA1⟩ := explicitDest_elim hE1
  have hjid : j ≠ id := fun h => hid_nin (h ▸ hj)
  have hcl' : ∀ e ∈ tm, e.2 ∉ rest :=
    fun e he hr => hcl e he (List.mem_cons_of_mem _ hr)
  have hclI : ∀ e ∈ tmInsert tm A id, e.2 ∉ rest := by
    intro e he hr
    rcases tmInsert_mem he with rfl | he'
    · exact hid_nin hr
    · exact hcl' e he' hr
  have htrack : ∃ u, (nodeUpdate nodes id fun n =>
      { n with addr := A, key := "" })[id]? = some u ∧ u.key = "" :=
    ⟨_, nodeUpdate_getElem_self _ hn1, rfl⟩
  have hn2' : (nodeUpdate nodes id fun n =>
      { n with addr := A, key := "" })[j]? = some n2 := by
    rw [nodeUpdate_getElem_ne _ _ _ _ hjid]
    exact hn2
  rcases hT : tm.lookup A with _ | uid
  · simp only [phase2Go, hn1, hLM1, if_neg ha1, hA1, hT]
    exact phase2Go_one_mapped st rest _ _ hnd' hclI j n2 A id hj hn2' hE2
      (tmInsert_lookup_self _ _ _) htrack
  · have huid_mem : (A, uid) ∈ tm := mem_of_lookup hT
    have huid_id : uid ≠ id :=
      fun h => hcl _ huid_mem (h ▸ List.mem_cons_self _ _)
    have huid_j : uid ≠ j :=
      fun h => hcl _ huid_mem (h ▸ List.mem_cons_of_mem _ hj)
    rcases hnu : nodes[uid]? with _ | u
    · simp only [phase2Go, hn1, hLM1, if_neg ha1, hA1, hT, hnu]
      exact phase2Go_one_mapped st rest _ _ hnd' hclI j n2 A id hj hn2' hE2
        (tmInsert_lookup_self _ _ _) htrack
    · by_cases hk : u.key = ""
      · refine ⟨A, ?_⟩
        simp only [phase2Go, hn1, hLM1, if_neg ha1, hA1, hT, hnu, if_pos hk]
      · simp only [phase2Go, hn1, hLM1, if_neg ha1, hA1, hT, hnu,
          if_neg hk]
        have hprev : (nodeUpdate nodes uid fun u =>
            { u with repl := some id, mod := none })[id]? = some n1 := by
          rw [nodeUpdate_getElem_ne _ _ _ _ huid_id.symm]
          exact hn1
        have htrack2 : ∃ u', (nodeUpdate (nodeUpdate nodes uid fun u =>
            { u with repl := some id, mod := none }) id fun n =>
            { n with addr := A, key := "" })[id]? = some u' ∧
            u'.key = "" :=
          ⟨_, nodeUpdate_getElem_self _ hprev, rfl⟩
        have hn2'' : (nodeUpdate (nodeUpdate nodes uid fun u =>
            { u with repl := some id, mod := none }) id fun n =>
            { n with addr := A, key := "" })[j]? = some n2 := by
          rw [nodeUpdate_getElem_ne _ _ _ _ hjid,
            nodeUpdate_getElem_ne _ _ _ _ huid_j.symm]
          exact hn2
        exact phase2Go_one_mapped st rest _ _ hnd' hclI j n2 A id hj hn2''
          hE2 (tmInsert_lookup_self _ _ _) htrack2

theorem phase2Go_two_mapped (st : StateTransform) :
    ∀ (ids : List Nat) (nodes : List Node) (tm : List (String × Nat)),
    ids.Nodup → (∀ e ∈ tm, e.2 ∉ ids) →
    ∀ (i j : Nat) (n1 n2 : Node) (A : String),
    i ∈ ids → j ∈ ids → i ≠ j →
    nodes[i]? = some n1 → nodes[j]? = some n2 →
    explicitDest st n1 = some A → explicitDest st n2 = some A →
    ∃ a, phase2Go st ids nodes tm = .error (.addressCollision a) := by
  intro ids
  induction ids with
  | nil =>
    intro nodes tm _ _ i j n1 n2 A hi
    cases hi
  | cons id rest ih =>
    intro nodes tm hnd hcl i j n1 n2 A hi hj hij hn1 hn2 hE1 hE2
    have hid_nin : id ∉ rest := (List.nodup_cons.mp hnd).1
    have hnd' : rest.Nodup := (List.nodup_cons.mp hnd).2
    have hcl' : ∀ e ∈ tm, e.2 ∉ rest :=
      fun e he hr => hcl e he (List.mem_cons_of_mem _ hr)
    by_cases hi' : id = i
    · subst hi'
      have hj' : j ∈ rest := by
        rcases List.mem_cons.mp hj with h | h
        · exact absurd h.symm hij
        · exact h
      exact phase2Go_head_mapped st id rest nodes tm hid_nin hnd' hcl
        n1 hn1 A hE1 j hj' n2 hn2 hE2
    · by_cases hj' : id = j
      · subst hj'
        have hi2 : i ∈ rest := by
          rcases List.mem_cons.mp hi with h | h
          · exact absurd h.symm hi'
          · exact h
        exact phase2Go_head_mapped st id rest nodes tm hid_nin hnd' hcl
          n2 hn2 A hE2 i hi2 n1 hn1 hE1
      · have hi2 : i ∈ rest := by
          rcases List.mem_cons.mp hi with h | h
          · exact absurd h.symm hi'
          · exact h
        have hj2 : j ∈ rest := by
          rcases List.mem_cons.mp hj with h | h
          · exact absurd h.symm hj'
          · exact h
        have hiid : i ≠ id := fun h => hi' h.symm
        have hjid : j ≠ id := fun h => hj' h.symm
        rcases hn : nodes[id]? with _ | n
        · simp only [phase2Go, hn]
          exact ih nodes tm hnd' hcl' i j n1 n2 A hi2 hj2 hij hn1 hn2
            hE1 hE2
        · rcases hLM : lookupMapping st n.addr with _ | a
          · rcases hT : tm.lookup n.addr with _ | rid
            · simp only [phase2Go, hn, hLM, hT]
              refine ih nodes (tmInsert tm n.addr id) hnd' ?_ i j n1 n2 A
                hi2 hj2 hij hn1 hn2 hE1 hE2
              intro e he hr
              rcases tmInsert_mem he with rfl | he'
              · exact hid_nin hr
              · exact hcl' e he' hr
            · simp only [phase2Go, hn, hLM, hT]
              refine ih (nodeUpdate nodes id _) tm hnd' hcl' i j n1 n2 A
                hi2 hj2 hij ?_ ?_ hE1 hE2
              · rw [nodeUpdate_getElem_ne _ _ _ _ hiid]
                exact hn1
              · rw [nodeUpdate_getElem_ne _ _ _ _ hjid]
                exact hn2
          · by_cases ha : a = ""
            · simp only [phase2Go, hn, hLM, if_pos ha]
              refine ih (nodeUpdate nodes id _) tm hnd' hcl' i j n1 n2 A
                hi2 hj2 hij ?_ ?_ hE1 hE2
              · rw [nodeUpdate_getElem_ne _ _ _ _ hiid]
                exact hn1
              · rw [nodeUpdate_getElem_ne _ _ _ _ hjid]
                exact hn2
            · have hclI : ∀ e ∈ tmInsert tm (normalizeDest a) id,
                  e.2 ∉ rest := by
                intro e he hr
                rcases tmInsert_mem he with rfl | he'
                · exact hid_nin hr
                · exact hcl' e he' hr
              rcases hT : tm.lookup (normalizeDest a) with _ | uid2
              · simp only [phase2Go, hn, hLM, if_neg ha, hT]
                refine ih (nodeUpdate nodes id _) _ hnd' hclI i j n1 n2 A
                  hi2 hj2 hij ?_ ?_ hE1 hE2
                · rw [nodeUpdate_getElem_ne _ _ _ _ hiid]
                  exact hn1
                · rw [nodeUpdate_getElem_ne _ _ _ _ hjid]
                  exact hn2
              · rcases hnu2 : nodes[uid2]? with _ | u2
                · simp only [phase2Go, hn, hLM, if_neg ha, hT, hnu2]
                  refine ih (nodeUpdate nodes id _) _ hnd' hclI i j n1 n2 A
                    hi2 hj2 hij ?_ ?_ hE1 hE2
                  · rw [nodeUpdate_getElem_ne _ _ _ _ hiid]
                    exact hn1
                  · rw [nodeUpdate_getElem_ne _ _ _ _ hjid]
                    exact hn2
                · by_cases hk2 : u2.key = ""
                  · refine ⟨normalizeDest a, ?_⟩
                    simp only [phase2Go, hn, hLM, if_neg ha, hT, hnu2,
                      if_pos hk2]
                  · simp only [phase2Go, hn, hLM, if_neg ha, hT, hnu2,
                      if_neg hk2]
                    have huid2_mem : (normalizeDest a, uid2) ∈ tm :=
                      mem_of_lookup hT
                    have huid2_i : uid2 ≠ i :=
                      fun h => hcl _ huid2_mem
                        (h ▸ List.mem_cons_of_mem _ hi2)
                    have huid2_j : uid2 ≠ j :=
                      fun h => hcl _ huid2_mem
                        (h ▸ List.mem_cons_of_mem _ hj2)
                    refine ih (nodeUpdate (nodeUpdate nodes uid2 _) id _) _
                      hnd' hclI i j n1 n2 A hi2 hj2 hij ?_ ?_ hE1 hE2
                    · rw [nodeUpdate_getElem_ne _ _ _ _ hiid,
                        nodeUpdate_getElem_ne _ _ _ _ huid2_i.symm]
                      exact hn1
                    · rw [nodeUpdate_getElem_ne _ _ _ _ hjid,
                        nodeUpdate_getElem_ne _ _ _ _ huid2_j.symm]
                      exact hn2

/-- C6: two distinct resources both explicitly mapped to the same non-empty
destination make Apply fail with AddressCollisionError, leaving the graph
unchanged; the scenario transform a.a to c.c, b.b to c.c on the graph with
a.a and b.b fails this way, while mapping onto a merely kept resource is a
replacement, not an error. -/
theorem apply_collision_rejected :
    (∀ (st : StateTransform) (s : TfState) (nodes : List Node)
      (i j : Nat) (n1 n2 : Node) (A : String),
      phase1 s = .ok nodes → i ≠ j →
      nodes[i]? = some n1 → nodes[j]? = some n2 →
      explicitDest st n1 = some A → explicitDest st n2 = some A →
      ∃ a, StateTransform.Apply st s = .err (.addressCollision a) s) ∧
    StateTransform.Apply collisionTr collisionState =
      .err (.addressCollision "module.root.c.c") collisionState ∧
    StateTransform.Apply [("a.a", "b.b")] collisionState =
      .ok replaceResult := by
  refine ⟨?_, by rfl, by rfl⟩
  intro st s nodes i j n1 n2 A h1 hij hn1 hn2 hE1 hE2
  have hst : st.isEmpty = false := by
    obtain ⟨a, hLM, -, -⟩ := explicitDest_elim hE1
    cases st with
    | nil => simp [lookupMapping, List.lookup] at hLM
    | cons e rest => rfl
  have hi : i ∈ List.range nodes.length := by
    rw [List.mem_range]
    exact (List.getElem?_eq_some.mp hn1).1
  have hj : j ∈ List.range nodes.length := by
    rw [List.mem_range]
    exact (List.getElem?_eq_some.mp hn2).1
  obtain ⟨a, ha⟩ := phase2Go_two_mapped st (List.range nodes.length) nodes
    [] (List.nodup_range _) (by simp) i j n1 n2 A hi hj hij hn1 hn2 hE1 hE2
  refine ⟨a, ?_⟩
  unfold StateTransform.Apply
  rw [hst]
  simp only [Bool.false_eq_true, if_false, h1]
  unfold phase2
  rw [ha]

theorem joinDots_cons_cons (x y : String) (l : List String) :
    joinDots (x :: y :: l) = x ++ "." ++ joinDots (y :: l) := rfl

theorem resourceAddressString_hasPfx (r : ResourceAddress)
    (h : r.path ≠ []) :
    hasPfx (resourceAddressString r) "module." = true := by
  unfold resourceAddressString
  rcases hp : r.path with _ | ⟨p0, tl⟩
  · exact absurd hp h
  · simp only [List.flatMap_cons, List.cons_append, List.append_assoc]
    rw [joinDots_cons_cons]
    rw [show ("module" ++ "." : String) = "module." from rfl,
      show ∀ y : String, "module." ++ y =
        ("module." : String) ++ y from fun _ => rfl]
    exact hasPfx_append _ _

theorem stateKeyToAddress_hasPfx {path : List String} {key addr : String}
    (h : stateKeyToAddress path key = .ok addr) :
    hasPfx addr "module." = true := by
  unfold stateKeyToAddress at h
  rcases hr : parseResourceStateKey key with e | k <;> rw [hr] at h
  · cases h
  · dsimp only [Except.bind, bind] at h
    injection h with h
    subst h
    apply resourceAddressString_hasPfx
    dsimp only
    split
    · simp [rootModulePath]
    · rename_i hlen
      intro hnil
      rw [hnil] at hlen
      exact hlen rfl

theorem mem_of_getElem? {α : Type} {l : List α} {i : Nat} {a : α}
    (h : l[i]? = some a) : a ∈ l := by
  induction l generalizing i with
  | nil => cases h
  | cons x xs ih =>
    cases i with
    | zero =>
      rw [List.getElem?_cons_zero] at h
      injection h with h
      rw [← h]
      exact List.mem_cons_self _ _
    | succ n =>
      rw [List.getElem?_cons_succ] at h
      exact List.mem_cons_of_mem _ (ih h)

theorem nodeUpdate_mem {nodes : List Node} {i : Nat} {f : Node → Node}
    {n : Node} (h : n ∈ nodeUpdate nodes i f) :
    n ∈ nodes ∨ ∃ m, m ∈ nodes ∧ n = f m := by
  unfold nodeUpdate at h
  split at h
  · rename_i m hm
    rcases List.mem_or_eq_of_mem_set h with h | rfl
    · exact Or.inl h
    · exact Or.inr ⟨m, mem_of_getElem? hm, rfl⟩
  · exact Or.inl h

theorem resolveDeps_addrs {ids : List Nat} {nodes : List Node}
    (h : ∀ n ∈ nodes, hasPfx n.addr "module." = true) :
    ∀ n ∈ resolveDeps nodes ids, hasPfx n.addr "module." = true := by
  unfold resolveDeps
  generalize moduleMapOf nodes ids = mm
  induction ids generalizing nodes with
  | nil => exact h
  | cons id rest ih =>
    intro n hn
    rw [List.foldl_cons] at hn
    refine @ih (nodeUpdate nodes id _) ?_ n hn
    intro m hm
    rcases nodeUpdate_mem hm with hm | ⟨m', hm', rfl⟩
    · exact h m hm
    · exact h m' hm'

theorem phase1Res_addrs {mi : Nat} {path : List String} :
    ∀ (l : List (String × ResourceState)) (acc acc' : List Node),
    phase1Res mi path l acc = .ok acc' →
    (∀ n ∈ acc, hasPfx n.addr "module." = true) →
    ∀ n ∈ acc', hasPfx n.addr "module." = true := by
  intro l
  induction l with
  | nil =>
    intro acc acc' h hacc
    injection h with h
    exact h ▸ hacc
  | cons e rest ih =>
    intro acc acc' h hacc
    rw [phase1Res] at h
    rcases hk : stateKeyToAddress path e.1 with er | addr <;> rw [hk] at h
    · cases h
    · dsimp only at h
      split at h
      · cases h
      · refine ih _ _ h ?_
        intro n hn
        rcases List.mem_append.mp hn with hn | hn
        · exact hacc n hn
        · simp only [List.mem_singleton] at hn
          subst hn
          exact stateKeyToAddress_hasPfx hk

theorem phase1Go_addrs :
    ∀ (ms : List ModuleState) (mi : Nat) (acc nodes : List Node),
    phase1Go mi ms acc = .ok nodes →
    (∀ n ∈ acc, hasPfx n.addr "module." = true) →
    ∀ n ∈ nodes, hasPfx n.addr "module." = true := by
  intro ms
  induction ms with
  | nil =>
    intro mi acc nodes h hacc
    injection h with h
    exact h ▸ hacc
  | cons m rest ih =>
    intro mi acc nodes h hacc
    rw [phase1Go] at h
    rcases h1 : phase1Res mi m.path m.resources acc with er | acc2 <;>
      simp only [h1, Except.bind, bind] at h
    · cases h
    · exact ih _ _ _ h (resolveDeps_addrs (phase1Res_addrs _ _ _ h1 hacc))

/-- Every address phase 1 indexes is module-qualified. -/
theorem phase1_addrs {s : TfState} {nodes : List Node}
    (h : phase1 s = .ok nodes) :
    ∀ n ∈ nodes, hasPfx n.addr "module." = true :=
  phase1Go_addrs _ _ _ _ h (by intro n hn; cases hn)

theorem phase2Go_congr (st1 st2 : StateTransform) (P : String → Prop)
    (hP : ∀ x, P x → MappingEquiv st1 st2 x) :
    ∀ (ids : List Nat) (nodes : List Node) (tm : List (String × Nat)),
    ids.Nodup →
    (∀ id ∈ ids, ∀ n, nodes[id]? = some n → P n.addr) →
    phase2Go st1 ids nodes tm = phase2Go st2 ids nodes tm := by
  intro ids
  induction ids with
  | nil => intro nodes tm _ _; rfl
  | cons id rest ih =>
    intro nodes tm hnd hinv
    have hid_nin : id ∉ rest := (List.nodup_cons.mp hnd).1
    have hnd' : rest.Nodup := (List.nodup_cons.mp hnd).2
    have hinv' : ∀ id' ∈ rest, ∀ n, nodes[id']? = some n → P n.addr :=
      fun id' h => hinv id' (List.mem_cons_of_mem _ h)
    have hinvU : ∀ (i : Nat) (f : Node → Node),
        (∀ m, (f m).addr = m.addr) →
        ∀ id' ∈ rest, ∀ n, (nodeUpdate nodes i f)[id']? = some n →
          P n.addr := by
      intro i f hf id' hid' n hn
      by_cases hii : id' = i
      · subst hii
        rcases hm : nodes[id']? with _ | m
        · unfold nodeUpdate at hn
          rw [hm] at hn
          rw [hm] at hn
          cases hn
        · rw [nodeUpdate_getElem_self f hm] at hn
          injection hn with hn
          rw [← hn, hf]
          exact hinv' id' hid' m hm
      · rw [nodeUpdate_getElem_ne _ _ _ _ hii] at hn
        exact hinv' id' hid' n hn
    rcases hn : nodes[id]? with _ | n
    · simp only [phase2Go, hn]
      exact ih nodes tm hnd' hinv'
    · have hPn := hinv id (List.mem_cons_self _ _) n hn
      have hme := hP _ hPn
      unfold MappingEquiv at hme
      rcases hL1 : lookupMapping st1 n.addr with _ | a1
      · rcases hL2 : lookupMapping st2 n.addr with _ | a2
        · simp only [phase2Go, hn, hL1, hL2]
          rcases hT : tm.lookup n.addr with _ | rid
          · simp only [hT]
            exact ih nodes (tmInsert tm n.addr id) hnd' hinv'
          · simp only [hT]
            exact ih _ tm hnd' (hinvU id _ (fun m => rfl))
        · simp only [hL1, hL2] at hme
      · rcases hL2 : lookupMapping st2 n.addr with _ | a2
        · simp only [hL1, hL2] at hme
        · simp only [hL1, hL2] at hme
          obtain ⟨hiff, hnorm⟩ := hme
          by_cases ha1 : a1 = ""
          · have ha2 : a2 = "" := hiff.mp ha1
            simp only [phase2Go, hn, hL1, hL2, if_pos ha1, if_pos ha2]
            exact ih _ tm hnd' (hinvU id _ (fun m => rfl))
          · have ha2 : a2 ≠ "" := fun h => ha1 (hiff.mpr h)
            simp only [phase2Go, hn, hL1, hL2, if_neg ha1, if_neg ha2,
              hnorm]
            rcases hT : tm.lookup (normalizeDest a2) with _ | uid
            · simp only [hT]
              refine ih _ _ hnd' ?_
              intro id' hid' n' hn'
              by_cases hii : id' = id
              · subst hii
                exact absurd hid' hid_nin
              · rw [nodeUpdate_getElem_ne _ _ _ _ hii] at hn'
                exact hinv' id' hid' n' hn'
            · rcases hnu : nodes[uid]? with _ | u
              · simp only [hT, hnu]
                refine ih _ _ hnd' ?_
                intro id' hid' n' hn'
                by_cases hii : id' = id
                · subst hii
                  exact absurd hid' hid_nin
                · rw [nodeUpdate_getElem_ne _ _ _ _ hii] at hn'
                  exact hinv' id' hid' n' hn'
              · by_cases hk : u.key = ""
                · simp only [hT, hnu, if_pos hk]
                · simp only [hT, hnu, if_neg hk]
                  refine ih _ _ hnd' ?_
                  intro id' hid' n' hn'
                  by_cases hii : id' = id
                  · subst hii
                    exact absurd hid' hid_nin
                  · rw [nodeUpdate_getElem_ne _ _ _ _ hii] at hn'
                    exact hinvU uid
                      (fun u => { u with repl := some id, mod := none })
                      (fun m => rfl) id' hid' n' hn'

theorem mapM_ok_pointwise {α β : Type} {f : α → Except TfErr β}
    {l : List α} {l' : List β} (h : l.mapM f = .ok l') :
    l'.length = l.length ∧
    ∀ (i : Nat) (x : α), l[i]? = some x →
      ∃ y, l'[i]? = some y ∧ f x = .ok y := by
  induction l generalizing l' with
  | nil =>
    rw [List.mapM_nil] at h
    injection h with h
    subst h
    exact ⟨rfl, fun i x hx => by cases hx⟩
  | cons a rest ih =>
    rw [List.mapM_cons] at h
    rcases hfa : f a with e | b <;> rw [hfa] at h
    · cases h
    · rcases hrest : rest.mapM f with e | bs <;> rw [hrest] at h
      · cases h
      · dsimp only [Except.bind, bind, pure, Except.pure] at h
        injection h with h
        subst h
        obtain ⟨hlen, hpt⟩ := ih hrest
        refine ⟨by simp [hlen], ?_⟩
        intro i x hx
        cases i with
        | zero =>
          rw [List.getElem?_cons_zero] at hx
          injection hx with hx
          subst hx
          exact ⟨b, by simp, hfa⟩
        | succ n =>
          rw [List.getElem?_cons_succ] at hx
          obtain ⟨y, hy, hfy⟩ := hpt n x hx
          exact ⟨y, by simpa using hy, hfy⟩

theorem mapM_ok_mem {α β : Type} {f : α → Except TfErr β}
    {l : List α} {l' : List β} (h : l.mapM f = .ok l') :
    ∀ x ∈ l, ∃ y, f x = .ok y := by
  induction l generalizing l' with
  | nil => intro x hx; cases hx
  | cons a rest ih =>
    rw [List.mapM_cons] at h
    rcases hfa : f a with e | b <;> rw [hfa] at h
    · cases h
    · rcases hrest : rest.mapM f with e | bs <;> rw [hrest] at h
      · cases h
      · intro x hx
        rcases List.mem_cons.mp hx with rfl | hx
        · exact ⟨b, hfa⟩
        · exact ih hrest x hx

theorem mapM_error_mem {α β : Type} {f : α → Except TfErr β}
    {l : List α} {e : TfErr} (h : l.mapM f = .error e) :
    ∃ x ∈ l, f x = .error e := by
  induction l with
  | nil => rw [List.mapM_nil] at h; cases h
  | cons a rest ih =>
    rw [List.mapM_cons] at h
    rcases hfa : f a with e' | b <;> rw [hfa] at h
    · dsimp only [Except.bind, bind] at h
      injection h with h
      exact ⟨a, List.mem_cons_self _ _, h ▸ hfa⟩
    · rcases hrest : rest.mapM f with e' | bs <;> rw [hrest] at h
      · dsimp only [Except.bind, bind] at h
        injection h with h
        obtain ⟨x, hx, hfx⟩ := ih (h ▸ hrest)
        exact ⟨x, List.mem_cons_of_mem _ hx, hfx⟩
      · dsimp only [Except.bind, bind, pure, Except.pure] at h
        cases h

theorem foldlM_ok_preserves {α β : Type} (P : α → Prop)
    (step : α → β → Except TfErr α)
    (hstep : ∀ a b a', P a → step a b = .ok a' → P a') :
    ∀ (l : List β) (a a' : α), P a → l.foldlM step a = .ok a' → P a' := by
  intro l
  induction l with
  | nil =>
    intro a a' hP h
    rw [List.foldlM_nil] at h
    injection h with h
    exact h ▸ hP
  | cons b rest ih =>
    intro a a' hP h
    rw [List.foldlM_cons] at h
    rcases hs : step a b with e | a2 <;> rw [hs] at h
    · cases h
    · exact ih a2 a' (hstep a b a2 hP hs) h

theorem foldlM_ok_mem {α β : Type} (P : α → Prop)
    (step : α → β → Except TfErr α)
    (hstep : ∀ a b a', P a → step a b = .ok a' → P a') :
    ∀ (l : List β) (a a' : α), P a → l.foldlM step a = .ok a' →
    ∀ b ∈ l, ∃ acc, P acc ∧ ∃ y, step acc b = .ok y := by
  intro l
  induction l with
  | nil => intro a a' _ _ b hb; cases hb
  | cons c rest ih =>
    intro a a' hP h b hb
    rw [List.foldlM_cons] at h
    rcases hs : step a c with e | a2 <;> rw [hs] at h
    · cases h
    · rcases List.mem_cons.mp hb with rfl | hb
      · exact ⟨a, hP, a2, hs⟩
      · exact ih a2 a' (hstep a c a2 hP hs) h b hb

theorem foldlM_error_mem {α β : Type} (P : α → Prop)
    (step : α → β → Except TfErr α)
    (hstep : ∀ a b a', P a → step a b = .ok a' → P a') :
    ∀ (l : List β) (a : α) (e : TfErr), P a →
    l.foldlM step a = .error e →
    ∃ b ∈ l, ∃ acc, P acc ∧ step acc b = .error e := by
  intro l
  induction l with
  | nil => intro a e _ h; rw [List.foldlM_nil] at h; cases h
  | cons c rest ih =>
    intro a e hP h
    rw [List.foldlM_cons] at h
    rcases hs : step a c with e' | a2 <;> rw [hs] at h
    · injection h with h
      exact ⟨c, List.mem_cons_self _ _, a, hP, h ▸ hs⟩
    · obtain ⟨b, hb, acc, hacc, hstep'⟩ :=
        ih a2 e (hstep a c a2 hP hs) h
      exact ⟨b, List.mem_cons_of_mem _ hb, acc, hacc, hstep'⟩

theorem strLtL_irrefl : ∀ l : List Char, strLtL l l = false := by
  intro l
  induction l with
  | nil => rfl
  | cons c cs ih => simp [strLtL, ih]

theorem strLt_irrefl (s : String) : strLt s s = false :=
  strLtL_irrefl s.data

theorem strLtL_conn : ∀ a b : List Char,
    strLtL a b = false → strLtL b a = false → a = b := by
  intro a
  induction a with
  | nil =>
    intro b h1 h2
    cases b with
    | nil => rfl
    | cons d ds => simp [strLtL] at h1
  | cons c cs ih =>
    intro b h1 h2
    cases b with
    | nil => simp [strLtL] at h2
    | cons d ds =>
      simp only [strLtL] at h1 h2
      by_cases hcd : c.toNat < d.toNat
      · rw [if_pos hcd] at h1
        cases h1
      · by_cases hdc : d.toNat < c.toNat
        · rw [if_pos hdc] at h2
          cases h2
        · rw [if_neg hcd, if_neg (by omega : ¬ d.toNat < c.toNat)] at h1
          rw [if_neg hdc, if_neg (by omega : ¬ c.toNat < d.toNat)] at h2
          have hval : c.val.toNat = d.val.toNat := by
            have e1 : c.toNat = c.val.toNat := rfl
            have e2 : d.toNat = d.val.toNat := rfl
            omega
          have hc : c = d := Char.ext (UInt32.ext hval)
          subst hc
          rw [ih ds h1 h2]

theorem strLt_conn {a b : String} (h1 : strLt a b = false)
    (h2 : strLt b a = false) : a = b := by
  have := strLtL_conn a.data b.data h1 h2
  cases a
  cases b
  exact congrArg String.mk this

theorem strLtL_trans : ∀ a b c : List Char, strLtL a b = true →
    strLtL b c = true → strLtL a c = true := by
  intro a
  induction a with
  | nil =>
    intro b c h1 h2
    cases b with
    | nil => cases h1
    | cons d ds =>
      cases c with
      | nil => simp [strLtL] at h2
      | cons e es => rfl
  | cons x xs ih =>
    intro b c h1 h2
    cases b with
    | nil => simp [strLtL] at h1
    | cons y ys =>
      cases c with
      | nil => simp [strLtL] at h2
      | cons z zs =>
        simp only [strLtL] at h1 h2 ⊢
        split_ifs at h1 h2 ⊢ <;>
          first
          | rfl
          | omega
          | exact ih ys zs h1 h2

theorem strLt_trans {a b c : String} (h1 : strLt a b = true)
    (h2 : strLt b c = true) : strLt a c = true :=
  strLtL_trans a.data b.data c.data h1 h2

theorem strLt_ne {a b : String} (h : strLt a b = true) : a ≠ b := by
  intro hab
  rw [hab, strLt_irrefl] at h
  cases h

theorem mem_insertSD {x y : String} : ∀ {l : List String},
    y ∈ insertSD x l ↔ y = x ∨ y ∈ l := by
  intro l
  induction l with
  | nil => simp [insertSD]
  | cons z zs ih =>
    rw [insertSD]
    split_ifs with h1 h2
    · simp only [List.mem_cons]
    · subst h2
      simp only [List.mem_cons]
      tauto
    · simp only [List.mem_cons, ih]
      tauto

theorem mem_sortedDedup {y : String} : ∀ {l : List String},
    y ∈ sortedDedup l ↔ y ∈ l := by
  intro l
  induction l with
  | nil => simp [sortedDedup]
  | cons z zs ih =>
    show y ∈ insertSD z (sortedDedup zs) ↔ _
    rw [mem_insertSD]
    simp [ih]

theorem pairwise_insertSD {x : String} : ∀ {l : List String},
    l.Pairwise (fun a b => strLt a b = true) →
    (insertSD x l).Pairwise (fun a b => strLt a b = true) := by
  intro l
  induction l with
  | nil => intro _; simp [insertSD]
  | cons y ys ih =>
    intro hp
    rw [List.pairwise_cons] at hp
    rw [insertSD]
    split_ifs with h1 h2
    · rw [List.pairwise_cons]
      refine ⟨?_, List.pairwise_cons.mpr hp⟩
      intro z hz
      rcases List.mem_cons.mp hz with rfl | hz
      · exact h1
      · exact strLt_trans h1 (hp.1 z hz)
    · subst h2
      exact List.pairwise_cons.mpr hp
    · rw [List.pairwise_cons]
      refine ⟨?_, ih hp.2⟩
      intro z hz
      rcases mem_insertSD.mp hz with rfl | hz
      · cases hyx : strLt y z with
        | true => rfl
        | false =>
          exact absurd (strLt_conn (Bool.eq_false_iff.mpr h1) hyx) h2
      · exact hp.1 z hz

theorem sortedDedup_pairwise : ∀ l : List String,
    (sortedDedup l).Pairwise (fun a b => strLt a b = true) := by
  intro l
  induction l with
  | nil => simp [sortedDedup]
  | cons z zs ih => exact pairwise_insertSD ih

theorem sortedDedup_nodup (l : List String) : (sortedDedup l).Nodup :=
  (sortedDedup_pairwise l).imp strLt_ne

theorem unique_mem {d : String} {l : List String} :
    d ∈ unique l ↔ d ∈ l := by
  unfold unique
  split
  · exact Iff.rfl
  · exact mem_sortedDedup

theorem unique_nodup (l : List String) : (unique l).Nodup := by
  unfold unique
  split
  · rename_i h
    match l, h with
    | [], _ => exact List.nodup_nil
    | [x], _ => simp
  · exact sortedDedup_nodup l

/-- Fields of a resource preserved by DepSpec.infer, with dependencies
only appended. -/
theorem infer_extends (ds : DepSpec) (dst dst' : Resource)
    (tmap : List (String × List Resource))
    (h : DepSpec.infer ds dst tmap = .ok dst') :
    dst'.key = dst.key ∧ dst'.state.typ = dst.state.typ ∧
    dst'.state.primary = dst.state.primary ∧
    dst'.state.dataVals = dst.state.dataVals ∧
    ∃ add, dst'.state.dependencies = dst.state.dependencies ++ add := by
  unfold DepSpec.infer at h
  dsimp only at h
  split at h
  · injection h with h
    exact h ▸ ⟨rfl, rfl, rfl, rfl, [], by simp⟩
  · rcases hv : getVals dst.state ds.attr with e | vals <;>
      simp only [hv, Except.bind, bind] at h
    · cases h
    · split at h
      · injection h with h
        exact h ▸ ⟨rfl, rfl, rfl, rfl, [], by simp⟩
      · refine foldlM_ok_preserves
          (fun cur => cur.key = dst.key ∧ cur.state.typ = dst.state.typ ∧
            cur.state.primary = dst.state.primary ∧
            cur.state.dataVals = dst.state.dataVals ∧
            ∃ add, cur.state.dependencies =
              dst.state.dependencies ++ add) _ ?_ _ dst dst'
          ⟨rfl, rfl, rfl, rfl, [], by simp⟩ h
        intro a b a' hP hstep
        split at hstep
        · injection hstep with hstep
          exact hstep ▸ hP
        · rcases hsv : getVals b.state ds.srcAttr with e | sv <;>
            simp only [hsv, Except.bind, bind] at hstep
          · cases hstep
          · split at hstep
            · injection hstep with hstep
              subst hstep
              split
              · obtain ⟨h1, h2, h3, h4, add, h5⟩ := hP
                exact ⟨h1, h2, h3, h4, add ++ [b.key], by
                  simp [h5, List.append_assoc]⟩
              · exact hP
            · cases hstep
            · injection hstep with hstep
              exact hstep ▸ hP

/-- Fields preserved by inferRes: dependencies grow as a set, and a
resource whose list was touched ends deduplicated. -/
theorem inferRes_extends (dm : DepMap)
    (tmap : List (String × List Resource)) (k : String)
    (r : ResourceState) (e' : String × ResourceState)
    (h : inferRes dm tmap k r = .ok e') :
    e'.1 = k ∧ e'.2.typ = r.typ ∧ e'.2.primary = r.primary ∧
    e'.2.dataVals = r.dataVals ∧
    (∀ d ∈ r.dependencies, d ∈ e'.2.dependencies) ∧
    (e'.2.dependencies = r.dependencies ∨ e'.2.dependencies.Nodup) := by
  unfold inferRes at h
  dsimp only at h
  split at h
  · injection h with h
    exact h ▸ ⟨rfl, rfl, rfl, rfl, fun d hd => hd, Or.inl rfl⟩
  · rcases hf : List.foldlM (fun cur sp => DepSpec.infer sp cur tmap)
        ({ key := k, state := r } : Resource)
        ((dm.lookup r.typ).getD []) with e | res <;>
      simp only [hf, Except.bind, bind] at h
    · cases h
    · have hres := foldlM_ok_preserves
        (fun cur : Resource => cur.key = k ∧ cur.state.typ = r.typ ∧
          cur.state.primary = r.primary ∧
          cur.state.dataVals = r.dataVals ∧
          ∃ add, cur.state.dependencies = r.dependencies ++ add)
        _ ?_ _ _ res ⟨rfl, rfl, rfl, rfl, [], by simp⟩ hf
      · obtain ⟨hk, ht, hp, hdv, add, hdep⟩ := hres
        injection h with h
        subst h
        refine ⟨rfl, ht, hp, hdv, ?_, ?_⟩
        · intro d hd
          dsimp only
          split
          · rw [unique_mem, hdep]
            exact List.mem_append_left _ hd
          · rw [hdep]
            exact List.mem_append_left _ hd
        · dsimp only
          split
          · exact Or.inr (unique_nodup _)
          · rename_i hlen
            rw [hdep] at hlen ⊢
            simp only [List.length_append, ne_eq, not_not] at hlen
            have : add = [] := by
              have := List.length_eq_zero.mp (by omega : add.length = 0)
              exact this
            rw [this]
            exact Or.inl (by simp)
      · intro a b a' hP hstep
        obtain ⟨h1, h2, h3, h4, add, h5⟩ := hP
        obtain ⟨g1, g2, g3, g4, add2, g5⟩ := infer_extends b a a' _ hstep
        exact ⟨g1.trans h1, g2.trans h2, g3.trans h3, g4.trans h4,
          add ++ add2, by rw [g5, h5, List.append_assoc]⟩

/-- C9: a successful Infer never removes a dependency edge — every
resource's dependency set only grows — and a resource whose list was
extended ends deduplicated; keys, paths, and all other resource fields are
untouched. -/
theorem infer_only_adds (dm : DepMap) (s s' : TfState)
    (h : DepMap.Infer dm s = .ok s') :
    s'.modules.length = s.modules.length ∧
    ∀ (i : Nat) (m m' : ModuleState),
      s.modules[i]? = some m → s'.modules[i]? = some m' →
      m'.path = m.path ∧
      m'.resources.length = m.resources.length ∧
      ∀ (j : Nat) (e e' : String × ResourceState),
        m.resources[j]? = some e → m'.resources[j]? = some e' →
        e'.1 = e.1 ∧ e'.2.typ = e.2.typ ∧ e'.2.primary = e.2.primary ∧
        e'.2.dataVals = e.2.dataVals ∧
        (∀ d ∈ e.2.dependencies, d ∈ e'.2.dependencies) ∧
        (e'.2.dependencies = e.2.dependencies ∨
          e'.2.dependencies.Nodup) := by
  unfold DepMap.Infer at h
  dsimp only [Except.bind, bind, pure, Except.pure] at h
  split at h
  · cases h
  · rename_i mods hm
    injection h with h
    subst h
    obtain ⟨hlen, hpt⟩ := mapM_ok_pointwise hm
    refine ⟨hlen, ?_⟩
    intro i m m' him him'
    obtain ⟨m2, hm2, hfm⟩ := hpt i m him
    rw [him'] at hm2
    injection hm2 with hm2
    subst hm2
    split at hfm
    · cases hfm
    · rename_i ress hr
      injection hfm with hfm
      subst hfm
      obtain ⟨hrlen, hrpt⟩ := mapM_ok_pointwise hr
      refine ⟨rfl, hrlen, ?_⟩
      intro j e e' hje hje'
      obtain ⟨e2, he2, hfe⟩ := hrpt j e hje
      dsimp only at hje'
      rw [hje'] at he2
      injection he2 with he2
      subst he2
      exact inferRes_extends dm (moduleTypeMap m) e.1 e.2 e' hfe

/-- getVals reads only the type, flat attributes and decoded tree of a
resource, never its dependency list. -/
theorem getVals_congr {a b : ResourceState} (ht : a.typ = b.typ)
    (hp : a.primary = b.primary) (hd : a.dataVals = b.dataVals)
    (attr : String) : getVals a attr = getVals b attr := by
  cases a
  cases b
  cases ht
  cases hp
  cases hd
  rfl

/-- The inner per-source inference step preserves the destination key. -/
theorem infer_src_step_key (ds : DepSpec) (vals : List String)
    (cur cur' : Resource) (src : Resource)
    (h : (if cur.key = src.key then Except.ok cur
      else do
        let sv ← getVals src.state ds.srcAttr
        match sv with
        | [v1] =>
          Except.ok
            (if vals.contains v1 = true then
              { cur with state := { cur.state with dependencies :=
                  cur.state.dependencies ++ [src.key] } }
            else cur)
        | _ :: _ :: _ =>
          Except.error (.ambiguousSource ds.srcType ds.srcAttr)
        | [] => Except.ok cur) = .ok cur') :
    cur'.key = cur.key := by
  split at h
  · injection h with h
    exact h ▸ rfl
  · rcases hsv : getVals src.state ds.srcAttr with e | sv <;>
      simp only [hsv, Except.bind, bind] at h
    · cases h
    · split at h
      · injection h with h
        subst h
        split
        · rfl
        · rfl
      · cases h
      · injection h with h
        exact h ▸ rfl

/-- A spec with a multi-valued source candidate can never succeed. -/
theorem infer_sp_not_ok (sp : DepSpec)
    (tmap : List (String × List Resource)) (dstKey : String)
    (dstState : ResourceState) (src : Resource)
    (hsrc : src ∈ (tmap.lookup sp.srcType).getD [])
    (hkey : dstKey ≠ src.key)
    (hvals : ∀ vals, getVals dstState sp.attr = .ok vals → vals ≠ [])
    (hsv : ∃ sv, getVals src.state sp.srcAttr = .ok sv ∧ 1 < sv.length)
    (acc : Resource) (hak : acc.key = dstKey)
    (hat : acc.state.typ = dstState.typ)
    (hap : acc.state.primary = dstState.primary)
    (had : acc.state.dataVals = dstState.dataVals) :
    ∀ y, DepSpec.infer sp acc tmap ≠ .ok y := by
  intro y h
  unfold DepSpec.infer at h
  dsimp only at h
  split at h
  · rename_i hemp
    rw [List.isEmpty_iff] at hemp
    rw [hemp] at hsrc
    cases hsrc
  · have hcv : getVals acc.state sp.attr = getVals dstState sp.attr :=
      getVals_congr hat hap had sp.attr
    rcases hv : getVals dstState sp.attr with e | vals
    · rw [hcv, hv] at h
      simp only [Except.bind, bind] at h
      cases h
    · rw [hcv, hv] at h
      simp only [Except.bind, bind] at h
      split at h
      · rename_i hemp
        rw [List.isEmpty_iff] at hemp
        exact hvals vals hv hemp
      · have hpres : ∀ (a : Resource) (b : Resource) (a' : Resource),
            a.key = dstKey →
            (if a.key = b.key then Except.ok a
              else do
                let sv ← getVals b.state sp.srcAttr
                match sv with
                | [v1] =>
                  Except.ok
                    (if vals.contains v1 = true then
                      { a with state := { a.state with dependencies :=
                          a.state.dependencies ++ [b.key] } }
                    else a)
                | _ :: _ :: _ =>
                  Except.error (.ambiguousSource sp.srcType sp.srcAttr)
                | [] => Except.ok a) = .ok a' →
            a'.key = dstKey := fun a b a' hP hstep =>
          (infer_src_step_key sp vals a a' b hstep).trans hP
        obtain ⟨acc2, hP2, y3, hstep⟩ := foldlM_ok_mem
          (fun cur : Resource => cur.key = dstKey) _ hpres _ acc y hak h
          src hsrc
        rw [if_neg (by rw [hP2]; exact hkey)] at hstep
        obtain ⟨sv, hsv1, hsv2⟩ := hsv
        rw [hsv1] at hstep
        simp only [Except.bind, bind] at hstep
        rcases sv with _ | ⟨v1, sv⟩
        · simp at hsv2
        rcases sv with _ | ⟨v2, rest⟩
        · simp at hsv2
        cases hstep

/-- With a multi-valued source candidate present, inferRes for the
destination cannot succeed. -/
theorem inferRes_not_ok (dm : DepMap)
    (tmap : List (String × List Resource)) (dst : String × ResourceState)
    (sp : DepSpec) (src : Resource)
    (hsp : sp ∈ (dm.lookup dst.2.typ).getD [])
    (hsrc : src ∈ (tmap.lookup sp.srcType).getD [])
    (hkey : dst.1 ≠ src.key)
    (hvals : ∀ vals, getVals dst.2 sp.attr = .ok vals → vals ≠ [])
    (hsv : ∃ sv, getVals src.state sp.srcAttr = .ok sv ∧ 1 < sv.length) :
    ∀ y, inferRes dm tmap dst.1 dst.2 ≠ .ok y := by
  intro y h
  unfold inferRes at h
  dsimp only at h
  split at h
  · rename_i hemp
    rw [List.isEmpty_iff] at hemp
    rw [hemp] at hsp
    cases hsp
  · rcases hf : List.foldlM (fun cur sp => DepSpec.infer sp cur tmap)
        ({ key := dst.1, state := dst.2 } : Resource)
        ((dm.lookup dst.2.typ).getD []) with e | res <;>
      simp only [hf, Except.bind, bind] at h
    · cases h
    · have hpres : ∀ (a : Resource) (b : DepSpec) (a' : Resource),
          (a.key = dst.1 ∧ a.state.typ = dst.2.typ ∧
            a.state.primary = dst.2.primary ∧
            a.state.dataVals = dst.2.dataVals) →
          DepSpec.infer b a tmap = .ok a' →
          a'.key = dst.1 ∧ a'.state.typ = dst.2.typ ∧
            a'.state.primary = dst.2.primary ∧
            a'.state.dataVals = dst.2.dataVals := by
        intro a b a' hP hstep
        obtain ⟨g1, g2, g3, g4, -⟩ := infer_extends b a a' _ hstep
        exact ⟨g1.trans hP.1, g2.trans hP.2.1, g3.trans hP.2.2.1,
          g4.trans hP.2.2.2⟩
      obtain ⟨acc, hP, y2, hok⟩ := foldlM_ok_mem
        (fun cur : Resource => cur.key = dst.1 ∧
          cur.state.typ = dst.2.typ ∧
          cur.state.primary = dst.2.primary ∧
          cur.state.dataVals = dst.2.dataVals) _ hpres _ _ res
        ⟨rfl, rfl, rfl, rfl⟩ hf sp hsp
      exact infer_sp_not_ok sp tmap dst.1 dst.2 src hsrc hkey hvals hsv
        acc hP.1 hP.2.1 hP.2.2.1 hP.2.2.2 y2 hok

/-- Under clean flattening, a failing spec inference can only be the
ambiguous-source panic. -/
theorem infer_sp_error_shape (sp : DepSpec)
    (tmap : List (String × List Resource)) (r : ResourceState)
    (hg1 : ∃ vs, getVals r sp.attr = .ok vs)
    (hg2 : ∀ src ∈ (tmap.lookup sp.srcType).getD [],
      ∃ vs, getVals src.state sp.srcAttr = .ok vs)
    (acc : Resource) (hat : acc.state.typ = r.typ)
    (hap : acc.state.primary = r.primary)
    (had : acc.state.dataVals = r.dataVals) (e : TfErr)
    (h : DepSpec.infer sp acc tmap = .error e) :
    ∃ t a, e = .ambiguousSource t a := by
  unfold DepSpec.infer at h
  dsimp only at h
  split at h
  · cases h
  · have hcv : getVals acc.state sp.attr = getVals r sp.attr :=
      getVals_congr hat hap had sp.attr
    obtain ⟨vs, hvs⟩ := hg1
    rw [hcv, hvs] at h
    simp only [Except.bind, bind] at h
    split at h
    · cases h
    · obtain ⟨src', hsrc', acc2, -, hstep⟩ := foldlM_error_mem
        (fun _ : Resource => True) _ (fun _ _ _ _ _ => trivial) _ _ e
        trivial h
      split at hstep
      · cases hstep
      · obtain ⟨vs2, hvs2⟩ := hg2 src' hsrc'
        rw [hvs2] at hstep
        simp only [Except.bind, bind] at hstep
        split at hstep
        · cases hstep
        · injection hstep with hstep
          exact ⟨sp.srcType, sp.srcAttr, hstep.symm⟩
        · cases hstep

/-- Under clean flattening, a failing inferRes can only be the
ambiguous-source panic. -/
theorem inferRes_error_shape (dm : DepMap)
    (tmap : List (String × List Resource)) (k : String)
    (r : ResourceState)
    (hg : ∀ sp ∈ (dm.lookup r.typ).getD [],
      (∃ vs, getVals r sp.attr = .ok vs) ∧
      ∀ src ∈ (tmap.lookup sp.srcType).getD [],
        ∃ vs, getVals src.state sp.srcAttr = .ok vs)
    (e : TfErr) (h : inferRes dm tmap k r = .error e) :
    ∃ t a, e = .ambiguousSource t a := by
  unfold inferRes at h
  dsimp only at h
  split at h
  · cases h
  · rcases hf : List.foldlM (fun cur sp => DepSpec.infer sp cur tmap)
        ({ key := k, state := r } : Resource)
        ((dm.lookup r.typ).getD []) with e' | res <;>
      simp only [hf, Except.bind, bind] at h
    · injection h with h
      subst h
      have hpres : ∀ (a : Resource) (b : DepSpec) (a' : Resource),
          (a.state.typ = r.typ ∧ a.state.primary = r.primary ∧
            a.state.dataVals = r.dataVals) →
          DepSpec.infer b a tmap = .ok a' →
          a'.state.typ = r.typ ∧ a'.state.primary = r.primary ∧
            a'.state.dataVals = r.dataVals := by
        intro a b a' hP hstep
        obtain ⟨-, g2, g3, g4, -⟩ := infer_extends b a a' _ hstep
        exact ⟨g2.trans hP.1, g3.trans hP.2.1, g4.trans hP.2.2⟩
      obtain ⟨sp', hsp', acc, hP, hstep⟩ := foldlM_error_mem
        (fun cur : Resource => cur.state.typ = r.typ ∧
          cur.state.primary = r.primary ∧
          cur.state.dataVals = r.dataVals) _ hpres _ _ e'
        ⟨rfl, rfl, rfl⟩ hf
      exact infer_sp_error_shape sp' tmap r (hg sp' hsp').1
        (hg sp' hsp').2 acc hP.1 hP.2.1 hP.2.2 e' hstep
    · cases h

/-- Under clean flattening, a failing Infer can only be the
ambiguous-source panic. -/
theorem infer_error_shape (dm : DepMap) (s : TfState)
    (hg : CleanGetVals dm s) (e : TfErr)
    (h : DepMap.Infer dm s = .error e) :
    ∃ t a, e = .ambiguousSource t a := by
  unfold DepMap.Infer at h
  dsimp only [Except.bind, bind, pure, Except.pure] at h
  split at h
  · rename_i err hmm
    injection h with h
    subst h
    obtain ⟨m', hm', hfm⟩ := mapM_error_mem hmm
    split at hfm
    · rename_i err2 hr2
      injection hfm with hfm
      subst hfm
      obtain ⟨e0, he0, hfe⟩ := mapM_error_mem hr2
      exact inferRes_error_shape dm (moduleTypeMap m') e0.1 e0.2
        (hg m' hm' e0 he0) err2 hfe
    · cases hfm
  · cases h

/-- C8: a candidate source whose source attribute flattens to more than
one value makes the whole inference pass fail — it is not skipped and no
value is picked — and when every flattening on the state succeeds, the
failure is precisely the AmbiguousSourceError panic. -/
theorem infer_ambiguous_source (dm : DepMap) (s : TfState)
    (m : ModuleState) (dst : String × ResourceState) (sp : DepSpec)
    (src : Resource)
    (hm : m ∈ s.modules) (hdst : dst ∈ m.resources)
    (hsp : sp ∈ (dm.lookup dst.2.typ).getD [])
    (hsrc : src ∈ ((moduleTypeMap m).lookup sp.srcType).getD [])
    (hkey : dst.1 ≠ src.key)
    (hvals : ∀ vals, getVals dst.2 sp.attr = .ok vals → vals ≠ [])
    (hsv : ∃ sv, getVals src.state sp.srcAttr = .ok sv ∧ 1 < sv.length) :
    (∀ s', DepMap.Infer dm s ≠ .ok s') ∧
    (CleanGetVals dm s →
      ∃ t a, DepMap.Infer dm s = .error (.ambiguousSource t a)) := by
  have hnot : ∀ s', DepMap.Infer dm s ≠ .ok s' := by
    intro s' h
    unfold DepMap.Infer at h
    dsimp only [Except.bind, bind, pure, Except.pure] at h
    split at h
    · cases h
    · rename_i mods hmm
      obtain ⟨m2, hfm⟩ := mapM_ok_mem hmm m hm
      split at hfm
      · cases hfm
      · rename_i ress hr
        obtain ⟨e2, hfe⟩ := mapM_ok_mem hr dst hdst
        exact inferRes_not_ok dm (moduleTypeMap m) dst sp src hsp hsrc
          hkey hvals hsv e2 hfe
  refine ⟨hnot, ?_⟩
  intro hg
  rcases hI : DepMap.Infer dm s with e | s'
  · obtain ⟨t, a, rfl⟩ := infer_error_shape dm s hg e hI
    exact ⟨t, a, rfl⟩
  · exact absurd hI (hnot s')

/-- C8 witness: the two-valued source id makes Infer fail with the
ambiguous-source panic on the scenario graph. -/
theorem infer_ambiguous_source_witness :
    ∃ t a, DepMap.Infer inferDm ambScenario =
      .error (.ambiguousSource t a) :=
  (infer_ambiguous_source inferDm ambScenario ambModule
    ("widget.w1", ambWidgetRS)
    { attr := "ref", srcType := "gadget", srcAttr := "id" }
    { key := "gadget.g1", state := ambGadgetRS }
    (List.Mem.head _) (List.Mem.tail _ (List.Mem.head _))
    (List.Mem.head _) (List.Mem.head _) (by decide)
    (by
      intro vals h
      rw [show getVals ambWidgetRS "ref" = Except.ok ["a"] from rfl] at h
      injection h with h
      rw [← h]
      decide)
    ⟨["a", "b"], rfl, by decide⟩).2
    (by
      intro m' hm' e he sp' hsp'
      rcases List.mem_cons.mp hm' with rfl | hm'
      · rcases List.mem_cons.mp he with rfl | he
        · cases hsp'
        · rcases List.mem_cons.mp he with rfl | he
          · rcases List.mem_cons.mp hsp' with rfl | hsp'
            · exact ⟨⟨["a"], rfl⟩, by
                intro src' hsrc'
                rcases List.mem_cons.mp hsrc' with rfl | hsrc'
                · exact ⟨["a", "b"], rfl⟩
                · cases hsrc'⟩
            · cases hsp'
          · cases he
      · cases hm')

/-- C9 witness: the dependency-inference scenario only adds edges and the
result list is deduplicated. -/
theorem infer_only_adds_witness :
    (inferScenario.modules.map fun m =>
        m.resources.map fun e => e.2.dependencies) = [[[], []]] ∧
    (inferScenarioOut.modules.map fun m =>
        m.resources.map fun e => e.2.dependencies) =
      [[[], ["gadget.g1"]]] ∧
    inferScenarioOut.modules.length = inferScenario.modules.length :=
  ⟨by rfl, by rfl,
    (infer_only_adds inferDm inferScenario inferScenarioOut (by rfl)).1⟩

theorem lookup_cons_self {β : Type} (a : String) (b : β)
    (l : List (String × β)) : ((a, b) :: l).lookup a = some b := by
  simp [List.lookup]

theorem lookup_cons_ne {β : Type} {x a : String} (b : β)
    (l : List (String × β)) (h : x ≠ a) :
    ((a, b) :: l).lookup x = l.lookup x := by
  simp [List.lookup, beq_false_of_ne h]

theorem mappingEquiv_of_eq {st1 st2 : StateTransform} {x : String}
    (h : lookupMapping st1 x = lookupMapping st2 x) :
    MappingEquiv st1 st2 x := by
  unfold MappingEquiv
  rw [h]
  rcases lookupMapping st2 x with _ | a
  · trivial
  · exact ⟨Iff.rfl, rfl⟩

theorem strAppend_ne_empty (p s : String) (hp : p.data ≠ []) :
    p ++ s ≠ "" := by
  intro h
  apply hp
  have hd := congrArg String.data h
  rw [strData_append] at hd
  exact (List.append_eq_nil.mp hd).1

/-- The two lookups of the phase-2 remap, written out: the address itself,
then the root-stripped form. -/
theorem lookupMapping_eq (st : StateTransform) (x : String) :
    lookupMapping st x =
      match st.lookup x with
      | some v => some v
      | none =>
        if hasPfx x rootPfx then st.lookup (dropPfx x rootPfx) else none :=
  rfl

/-- C10: for root-module resources the transform is consulted in both
qualified and unqualified form — an entry keyed without the module.root.
prefix behaves exactly like the fully qualified entry — and a non-module
destination is read as module.root. plus that address. -/
theorem apply_root_qualification (g : TfState) (st : StateTransform)
    (k v : String) (nodes : List Node)
    (h1 : phase1 g = .ok nodes)
    (hk : hasPfx k "module." = false)
    (hsk : st.lookup k = none)
    (hsq : st.lookup (rootPfx ++ k) = none)
    (hnk : ∀ n ∈ nodes, n.addr ≠ rootPfx ++ (rootPfx ++ k))
    (hv : v ≠ "") :
    StateTransform.Apply ((k, v) :: st) g =
      StateTransform.Apply ((rootPfx ++ k, v) :: st) g ∧
    (hasPfx v "module." = false →
      StateTransform.Apply ((k, v) :: st) g =
        StateTransform.Apply ((k, rootPfx ++ v) :: st) g) := by
  have happly : ∀ st2 : StateTransform,
      phase2 ((k, v) :: st) nodes = phase2 st2 nodes →
      st2.isEmpty = false →
      StateTransform.Apply ((k, v) :: st) g =
        StateTransform.Apply st2 g := by
    intro st2 hph hne
    unfold StateTransform.Apply
    rw [show ((k, v) :: st).isEmpty = false from rfl, hne]
    simp only [Bool.false_eq_true, if_false, h1]
    rw [hph]
  have hinv : ∀ id ∈ List.range nodes.length, ∀ n : Node,
      nodes[id]? = some n →
      hasPfx n.addr "module." = true ∧
        n.addr ≠ rootPfx ++ (rootPfx ++ k) := by
    intro id _ n hn
    have hm := mem_of_getElem? hn
    exact ⟨phase1_addrs h1 n hm, hnk n hm⟩
  constructor
  · have hequiv : ∀ x, (hasPfx x "module." = true ∧
        x ≠ rootPfx ++ (rootPfx ++ k)) →
        MappingEquiv ((k, v) :: st) ((rootPfx ++ k, v) :: st) x := by
      intro x ⟨hx, hxq⟩
      have hxk : x ≠ k := fun h => by rw [h, hk] at hx; cases hx
      by_cases hxQ : x = rootPfx ++ k
      · have e2 : lookupMapping ((rootPfx ++ k, v) :: st) x = some v := by
          rw [lookupMapping_eq, hxQ, lookup_cons_self]
        have e1 : lookupMapping ((k, v) :: st) x = some v := by
          rw [lookupMapping_eq, lookup_cons_ne _ _ hxk, hxQ, hsq]
          rw [if_pos (hasPfx_append _ _), dropPfx_append,
            lookup_cons_self]
        unfold MappingEquiv
        rw [e1, e2]
        exact ⟨Iff.rfl, rfl⟩
      · apply mappingEquiv_of_eq
        rw [lookupMapping_eq, lookupMapping_eq, lookup_cons_ne _ _ hxk,
          lookup_cons_ne _ _ hxQ]
        rcases hr : st.lookup x with _ | w
        · by_cases hc : hasPfx x rootPfx = true
          · rw [if_pos hc, if_pos hc]
            have hx_eq : rootPfx ++ dropPfx x rootPfx = x := pfx_add_drop hc
            have hs1 : dropPfx x rootPfx ≠ k := by
              intro h
              rw [h] at hx_eq
              exact hxQ hx_eq.symm
            have hs2 : dropPfx x rootPfx ≠ rootPfx ++ k := by
              intro h
              rw [h] at hx_eq
              exact hxq hx_eq.symm
            rw [lookup_cons_ne _ _ hs1, lookup_cons_ne _ _ hs2]
          · rw [if_neg hc, if_neg hc]
        · rfl
    exact happly _ (phase2Go_congr _ _ _ hequiv _ nodes []
      (List.nodup_range _) hinv) rfl
  · intro hvm
    have hvq : rootPfx ++ v ≠ "" := strAppend_ne_empty _ _ (by decide)
    have hnorm : normalizeDest v = normalizeDest (rootPfx ++ v) := by
      unfold normalizeDest
      rw [if_neg (by rw [hvm]; exact fun h => Bool.noConfusion h)]
      rw [if_pos (show hasPfx (rootPfx ++ v) "module." = true by
        rw [rootPfx_module, strAppend_assoc]; exact hasPfx_append _ _)]
    have hequiv : ∀ x, True →
        MappingEquiv ((k, v) :: st) ((k, rootPfx ++ v) :: st) x := by
      intro x _
      by_cases hxk : x = k
      · subst hxk
        have e1 : lookupMapping ((x, v) :: st) x = some v := by
          rw [lookupMapping_eq, lookup_cons_self]
        have e2 : lookupMapping ((x, rootPfx ++ v) :: st) x =
            some (rootPfx ++ v) := by
          rw [lookupMapping_eq, lookup_cons_self]
        unfold MappingEquiv
        rw [e1, e2]
        exact ⟨⟨fun h => absurd h hv, fun h => absurd h hvq⟩, hnorm⟩
      · rcases hr : st.lookup x with _ | w
        · by_cases hc : hasPfx x rootPfx = true
          · by_cases hs : dropPfx x rootPfx = k
            · have e1 : lookupMapping ((k, v) :: st) x = some v := by
                rw [lookupMapping_eq, lookup_cons_ne _ _ hxk, hr,
                  if_pos hc, hs, lookup_cons_self]
              have e2 : lookupMapping ((k, rootPfx ++ v) :: st) x =
                  some (rootPfx ++ v) := by
                rw [lookupMapping_eq, lookup_cons_ne _ _ hxk, hr,
                  if_pos hc, hs, lookup_cons_self]
              unfold MappingEquiv
              rw [e1, e2]
              exact ⟨⟨fun h => absurd h hv, fun h => absurd h hvq⟩, hnorm⟩
            · apply mappingEquiv_of_eq
              rw [lookupMapping_eq, lookupMapping_eq,
                lookup_cons_ne _ _ hxk, lookup_cons_ne _ _ hxk, hr,
                if_pos hc, if_pos hc, lookup_cons_ne _ _ hs,
                lookup_cons_ne _ _ hs]
          · apply mappingEquiv_of_eq
            rw [lookupMapping_eq, lookupMapping_eq,
              lookup_cons_ne _ _ hxk, lookup_cons_ne _ _ hxk, hr,
              if_neg hc, if_neg hc]
        · apply mappingEquiv_of_eq
          rw [lookupMapping_eq, lookupMapping_eq,
            lookup_cons_ne _ _ hxk, lookup_cons_ne _ _ hxk, hr]
    exact happly _ (phase2Go_congr _ _ _ hequiv _ nodes []
      (List.nodup_range _) (fun id h n hn => trivial)) rfl

/-- C10 witness: on the collision graph, the unqualified and qualified
spellings of the same transform agree, as do the unqualified and qualified
destination spellings. -/
theorem apply_root_qualification_witness :
    (StateTransform.Apply [("a.a", "c.c")] collisionState =
      StateTransform.Apply [("module.root." ++ "a.a", "c.c")]
        collisionState) ∧
    (hasPfx "c.c" "module." = false →
      StateTransform.Apply [("a.a", "c.c")] collisionState =
        StateTransform.Apply [("a.a", "module.root." ++ "c.c")]
          collisionState) := by
  have h := apply_root_qualification collisionState [] "a.a" "c.c"
    collisionNodes (by rfl) (by rfl) (by rfl) (by rfl) ?_ (by decide)
  · exact ⟨h.1, h.2⟩
  · intro n hn
    rcases List.mem_cons.mp hn with rfl | hn
    · decide
    · rcases List.mem_cons.mp hn with rfl | hn
      · decide
      · cases hn

/-- C6 witness: the general collision theorem applied to the scenario. -/
theorem apply_collision_rejected_witness :
    ∃ a, StateTransform.Apply collisionTr collisionState =
      .err (.addressCollision a) collisionState :=
  apply_collision_rejected.1 collisionTr collisionState collisionNodes 0 1
    (collisionNodes.get ⟨0, by decide⟩) (collisionNodes.get ⟨1, by decide⟩)
    "module.root.c.c" (by rfl) (by decide) (by rfl) (by rfl) (by rfl)
    (by rfl)

/-- C2 counterexample: Apply succeeds on the dangling-edge scenario, yet the
nonexistent key ghost.g survives in the output's dependency lists — a
dangling edge outlives a successful Apply when the input graph has one. -/
theorem apply_dangling_dep :
    StateTransform.Apply danglingTr danglingState = .ok danglingResult ∧
    ¬ NoDangling danglingResult := by
  refine ⟨by rfl, fun h => ?_⟩
  obtain ⟨r', hr⟩ := h _ (List.Mem.head _) _ (List.Mem.head _) "ghost.g"
    (List.Mem.head _)
  rcases List.mem_cons.mp hr with he | hr
  · have hk : "ghost.g" = "x.x2" := congrArg Prod.fst he
    exact absurd hk (by decide)
  · rcases List.mem_cons.mp hr with he | hr
    · have hk : "ghost.g" = "y.y" := congrArg Prod.fst he
      exact absurd hk (by decide)
    · cases hr

theorem getElem?_lt_length {α : Type} {l : List α} {i : Nat} {a : α}
    (h : l[i]? = some a) : i < l.length := by
  rcases Nat.lt_or_ge i l.length with hlt | hge
  · exact hlt
  · rw [List.getElem?_eq_none hge] at h
    cases h

theorem getElem?_of_mem {α : Type} {l : List α} {a : α} (h : a ∈ l) :
    ∃ i : Nat, l[i]? = some a := by
  induction l with
  | nil => cases h
  | cons x xs ih =>
    rcases List.mem_cons.mp h with rfl | h
    · exact ⟨0, by rw [List.getElem?_cons_zero]⟩
    · obtain ⟨i, hi⟩ := ih h
      exact ⟨i + 1, by rw [List.getElem?_cons_succ]; exact hi⟩

theorem lookup_isSome_of_mem {l : List (String × Nat)} {a : String}
    {v : Nat} (h : (a, v) ∈ l) : ∃ v', l.lookup a = some v' := by
  induction l with
  | nil => cases h
  | cons e rest ih =>
    rw [List.lookup]
    split
    · exact ⟨_, rfl⟩
    · rename_i hne
      rcases List.mem_cons.mp h with heq | h
      · rw [← heq] at hne
        simp at hne
      · exact ih h

theorem tmInsert_mem_self (tm : List (String × Nat)) (a : String)
    (nid : Nat) : (a, nid) ∈ tmInsert tm a nid := by
  induction tm with
  | nil => exact List.mem_cons_self _ _
  | cons e rest ih =>
    rw [tmInsert]
    by_cases he : e.1 = a
    · rw [if_pos he]
      exact List.mem_cons_self _ _
    · rw [if_neg he]
      exact List.mem_cons_of_mem _ ih

/-- tmInsert keeps every entry except the first one under the inserted key
(whose value is what lookup returned). -/
theorem tmInsert_mem_or {tm : List (String × Nat)} {a : String} {nid : Nat}
    {e : String × Nat} (h : e ∈ tm) :
    e ∈ tmInsert tm a nid ∨ (e.1 = a ∧ tm.lookup a = some e.2) := by
  induction tm with
  | nil => cases h
  | cons f rest ih =>
    rw [tmInsert]
    by_cases hfa : f.1 = a
    · rcases List.mem_cons.mp h with rfl | h
      · right
        refine ⟨hfa, ?_⟩
        rw [List.lookup, ← hfa, beq_self_eq_true]
      · rw [if_pos hfa]
        exact Or.inl (List.mem_cons_of_mem _ h)
    · rw [if_neg hfa]
      rcases List.mem_cons.mp h with rfl | h
      · exact Or.inl (List.mem_cons_self _ _)
      · rcases ih h with h' | ⟨h1, h2⟩
        · exact Or.inl (List.mem_cons_of_mem _ h')
        · right
          refine ⟨h1, ?_⟩
          rw [List.lookup, beq_false_of_ne fun hh => hfa hh.symm]
          exact h2

theorem moduleMapOf_eq (nodes : List Node) (ids : List Nat) :
    moduleMapOf nodes ids = ids.foldl (fun acc j =>
      match nodes[j]? with
      | some n => tmInsert acc n.key j
      | none => acc) [] := rfl

theorem moduleMapOf_go_covers (nodes : List Node) (d : String) :
    ∀ (ids : List Nat) (acc : List (String × Nat)),
    ((∃ j ∈ ids, ∃ dn, nodes[j]? = some dn ∧ dn.key = d) ∨
      ∃ v, acc.lookup d = some v) →
    ∃ v, (ids.foldl (fun acc j =>
      match nodes[j]? with
      | some n => tmInsert acc n.key j
      | none => acc) acc).lookup d = some v := by
  intro ids
  induction ids with
  | nil =>
    intro acc h
    rcases h with ⟨j, hj, _⟩ | h
    · cases hj
    · exact h
  | cons k rest ih =>
    intro acc h
    rw [List.foldl_cons]
    rcases hn : nodes[k]? with _ | n <;> simp only [hn]
    · refine ih _ ?_
      rcases h with ⟨j, hj, dn, hdn, hkey⟩ | h
      · rcases List.mem_cons.mp hj with rfl | hj
        · rw [hn] at hdn
          cases hdn
        · exact Or.inl ⟨j, hj, dn, hdn, hkey⟩
      · exact Or.inr h
    · refine ih _ ?_
      rcases h with ⟨j, hj, dn, hdn, hkey⟩ | ⟨v, hv⟩
      · rcases List.mem_cons.mp hj with rfl | hj
        · rw [hn] at hdn
          injection hdn with hdn
          subst hdn
          right
          rw [hkey]
          exact ⟨_, tmInsert_lookup_self _ _ _⟩
        · exact Or.inl ⟨j, hj, dn, hdn, hkey⟩
      · right
        by_cases hda : d = n.key
        · subst hda
          exact ⟨_, tmInsert_lookup_self _ _ _⟩
        · rw [tmInsert_lookup_ne _ _ _ _ hda]
          exact ⟨v, hv⟩

theorem moduleMapOf_covers {nodes : List Node} {ids : List Nat} {d : String}
    (h : ∃ j ∈ ids, ∃ dn, nodes[j]? = some dn ∧ dn.key = d) :
    ∃ v, (moduleMapOf nodes ids).lookup d = some v := by
  rw [moduleMapOf_eq]
  exact moduleMapOf_go_covers nodes d ids [] (Or.inl h)

theorem foldlNU_len (g : Node → Node) :
    ∀ (ids : List Nat) (cur : List Node),
    (ids.foldl (fun acc j => nodeUpdate acc j g) cur).length = cur.length := by
  intro ids
  induction ids with
  | nil => intro cur; rfl
  | cons id rest ih =>
    intro cur
    rw [List.foldl_cons, ih, nodeUpdate_length]

theorem foldlNU_untouched (g : Node → Node) :
    ∀ (ids : List Nat) (cur : List Node) (i : Nat), i ∉ ids →
    (ids.foldl (fun acc j => nodeUpdate acc j g) cur)[i]? = cur[i]? := by
  intro ids
  induction ids with
  | nil => intro cur i _; rfl
  | cons k rest ih =>
    intro cur i hi
    rw [List.foldl_cons, ih _ _ (fun h => hi (List.mem_cons_of_mem _ h)),
      nodeUpdate_getElem_ne _ _ _ _
        (fun h => hi (by rw [h]; exact List.mem_cons_self _ _))]

theorem foldlNU_spec (g : Node → Node) (hg : ∀ n, g (g n) = g n) :
    ∀ (ids : List Nat) (cur base : List Node),
    (∀ (i : Nat) (n : Node), base[i]? = some n →
      cur[i]? = some n ∨ cur[i]? = some (g n)) →
    ∀ (i : Nat) (n : Node), base[i]? = some n →
    (ids.foldl (fun acc j => nodeUpdate acc j g) cur)[i]? = some n ∨
    (ids.foldl (fun acc j => nodeUpdate acc j g) cur)[i]? = some (g n) := by
  intro ids
  induction ids with
  | nil =>
    intro cur base hP i n hb
    exact hP i n hb
  | cons k rest ih =>
    intro cur base hP i n hb
    rw [List.foldl_cons]
    refine ih _ base ?_ i n hb
    intro i' n' hb'
    by_cases hii : i' = k
    · subst hii
      rcases hP i' n' hb' with hc | hc
      · rw [nodeUpdate_getElem_self g hc]
        exact Or.inr rfl
      · rw [nodeUpdate_getElem_self g hc, hg]
        exact Or.inr rfl
    · rw [nodeUpdate_getElem_ne _ _ _ _ hii]
      exact hP i' n' hb'

theorem resolveDeps_eq (nodes : List Node) (ids : List Nat) :
    resolveDeps nodes ids = ids.foldl (fun acc j => nodeUpdate acc j fun n =>
      { n with deps := n.res.dependencies.map fun d =>
          (moduleMapOf nodes ids).lookup d }) nodes := rfl

/-- If every dependency of a listed node's resource has a sibling listed
node carrying it as key, resolution leaves no nil slot anywhere. -/
theorem resolveDeps_closed {nodes : List Node} {ids : List Nat}
    (hids : ∀ j ∈ ids, ∀ n : Node, nodes[j]? = some n →
      ∀ d ∈ n.res.dependencies,
        ∃ j' ∈ ids, ∃ dn : Node, nodes[j']? = some dn ∧ dn.key = d)
    (hcl : DepsClosed nodes) :
    DepsClosed (resolveDeps nodes ids) := by
  rw [resolveDeps_eq]
  intro i n3 h3 hmem
  by_cases hi : i ∈ ids
  · have hlt : i < nodes.length := by
      have := getElem?_lt_length h3
      rwa [foldlNU_len] at this
    rcases hn2 : nodes[i]? with _ | n2
    · rw [List.getElem?_eq_none_iff] at hn2
      omega
    · rcases foldlNU_spec (fun n =>
          { n with deps := n.res.dependencies.map fun d =>
              (moduleMapOf nodes ids).lookup d }) (fun n => rfl) ids nodes
          nodes (fun i' n' hb => Or.inl hb) i n2 hn2 with hc | hc
      · rw [h3] at hc
        injection hc with hc
        exact hcl i n2 hn2 (hc ▸ hmem)
      · rw [h3] at hc
        injection hc with hc
        rw [hc] at hmem
        rcases List.mem_map.mp hmem with ⟨d, hd, hmap⟩
        obtain ⟨v, hv⟩ := moduleMapOf_covers (hids i hi n2 hn2 d hd)
        rw [hv] at hmap
        cases hmap
  · rw [foldlNU_untouched _ _ _ _ hi] at h3
    exact hcl i n3 h3 hmem

theorem phase1Res_shape {mi : Nat} {path : List String} :
    ∀ (l : List (String × ResourceState)) (acc acc' : List Node),
    phase1Res mi path l acc = .ok acc' →
    ∃ ext, acc' = acc ++ ext ∧
      (∀ nn ∈ ext, nn.deps = [] ∧ ∃ kr ∈ l, nn.key = kr.1 ∧ nn.res = kr.2) ∧
      (∀ kr ∈ l, ∃ nn ∈ ext, nn.key = kr.1) := by
  intro l
  induction l with
  | nil =>
    intro acc acc' h
    injection h with h
    refine ⟨[], by rw [← h, List.append_nil], ?_, ?_⟩
    · intro nn hnn
      cases hnn
    · intro kr hkr
      cases hkr
  | cons e rest ih =>
    intro acc acc' h
    rw [phase1Res] at h
    rcases hk : stateKeyToAddress path e.1 with er | addr <;> rw [hk] at h
    · cases h
    · dsimp only at h
      split at h
      · cases h
      · obtain ⟨ext', heq, hprop, hcov⟩ := ih _ _ h
        refine ⟨{ addr := addr
                  key := e.1
                  mod := some (.real mi)
                  res := e.2 } :: ext', ?_, ?_, ?_⟩
        · rw [heq, List.append_assoc, List.singleton_append]
        · intro nn hnn
          rcases List.mem_cons.mp hnn with rfl | hnn
          · exact ⟨rfl, e, List.mem_cons_self _ _, rfl, rfl⟩
          · obtain ⟨hdeps, kr, hkr, h1, h2⟩ := hprop nn hnn
            exact ⟨hdeps, kr, List.mem_cons_of_mem _ hkr, h1, h2⟩
        · intro kr hkr
          rcases List.mem_cons.mp hkr with rfl | hkr
          · exact ⟨_, List.mem_cons_self _ _, rfl⟩
          · obtain ⟨nn, hnn, hkey⟩ := hcov kr hkr
            exact ⟨nn, List.mem_cons_of_mem _ hnn, hkey⟩

theorem phase1Go_closed :
    ∀ (ms : List ModuleState) (mi : Nat) (acc nodes : List Node),
    phase1Go mi ms acc = .ok nodes →
    (∀ m ∈ ms, ∀ e ∈ m.resources, ∀ d ∈ e.2.dependencies,
      ∃ r', (d, r') ∈ m.resources) →
    DepsClosed acc → DepsClosed nodes := by
  intro ms
  induction ms with
  | nil =>
    intro mi acc nodes h _ hacc
    injection h with h
    exact h ▸ hacc
  | cons m rest ih =>
    intro mi acc nodes h hnd hacc
    rw [phase1Go] at h
    rcases h1 : phase1Res mi m.path m.resources acc with er | acc2 <;>
      simp only [h1, Except.bind, bind] at h
    · cases h
    · refine ih _ _ _ h
        (fun m' hm' => hnd m' (List.mem_cons_of_mem _ hm')) ?_
      obtain ⟨ext, rfl, hext, hcov⟩ := phase1Res_shape _ _ _ h1
      rw [show (acc ++ ext).length - acc.length = ext.length from by simp]
      refine resolveDeps_closed ?_ ?_
      · intro j hj n hn d hd
        rw [List.mem_range'_1] at hj
        rw [List.getElem?_append_right hj.1] at hn
        have hnm : n ∈ ext := mem_of_getElem? hn
        obtain ⟨-, kr, hkr, -, hres⟩ := hext n hnm
        rw [hres] at hd
        obtain ⟨r', hr'⟩ := hnd m (List.mem_cons_self _ _) kr hkr d hd
        obtain ⟨nn, hnn, hkey⟩ := hcov (d, r') hr'
        obtain ⟨t, ht⟩ := getElem?_of_mem hnn
        have htl : t < ext.length := getElem?_lt_length ht
        refine ⟨acc.length + t, ?_, nn, ?_, hkey⟩
        · rw [List.mem_range'_1]
          omega
        · rw [List.getElem?_append_right (by omega),
            show acc.length + t - acc.length = t from by omega]
          exact ht
      · intro i n hn hmem
        by_cases hi : i < acc.length
        · rw [List.getElem?_append_left hi] at hn
          exact hacc i n hn hmem
        · rw [List.getElem?_append_right (by omega)] at hn
          obtain ⟨hdeps, -⟩ := hext n (mem_of_getElem? hn)
          rw [hdeps] at hmem
          cases hmem

/-- Phase 1 on a graph with no dangling edge resolves every dependency
slot. -/
theorem phase1_closed {s : TfState} {nodes : List Node}
    (h : phase1 s = .ok nodes) (hnd : NoDangling s) : DepsClosed nodes :=
  phase1Go_closed _ _ _ _ h hnd
    (by intro i n hn; rw [List.getElem?_nil] at hn; cases hn)

theorem depsClosed_update {nodes : List Node} {i : Nat} {f : Node → Node}
    (hf : ∀ n, (f n).deps = n.deps) (h : DepsClosed nodes) :
    DepsClosed (nodeUpdate nodes i f) := by
  intro j m hj hmem
  by_cases hji : j = i
  · subst hji
    rcases hn : nodes[j]? with _ | n
    · unfold nodeUpdate at hj
      rw [hn] at hj
      rw [hn] at hj
      cases hj
    · rw [nodeUpdate_getElem_self f hn] at hj
      injection hj with hj
      rw [← hj, hf] at hmem
      exact h j n hn hmem
  · rw [nodeUpdate_getElem_ne _ _ _ _ hji] at hj
    exact h j m hj hmem

/-- Phase 2, invariant pass: dependency slots stay resolved, and every node
that still owns a module object after the pass has a transform-map entry. -/
theorem phase2Go_inv (st : StateTransform) :
    ∀ (ids : List Nat) (nodes : List Node) (tm : List (String × Nat))
      (nodes' : List Node) (tm' : List (String × Nat)),
    phase2Go st ids nodes tm = .ok (nodes', tm') →
    DepsClosed nodes →
    (∀ (j : Nat) (dn : Node), nodes[j]? = some dn → dn.mod ≠ none →
      j ∈ ids ∨ ∃ a, (a, j) ∈ tm) →
    DepsClosed nodes' ∧ TmCovers tm' nodes' := by
  intro ids
  induction ids with
  | nil =>
    intro nodes tm nodes' tm' h hcl hinv
    rw [phase2Go] at h
    injection h with h
    injection h with h1 h2
    subst h1
    subst h2
    refine ⟨hcl, ?_⟩
    intro j dn hj hm
    rcases hinv j dn hj hm with hjm | he
    · cases hjm
    · exact he
  | cons nid rest ih =>
    intro nodes tm nodes' tm' h hcl hinv
    rcases hn : nodes[nid]? with _ | n
    · simp only [phase2Go, hn] at h
      refine ih nodes tm nodes' tm' h hcl ?_
      intro j dn hj hm
      rcases hinv j dn hj hm with hjm | he
      · rcases List.mem_cons.mp hjm with rfl | hjm
        · rw [hn] at hj
          cases hj
        · exact Or.inl hjm
      · exact Or.inr he
    · rcases hLM : lookupMapping st n.addr with _ | a
      · rcases hT : tm.lookup n.addr with _ | rid
        · simp only [phase2Go, hn, hLM, hT] at h
          refine ih _ _ _ _ h hcl ?_
          intro j dn hj hm
          rcases hinv j dn hj hm with hjm | ⟨a0, he⟩
          · rcases List.mem_cons.mp hjm with rfl | hjm
            · exact Or.inr ⟨n.addr, tmInsert_mem_self _ _ _⟩
            · exact Or.inl hjm
          · rcases tmInsert_mem_or he with he' | ⟨h1, h2⟩
            · exact Or.inr ⟨a0, he'⟩
            · rw [hT] at h2
              cases h2
        · simp only [phase2Go, hn, hLM, hT] at h
          refine ih _ _ _ _ h (depsClosed_update (fun n => rfl) hcl) ?_
          intro j dn hj hm
          by_cases hji : j = nid
          · subst hji
            rw [nodeUpdate_getElem_self _ hn] at hj
            injection hj with hj
            rw [← hj] at hm
            exact absurd rfl hm
          · rw [nodeUpdate_getElem_ne _ _ _ _ hji] at hj
            rcases hinv j dn hj hm with hjm | he
            · rcases List.mem_cons.mp hjm with rfl | hjm
              · exact absurd rfl hji
              · exact Or.inl hjm
            · exact Or.inr he
      · by_cases ha : a = ""
        · simp only [phase2Go, hn, hLM, if_pos ha] at h
          refine ih _ _ _ _ h (depsClosed_update (fun n => rfl) hcl) ?_
          intro j dn hj hm
          by_cases hji : j = nid
          · subst hji
            rw [nodeUpdate_getElem_self _ hn] at hj
            injection hj with hj
            rw [← hj] at hm
            exact absurd rfl hm
          · rw [nodeUpdate_getElem_ne _ _ _ _ hji] at hj
            rcases hinv j dn hj hm with hjm | he
            · rcases List.mem_cons.mp hjm with rfl | hjm
              · exact absurd rfl hji
              · exact Or.inl hjm
            · exact Or.inr he
        · rcases hT : tm.lookup (normalizeDest a) with _ | uid
          · simp only [phase2Go, hn, hLM, if_neg ha, hT] at h
            refine ih _ _ _ _ h (depsClosed_update (fun n => rfl) hcl) ?_
            intro j dn hj hm
            by_cases hji : j = nid
            · subst hji
              exact Or.inr ⟨normalizeDest a, tmInsert_mem_self _ _ _⟩
            · rw [nodeUpdate_getElem_ne _ _ _ _ hji] at hj
              rcases hinv j dn hj hm with hjm | ⟨a0, he⟩
              · rcases List.mem_cons.mp hjm with rfl | hjm
                · exact absurd rfl hji
                · exact Or.inl hjm
              · rcases tmInsert_mem_or he with he' | ⟨h1, h2⟩
                · exact Or.inr ⟨a0, he'⟩
                · rw [hT] at h2
                  cases h2
          · rcases hu : nodes[uid]? with _ | u
            · simp only [phase2Go, hn, hLM, if_neg ha, hT, hu] at h
              refine ih _ _ _ _ h (depsClosed_update (fun n => rfl) hcl) ?_
              intro j dn hj hm
              by_cases hji : j = nid
              · subst hji
                exact Or.inr ⟨normalizeDest a, tmInsert_mem_self _ _ _⟩
              · rw [nodeUpdate_getElem_ne _ _ _ _ hji] at hj
                rcases hinv j dn hj hm with hjm | ⟨a0, he⟩
                · rcases List.mem_cons.mp hjm with rfl | hjm
                  · exact absurd rfl hji
                  · exact Or.inl hjm
                · rcases tmInsert_mem_or he with he' | ⟨h1, h2⟩
                  · exact Or.inr ⟨a0, he'⟩
                  · rw [hT] at h2
                    injection h2 with h2
                    have h2' : uid = j := h2
                    rw [← h2', hu] at hj
                    cases hj
            · by_cases hku : u.key = ""
              · simp only [phase2Go, hn, hLM, if_neg ha, hT, hu,
                  if_pos hku] at h
                cases h
              · simp only [phase2Go, hn, hLM, if_neg ha, hT, hu,
                  if_neg hku] at h
                refine ih _ _ _ _ h (depsClosed_update (fun n => rfl)
                  (depsClosed_update (fun n => rfl) hcl)) ?_
                intro j dn hj hm
                by_cases hji : j = nid
                · subst hji
                  exact Or.inr ⟨normalizeDest a, tmInsert_mem_self _ _ _⟩
                · rw [nodeUpdate_getElem_ne _ _ _ _ hji] at hj
                  by_cases hju : j = uid
                  · subst hju
                    rw [nodeUpdate_getElem_self _ hu] at hj
                    injection hj with hj
                    rw [← hj] at hm
                    exact absurd rfl hm
                  · rw [nodeUpdate_getElem_ne _ _ _ _ hju] at hj
                    rcases hinv j dn hj hm with hjm | ⟨a0, he⟩
                    · rcases List.mem_cons.mp hjm with rfl | hjm
                      · exact absurd rfl hji
                      · exact Or.inl hjm
                    · rcases tmInsert_mem_or he with he' | ⟨h1, h2⟩
                      · exact Or.inr ⟨a0, he'⟩
                      · rw [hT] at h2
                        injection h2 with h2
                        exact absurd h2.symm hju

theorem depsClosed_update_map {nodes : List Node} {i : Nat}
    {g : Option Nat → Option Nat} (hg : ∀ d, g d = none → d = none)
    (h : DepsClosed nodes) :
    DepsClosed (nodeUpdate nodes i fun n => { n with deps := n.deps.map g }) := by
  intro j m hj hmem
  by_cases hji : j = i
  · subst hji
    rcases hn : nodes[j]? with _ | n
    · unfold nodeUpdate at hj
      rw [hn] at hj
      rw [hn] at hj
      cases hj
    · rw [nodeUpdate_getElem_self _ hn] at hj
      injection hj with hj
      rw [← hj] at hmem
      rcases List.mem_map.mp hmem with ⟨d, hd, hgd⟩
      exact h j n hn (hg d hgd ▸ hd)
  · rw [nodeUpdate_getElem_ne _ _ _ _ hji] at hj
    exact h j m hj hmem

theorem tmCovers_update {tm : List (String × Nat)} {nodes : List Node}
    {i : Nat} {f : Node → Node} (hcov : TmCovers tm nodes)
    (hent : ∃ a, (a, i) ∈ tm) : TmCovers tm (nodeUpdate nodes i f) := by
  intro j dn hj hm
  by_cases hji : j = i
  · subst hji
    exact hent
  · rw [nodeUpdate_getElem_ne _ _ _ _ hji] at hj
    exact hcov j dn hj hm

/-- Phase 3 keeps dependency slots resolved and transform-map coverage. -/
theorem phase3Go_inv (s : TfState) (tm : List (String × Nat)) :
    ∀ (l : List (String × Nat)) (nodes : List Node)
      (tmps : List (List String)) (nodes' : List Node)
      (tmps' : List (List String)),
    phase3Go s l nodes tmps = .ok (nodes', tmps') →
    (∀ p ∈ l, p ∈ tm) →
    DepsClosed nodes → TmCovers tm nodes →
    DepsClosed nodes' ∧ TmCovers tm nodes' := by
  intro l
  induction l with
  | nil =>
    intro nodes tmps nodes' tmps' h _ hcl hcov
    rw [phase3Go] at h
    injection h with h
    injection h with h1 h2
    subst h1
    exact ⟨hcl, hcov⟩
  | cons p rest ih =>
    obtain ⟨a0, nid⟩ := p
    intro nodes tmps nodes' tmps' h hsub hcl hcov
    have hsub' : ∀ q ∈ rest, q ∈ tm :=
      fun q hq => hsub q (List.mem_cons_of_mem _ hq)
    have hent : ∃ a, (a, nid) ∈ tm := ⟨a0, hsub _ (List.mem_cons_self _ _)⟩
    rcases hn : nodes[nid]? with _ | n
    · simp only [phase3Go, hn] at h
      exact ih _ _ _ _ h hsub' hcl hcov
    · by_cases hkey : n.key = ""
      · rcases hak : addressToStateKey n.addr with e | pk
        · simp only [phase3Go, hn, if_pos hkey, hak, Except.bind, bind,
            pure, Except.pure] at h
          cases h
        · obtain ⟨path, key⟩ := pk
          rcases hmod : moduleIdxByPath s path with _ | mi
          · rcases hfi : tmps.findIdx? (fun q => q = path) with _ | t
            · simp only [phase3Go, hn, if_pos hkey, hak, hmod, hfi,
                Except.bind, bind, pure, Except.pure] at h
              refine ih _ _ _ _ h hsub'
                (depsClosed_update_map ?_ (depsClosed_update (fun n => rfl) hcl))
                (tmCovers_update (tmCovers_update hcov hent) hent)
              intro d hgd
              cases d with
              | none => rfl
              | some did =>
                exfalso
                rcases hq : (nodeUpdate nodes nid fun n =>
                    { n with key := key,
                             mod := some (ModRef.tmp tmps.length) })[did]?
                  with _ | dn <;> simp only [hq] at hgd
                · cases hgd
                · rcases hr : dn.repl with _ | rid <;>
                    simp only [hr] at hgd <;> cases hgd
            · simp only [phase3Go, hn, if_pos hkey, hak, hmod, hfi,
                Except.bind, bind, pure, Except.pure] at h
              refine ih _ _ _ _ h hsub'
                (depsClosed_update_map ?_ (depsClosed_update (fun n => rfl) hcl))
                (tmCovers_update (tmCovers_update hcov hent) hent)
              intro d hgd
              cases d with
              | none => rfl
              | some did =>
                exfalso
                rcases hq : (nodeUpdate nodes nid fun n =>
                    { n with key := key,
                             mod := some (ModRef.tmp t) })[did]?
                  with _ | dn <;> simp only [hq] at hgd
                · cases hgd
                · rcases hr : dn.repl with _ | rid <;>
                    simp only [hr] at hgd <;> cases hgd
          · simp only [phase3Go, hn, if_pos hkey, hak, hmod, Except.bind,
              bind, pure, Except.pure] at h
            refine ih _ _ _ _ h hsub'
              (depsClosed_update_map ?_ (depsClosed_update (fun n => rfl) hcl))
              (tmCovers_update (tmCovers_update hcov hent) hent)
            intro d hgd
            cases d with
            | none => rfl
            | some did =>
              exfalso
              rcases hq : (nodeUpdate nodes nid fun n =>
                  { n with key := key,
                           mod := some (ModRef.real mi) })[did]?
                with _ | dn <;> simp only [hq] at hgd
              · cases hgd
              · rcases hr : dn.repl with _ | rid <;>
                  simp only [hr] at hgd <;> cases hgd
      · simp only [phase3Go, hn, if_neg hkey, Except.bind, bind, pure,
          Except.pure] at h
        refine ih _ _ _ _ h hsub' (depsClosed_update_map ?_ hcl)
          (tmCovers_update hcov hent)
        intro d hgd
        cases d with
        | none => rfl
        | some did =>
          exfalso
          rcases hq : nodes[did]? with _ | dn <;> simp only [hq] at hgd
          · cases hgd
          · rcases hr : dn.repl with _ | rid <;>
              simp only [hr] at hgd <;> cases hgd

theorem phase45Go_mono (nodes : List Node) :
    ∀ (l : List (String × Nat))
      (acc writes : List (ModRef × String × ResourceState)),
    phase45Go nodes l acc = .ok writes → ∀ w ∈ acc, w ∈ writes := by
  intro l
  induction l with
  | nil =>
    intro acc writes h w hw
    injection h with h
    exact h ▸ hw
  | cons p rest ih =>
    obtain ⟨a0, nid⟩ := p
    intro acc writes h w hw
    rcases hn : nodes[nid]? with _ | n <;> simp only [phase45Go, hn] at h
    · exact ih _ _ h w hw
    · rcases hm : n.mod with _ | mref <;> simp only [hm] at h
      · exact ih _ _ h w hw
      · split at h
        · cases h
        · exact ih _ _ h w (List.mem_append.mpr (Or.inl hw))

/-- Every transform-map entry whose node kept a module object contributes
its write. -/
theorem phase45Go_complete (nodes : List Node) :
    ∀ (l : List (String × Nat))
      (acc writes : List (ModRef × String × ResourceState)),
    phase45Go nodes l acc = .ok writes →
    ∀ (a : String) (nid : Nat), (a, nid) ∈ l →
    ∀ (n : Node) (mref : ModRef), nodes[nid]? = some n →
      n.mod = some mref →
      (mref, n.key, { n.res with dependencies := newDepsOf nodes n })
        ∈ writes := by
  intro l
  induction l with
  | nil =>
    intro acc writes h a nid hmem
    cases hmem
  | cons p rest ih =>
    obtain ⟨a0, nid0⟩ := p
    intro acc writes h a nid hmem n mref hn2 hm2
    rcases hn : nodes[nid0]? with _ | n0 <;> simp only [phase45Go, hn] at h
    · rcases List.mem_cons.mp hmem with heq | hmem'
      · injection heq with h1 h2
        subst h2
        rw [hn] at hn2
        cases hn2
      · exact ih _ _ h a nid hmem' n mref hn2 hm2
    · rcases hm : n0.mod with _ | mref0 <;> simp only [hm] at h
      · rcases List.mem_cons.mp hmem with heq | hmem'
        · injection heq with h1 h2
          subst h2
          rw [hn] at hn2
          injection hn2 with hn2
          rw [← hn2] at hm2
          rw [hm] at hm2
          cases hm2
        · exact ih _ _ h a nid hmem' n mref hn2 hm2
      · split at h
        · cases h
        · rcases List.mem_cons.mp hmem with heq | hmem'
          · injection heq with h1 h2
            subst h2
            rw [hn] at hn2
            injection hn2 with hn2
            subst hn2
            rw [hm] at hm2
            injection hm2 with hm2
            subst hm2
            exact phase45Go_mono nodes rest _ writes h _
              (List.mem_append.mpr (Or.inr (List.mem_cons_self _ _)))
          · exact ih _ _ h a nid hmem' n mref hn2 hm2

/-- Every write is a surviving node's record. -/
theorem phase45Go_shape (nodes : List Node) :
    ∀ (l : List (String × Nat))
      (acc writes : List (ModRef × String × ResourceState)),
    phase45Go nodes l acc = .ok writes →
    (∀ w ∈ acc, ∃ (j : Nat) (n : Node), nodes[j]? = some n ∧
      n.mod = some w.1 ∧
      w.2 = (n.key, { n.res with dependencies := newDepsOf nodes n })) →
    ∀ w ∈ writes, ∃ (j : Nat) (n : Node), nodes[j]? = some n ∧
      n.mod = some w.1 ∧
      w.2 = (n.key, { n.res with dependencies := newDepsOf nodes n }) := by
  intro l
  induction l with
  | nil =>
    intro acc writes h hacc
    injection h with h
    exact h ▸ hacc
  | cons p rest ih =>
    obtain ⟨a0, nid0⟩ := p
    intro acc writes h hacc
    rcases hn : nodes[nid0]? with _ | n0 <;> simp only [phase45Go, hn] at h
    · exact ih _ _ h hacc
    · rcases hm : n0.mod with _ | mref0 <;> simp only [hm] at h
      · exact ih _ _ h hacc
      · split at h
        · cases h
        · refine ih _ _ h ?_
          intro w hw
          rcases List.mem_append.mp hw with hw | hw
          · exact hacc w hw
          · rcases List.mem_cons.mp hw with rfl | hw
            · exact ⟨nid0, n0, hn, hm, rfl⟩
            · cases hw

theorem mem_modInsert {x y : ModuleState} : ∀ {l : List ModuleState},
    y ∈ modInsert x l ↔ y = x ∨ y ∈ l := by
  intro l
  induction l with
  | nil =>
    rw [modInsert]
    simp only [List.mem_singleton, List.not_mem_nil, or_false]
  | cons z zs ih =>
    rw [modInsert]
    split
    · simp only [List.mem_cons]
    · simp only [List.mem_cons, ih]
      tauto

theorem mem_sortMods_go {y : ModuleState} :
    ∀ (l acc : List ModuleState),
    y ∈ l.foldl (fun acc x => modInsert x acc) acc ↔ y ∈ acc ∨ y ∈ l := by
  intro l
  induction l with
  | nil =>
    intro acc
    simp only [List.foldl_nil, List.not_mem_nil, or_false]
  | cons x xs ih =>
    intro acc
    rw [List.foldl_cons, ih, mem_modInsert]
    simp only [List.mem_cons]
    tauto

theorem mem_sortMods {y : ModuleState} {l : List ModuleState} :
    y ∈ sortMods l ↔ y ∈ l := by
  unfold sortMods
  rw [mem_sortMods_go]
  simp only [List.not_mem_nil, false_or]

theorem mem_mapIdx {α β : Type} :
    ∀ {l : List α} {f : Nat → α → β} {b : β}, b ∈ l.mapIdx f →
    ∃ (i : Nat) (a : α), l[i]? = some a ∧ b = f i a := by
  intro l
  induction l with
  | nil =>
    intro f b h
    cases h
  | cons x xs ih =>
    intro f b h
    rw [List.mapIdx_cons] at h
    rcases List.mem_cons.mp h with rfl | h
    · exact ⟨0, x, by rw [List.getElem?_cons_zero], rfl⟩
    · obtain ⟨i, a, hget, rfl⟩ := ih h
      exact ⟨i + 1, a, by rw [List.getElem?_cons_succ]; exact hget, rfl⟩

/-- Every module of the assembled state draws its resource map from the
writes of a single module object. -/
theorem assemble_resources {s : TfState} {tmps : List (List String)}
    {writes : List (ModRef × String × ResourceState)} {m' : ModuleState}
    (h : m' ∈ (assemble s tmps writes).modules) :
    ∃ mref, m'.resources = writes.filterMap fun w =>
      if w.1 = mref then some w.2 else none := by
  unfold assemble at h
  split at h
  · rcases mem_mapIdx h with ⟨i, m0, hget, rfl⟩
    exact ⟨ModRef.real i, rfl⟩
  · rw [mem_sortMods] at h
    rcases List.mem_append.mp h with h | h
    · rcases mem_mapIdx h with ⟨i, m0, hget, rfl⟩
      exact ⟨ModRef.real i, rfl⟩
    · rcases List.mem_map.mp h with ⟨e, he, rfl⟩
      exact ⟨ModRef.tmp e.1, rfl⟩

/-- C2 as amended: on an input graph whose dependency edges all resolve,
a successful Apply leaves no dangling edge — every dependency key of every
resource of the result names a resource of the same module.  (The
unconditional claim fails: an input dangling edge is kept verbatim, see the
counterexample.) -/
theorem apply_no_dangling (st : StateTransform) (s s' : TfState)
    (hnd : NoDangling s) (h : StateTransform.Apply st s = .ok s') :
    NoDangling s' := by
  unfold StateTransform.Apply at h
  split at h
  · injection h with h
    rw [← h]
    exact hnd
  · rcases h1 : phase1 s with ab | nodes1
    · rcases ab with e | e <;> simp only [h1] at h <;> cases h
    · simp only [h1] at h
      rcases h2 : phase2 st nodes1 with e | pr
      · simp only [h2] at h
        cases h
      · obtain ⟨nodes2, tm⟩ := pr
        simp only [h2] at h
        rcases h3 : phase3 s nodes2 tm with e | pr3
        · simp only [h3] at h
          cases h
        · obtain ⟨nodes3, tmps⟩ := pr3
          simp only [h3] at h
          rcases h45 : phase45Go nodes3 tm [] with e | writes
          · simp only [h45] at h
            cases h
          · simp only [h45] at h
            injection h with h
            rw [← h]
            unfold phase2 at h2
            unfold phase3 at h3
            have hinit : ∀ (j : Nat) (dn : Node), nodes1[j]? = some dn →
                dn.mod ≠ none → j ∈ List.range nodes1.length ∨
                ∃ a, (a, j) ∈ ([] : List (String × Nat)) :=
              fun j dn hj _ =>
                Or.inl (List.mem_range.mpr (getElem?_lt_length hj))
            obtain ⟨hcl2, hcov2⟩ := phase2Go_inv st
              (List.range nodes1.length) nodes1 [] nodes2 tm h2
              (phase1_closed h1 hnd) hinit
            obtain ⟨hcl3, hcov3⟩ := phase3Go_inv s tm tm nodes2 [] nodes3
              tmps h3 (fun p hp => hp) hcl2 hcov2
            intro m' hm' e he d hd
            obtain ⟨mref, hres⟩ := assemble_resources hm'
            rw [hres] at he
            rcases List.mem_filterMap.mp he with ⟨w, hw, hfw⟩
            split at hfw
            · rename_i hw1
              injection hfw with hfw
              obtain ⟨j, n, hjn, hmod, hw2⟩ := phase45Go_shape nodes3 tm []
                writes h45 (by intro w hw; cases hw) w hw
              rw [hfw] at hw2
              rw [hw2] at hd
              have hd2 : d ∈ newDepsOf nodes3 n := hd
              unfold newDepsOf at hd2
              rw [mem_sortedDedup] at hd2
              rcases List.mem_filter.mp hd2 with ⟨hdc, -⟩
              rcases List.mem_filterMap.mp hdc with ⟨od, hod, hmatch⟩
              obtain ⟨o, dd⟩ := od
              have hdd : dd ∈ n.deps := (List.of_mem_zip hod).2
              rcases dd with _ | did
              · exact absurd hdd (hcl3 j n hjn)
              · have hm2 : (match nodes3[did]? with
                    | some dn => if dn.mod = n.mod then some dn.key else none
                    | none => none) = some d := hmatch
                rcases hdn : nodes3[did]? with _ | dn <;> rw [hdn] at hm2
                · cases hm2
                · have hm3 : (if dn.mod = n.mod then some dn.key else none) =
                      some d := hm2
                  split at hm3
                  · rename_i hmodeq
                    injection hm3 with hm3
                    have hdnmod : dn.mod = some mref := by
                      rw [hmodeq, hmod, hw1]
                    obtain ⟨a1, hent⟩ := hcov3 did dn hdn
                      (by rw [hdnmod]; exact Option.some_ne_none mref)
                    have hwr := phase45Go_complete nodes3 tm [] writes h45
                      a1 did hent dn mref hdn hdnmod
                    refine ⟨{ dn.res with
                      dependencies := newDepsOf nodes3 dn }, ?_⟩
                    rw [hres, ← hm3]
                    exact List.mem_filterMap.mpr ⟨(mref, dn.key,
                      { dn.res with dependencies := newDepsOf nodes3 dn }),
                      hwr, by rw [if_pos rfl]⟩
                  · cases hm3
            · cases hfw

/-- C2 amended-theorem witness: the rename scenario's input graph is
dangling-free, and so is its Apply result. -/
theorem apply_no_dangling_witness : NoDangling renameResult := by
  have hnd : NoDangling renameState := by
    intro m hm e he d hd
    rcases List.mem_cons.mp hm with rfl | hm
    · rcases List.mem_cons.mp he with rfl | he
      · cases hd
      · rcases List.mem_cons.mp he with rfl | he
        · rcases List.mem_cons.mp hd with rfl | hd
          · exact ⟨_, List.Mem.head _⟩
          · cases hd
        · rcases List.mem_cons.mp he with rfl | he
          · rcases List.mem_cons.mp hd with rfl | hd
            · exact ⟨_, List.Mem.head _⟩
            · rcases List.mem_cons.mp hd with rfl | hd
              · exact ⟨_, List.Mem.tail _ (List.Mem.head _)⟩
              · cases hd
          · cases he
    · cases hm
  exact apply_no_dangling [("x.x", "w.w")] renameState renameResult hnd
    (by rfl)

/-- C3 counterexample: the identity ([], "a.b.00") is well-formed — the
key-to-address conversion succeeds — yet converting the resulting address
back yields the canonicalized key "a.b.0", not the original "a.b.00", so
the two conversions are not exact inverses over all representable
identities. -/
theorem key_roundtrip_break :
    stateKeyToAddress [] "a.b.00" = .ok "module.root.a.b[0]" ∧
    addressToStateKey "module.root.a.b[0]" = .ok (["root"], "a.b.0") ∧
    "a.b.0" ≠ "a.b.00" := ⟨by rfl, by rfl, by decide⟩

theorem firstRun_eps (s : List Char) (k : Captures) :
    FirstRun .eps s k k s := ⟨[], rfl⟩

theorem firstRun_lit (c : Char) (rest : List Char) (k : Captures) :
    FirstRun (.lit c) (c :: rest) k k rest :=
  ⟨[], by rw [reRun, if_pos (Or.inl rfl)]⟩

theorem firstRun_cls {cc : CharCls} {c : Char} (rest : List Char)
    (k : Captures) (h : charMatches cc c = true) :
    FirstRun (.cls cc) (c :: rest) k k rest :=
  ⟨[], by rw [reRun, if_pos h]⟩

theorem firstRun_cat {a b : RE} {s s1 s2 : List Char} {k k1 k2 : Captures}
    (ha : FirstRun a s k k1 s1) (hb : FirstRun b s1 k1 k2 s2) :
    FirstRun (.cat a b) s k k2 s2 := by
  obtain ⟨ta, hta⟩ := ha
  obtain ⟨tb, htb⟩ := hb
  refine ⟨tb ++ ta.flatMap fun p => reRun b p.2 p.1, ?_⟩
  rw [reRun, hta, List.flatMap_cons, htb]
  rfl

theorem firstRun_opt {r : RE} {s s' : List Char} {k k' : Captures}
    (h : FirstRun r s k k' s') : FirstRun (.opt r) s k k' s' := by
  obtain ⟨t, ht⟩ := h
  exact ⟨t ++ [(k, s)], by rw [reRun, ht]; rfl⟩

theorem firstRun_opt_none {r : RE} {s : List Char} {k : Captures}
    (h : reRun r s k = []) : FirstRun (.opt r) s k k s :=
  ⟨[], by rw [reRun, h]; rfl⟩

theorem firstRun_grp {r : RE} {s s' : List Char} {k k' : Captures}
    (g : GroupId) (h : FirstRun r s k k' s') :
    FirstRun (.grp g r) s k
      ((g, s.take (s.length - s'.length)) :: k') s' := by
  obtain ⟨t, ht⟩ := h
  exact ⟨t.map fun p => ((g, s.take (s.length - p.2.length)) :: p.1, p.2),
    by rw [reRun, ht]; rfl⟩

theorem firstRun_rep_step {r : RE} {n : Nat} {s s1 s2 : List Char}
    {k k1 k2 : Captures} (h1 : FirstRun r s k k1 s1)
    (h2 : FirstRun (repRE r n) s1 k1 k2 s2) :
    FirstRun (repRE r (n + 1)) s k k2 s2 :=
  firstRun_opt (firstRun_cat h1 h2)

theorem firstRun_rep_none {r : RE} {n : Nat} {s : List Char} {k : Captures}
    (h : reRun r s k = []) : FirstRun (repRE r (n + 1)) s k k s :=
  firstRun_opt_none (by rw [reRun, h]; rfl)

theorem reRun_cat_fail {a : RE} (b : RE) {s : List Char} {k : Captures}
    (h : reRun a s k = []) : reRun (.cat a b) s k = [] := by
  rw [reRun, h]
  rfl

/-- ASCII folding never produces '.' from another character. -/
theorem lowCh_dot {c : Char} (h : lowCh c = '.') : c = '.' := by
  rw [lowCh.eq_def] at h
  split at h <;> first | exact absurd h (by decide) | exact h

theorem not_dot_map_lowCh {w : List Char} (h : '.' ∉ w) :
    '.' ∉ w.map lowCh := by
  intro hmem
  rcases List.mem_map.mp hmem with ⟨c, hc, hlc⟩
  exact h (lowCh_dot hlc ▸ hc)

theorem lowStr_ne_data {s w : String} (h : lowStr s ≠ w) :
    s.data.map lowCh ≠ w.data := by
  intro hh
  refine h ?_
  show String.mk (s.data.map lowCh) = w
  rw [hh]

/-- A lowercase literal string fails on an input whose case folding does
not start with it. -/
theorem reRun_lits_fail : ∀ {cs : List Char} {s : List Char} (k : Captures),
    (∀ c ∈ cs, lowCh c = c) →
    hasPfxL cs (s.map lowCh) = false → reRun (litsRE cs) s k = [] := by
  intro cs
  induction cs with
  | nil =>
    intro s k _ h
    rw [hasPfxL] at h
    cases h
  | cons c cs' ih =>
    intro s k hfix h
    cases s with
    | nil =>
      show reRun (.cat (.lit c) (litsRE cs')) [] k = []
      rw [reRun]
      show (reRun (.lit c) [] k).flatMap _ = []
      rw [reRun]
      rfl
    | cons c' rest =>
      rw [List.map_cons, hasPfxL] at h
      show reRun (.cat (.lit c) (litsRE cs')) (c' :: rest) k = []
      rw [reRun]
      show (reRun (.lit c) (c' :: rest) k).flatMap _ = []
      by_cases hcc : lowCh c' = c
      · rw [reRun, if_pos (Or.inr hcc)]
        show reRun (litsRE cs') rest k ++ [] = []
        rw [hcc, decide_eq_true rfl, Bool.true_and] at h
        rw [ih k (fun x hx => hfix x (List.mem_cons_of_mem _ hx)) h]
        rfl
      · have hne : ¬(c' = c ∨ lowCh c' = c) := by
          intro hor
          rcases hor with h1 | h2
          · exact hcc (by rw [h1]; exact hfix c (List.mem_cons_self _ _))
          · exact hcc h2
        rw [reRun, if_neg hne]
        rfl

theorem firstRun_lits : ∀ (cs rest : List Char) (k : Captures),
    FirstRun (litsRE cs) (cs ++ rest) k k rest := by
  intro cs
  induction cs with
  | nil => intro rest k; exact firstRun_eps rest k
  | cons c cs' ih =>
    intro rest k
    exact firstRun_cat (firstRun_lit c (cs' ++ rest) k) (ih rest k)

/-- Greedy bounded class repetition consumes exactly a run of matching
characters when the next character (if any) does not match. -/
theorem firstRun_repCls {cc : CharCls} :
    ∀ (cs : List Char) (n : Nat) (rest : List Char) (k : Captures),
    (∀ c ∈ cs, charMatches cc c = true) →
    (∀ c rest', rest = c :: rest' → charMatches cc c = false) →
    cs.length ≤ n →
    FirstRun (repRE (.cls cc) n) (cs ++ rest) k k rest := by
  intro cs
  induction cs with
  | nil =>
    intro n rest k _ hstop _
    cases n with
    | zero => exact firstRun_eps rest k
    | succ m =>
      refine firstRun_rep_none ?_
      rw [List.nil_append]
      cases rest with
      | nil => rfl
      | cons c rest' =>
        rw [reRun, if_neg ?_]
        intro hmm
        rw [hstop c rest' rfl] at hmm
        cases hmm
  | cons c cs' ih =>
    intro n rest k hall hstop hlen
    cases n with
    | zero =>
      rw [List.length_cons] at hlen
      omega
    | succ m =>
      exact firstRun_rep_step
        (firstRun_cls _ k (hall c (List.mem_cons_self _ _)))
        (ih m rest k (fun x hx => hall x (List.mem_cons_of_mem _ hx)) hstop
          (by rw [List.length_cons] at hlen; omega))

/-- One-or-more class characters: the plus pattern over a nonempty clean
run. -/
theorem firstRun_plus {cc : CharCls} {cs : List Char} {n : Nat}
    {rest : List Char} (k : Captures) (hne : cs ≠ [])
    (hall : ∀ c ∈ cs, charMatches cc c = true)
    (hstop : ∀ c rest', rest = c :: rest' → charMatches cc c = false)
    (hlen : cs.length ≤ n + 1) :
    FirstRun (plusRE cc n) (cs ++ rest) k k rest := by
  cases cs with
  | nil => exact absurd rfl hne
  | cons c cs' =>
    exact firstRun_cat (firstRun_cls _ k (hall c (List.mem_cons_self _ _)))
      (firstRun_repCls cs' n rest k
        (fun x hx => hall x (List.mem_cons_of_mem _ hx)) hstop
        (by rw [List.length_cons] at hlen; omega))

theorem firstRun_plus_at (cc : CharCls) (cs : List Char) (n : Nat)
    (rest : List Char) (k : Captures) (hne : cs ≠ [])
    (hall : ∀ c ∈ cs, charMatches cc c = true)
    (hstop : ∀ c rest', rest = c :: rest' → charMatches cc c = false)
    (hlen : cs.length ≤ n + 1) :
    FirstRun (plusRE cc n) (cs ++ rest) k k rest :=
  firstRun_plus k hne hall hstop hlen

theorem strMk_data (s : String) : String.mk s.data = s := by
  cases s
  rfl

theorem digitChar_spec : ∀ m, m < 10 →
    isDigitCh (Nat.digitChar m) = true ∧
    digitVal (Nat.digitChar m) = m := by
  decide

theorem toDigitsCore_append (f : Nat) : ∀ (n : Nat) (ds : List Char),
    Nat.toDigitsCore 10 f n ds = Nat.toDigitsCore 10 f n [] ++ ds := by
  induction f with
  | zero => intro n ds; rfl
  | succ f ih =>
    intro n ds
    simp only [Nat.toDigitsCore]
    by_cases h0 : n / 10 = 0
    · rw [if_pos h0, if_pos h0]
      rfl
    · rw [if_neg h0, if_neg h0, ih (n / 10) ((n % 10).digitChar :: ds),
        ih (n / 10) [(n % 10).digitChar], List.append_assoc]
      rfl

theorem toDigitsCore_spec (f : Nat) : ∀ n, n < f →
    (Nat.toDigitsCore 10 f n []).all isDigitCh = true ∧
    (Nat.toDigitsCore 10 f n []).foldl
      (fun acc c => acc * 10 + digitVal c) 0 = n ∧
    Nat.toDigitsCore 10 f n [] ≠ [] := by
  induction f with
  | zero => intro n h; omega
  | succ f ih =>
    intro n hn
    simp only [Nat.toDigitsCore]
    have hm10 : n % 10 < 10 := Nat.mod_lt _ (by norm_num)
    obtain ⟨hd, hv⟩ := digitChar_spec (n % 10) hm10
    by_cases h0 : n / 10 = 0
    · rw [if_pos h0]
      refine ⟨?_, ?_, by simp⟩
      · simp only [List.all_cons, List.all_nil, Bool.and_true]
        exact hd
      · simp only [List.foldl_cons, List.foldl_nil]
        rw [hv]
        omega
    · rw [if_neg h0]
      have hlt : n / 10 < f := by omega
      obtain ⟨ha, hfv, hne⟩ := ih (n / 10) hlt
      rw [toDigitsCore_append]
      refine ⟨?_, ?_, by simp⟩
      · rw [List.all_append, ha]
        simp only [List.all_cons, List.all_nil, Bool.and_true, Bool.true_and]
        exact hd
      · rw [List.foldl_append, hfv]
        simp only [List.foldl_cons, List.foldl_nil]
        rw [hv]
        omega

theorem natRepr_digits (n : Nat) :
    (Nat.repr n).data ≠ [] ∧
    (Nat.repr n).data.all isDigitCh = true ∧
    parseDigits (Nat.repr n).data = some n := by
  obtain ⟨ha, hv, hne⟩ := toDigitsCore_spec (n + 1) n (by omega)
  have hdata : (Nat.repr n).data = Nat.toDigitsCore 10 (n + 1) n [] := rfl
  rw [hdata]
  refine ⟨hne, ha, ?_⟩
  rcases hcs : Nat.toDigitsCore 10 (n + 1) n [] with _ | ⟨c, t⟩
  · exact absurd hcs hne
  · rw [hcs] at ha hv
    rw [parseDigits, if_pos ha, hv]
    exact fun h => List.noConfusion h

theorem goAtoi_toString_nonneg {v : Int} (h0 : 0 ≤ v)
    (hb : v ≤ 2 ^ 63 - 1) : goAtoi (toString v) = some v := by
  obtain ⟨n, rfl⟩ := Int.eq_ofNat_of_zero_le h0
  have hts : toString (n : Int) = Nat.repr n := rfl
  rw [hts]
  obtain ⟨hne, hall, hpd⟩ := natRepr_digits n
  unfold goAtoi
  split
  · rename_i ds heq
    rcases hcs : (Nat.repr n).data with _ | ⟨c, t⟩
    · exact absurd hcs hne
    · rw [hcs] at heq hall
      injection heq with h1 h2
      rw [h1, List.all_cons,
        show isDigitCh '+' = false from rfl] at hall
      simp at hall
  · rename_i ds heq
    rcases hcs : (Nat.repr n).data with _ | ⟨c, t⟩
    · exact absurd hcs hne
    · rw [hcs] at heq hall
      injection heq with h1 h2
      rw [h1, List.all_cons,
        show isDigitCh '-' = false from rfl] at hall
      simp at hall
  · rw [hpd]
    show (if ((n : Nat) : Int) ≤ 2 ^ 63 - 1 then
        some ((n : Nat) : Int) else none) = some (Int.ofNat n)
    rw [if_pos hb]
    rfl

theorem hasPfxL_dotted : ∀ (wd tp rest : List Char), '.' ∉ wd → '.' ∉ tp →
    wd ≠ tp → hasPfxL (wd ++ ['.']) (tp ++ '.' :: rest) = false := by
  intro wd
  induction wd with
  | nil =>
    intro tp rest _ htp hne
    cases tp with
    | nil => exact absurd rfl hne
    | cons t ts =>
      show hasPfxL ['.'] (t :: (ts ++ '.' :: rest)) = false
      rw [hasPfxL]
      have : ('.' : Char) ≠ t := fun h =>
        htp (h ▸ List.mem_cons_self _ _)
      simp [this]
  | cons w ws ih =>
    intro tp rest hwd htp hne
    cases tp with
    | nil =>
      show hasPfxL (w :: (ws ++ ['.'])) ('.' :: rest) = false
      rw [hasPfxL]
      have : w ≠ '.' := fun h => hwd (h ▸ List.mem_cons_self _ _)
      simp [this]
    | cons t ts =>
      show hasPfxL (w :: (ws ++ ['.'])) (t :: (ts ++ '.' :: rest)) = false
      rw [hasPfxL]
      by_cases hwt : w = t
      · subst hwt
        rw [ih ts rest (fun h => hwd (List.mem_cons_of_mem _ h))
          (fun h => htp (List.mem_cons_of_mem _ h))
          (fun h => hne (by rw [h]))]
        simp
      · simp [hwt]

theorem splitDotsL_append : ∀ (w rest : List Char), '.' ∉ w →
    splitDotsL (w ++ '.' :: rest) = w :: splitDotsL rest := by
  intro w
  induction w with
  | nil =>
    intro rest _
    show splitDotsL ('.' :: rest) = [] :: splitDotsL rest
    rw [splitDotsL, if_pos rfl]
  | cons c w' ih =>
    intro rest hw
    show splitDotsL (c :: (w' ++ '.' :: rest)) = (c :: w') :: splitDotsL rest
    rw [splitDotsL,
      if_neg (fun h => hw (by rw [h]; exact List.mem_cons_self _ _)),
      ih rest (fun h => hw (List.mem_cons_of_mem _ h))]

theorem reRun_lit_fail_ne {c c' : Char} (rest : List Char) (k : Captures)
    (h1 : c' ≠ c) (h2 : lowCh c' ≠ c) :
    reRun (.lit c) (c' :: rest) k = [] := by
  have hne : ¬(c' = c ∨ lowCh c' = c) := by
    intro hor
    rcases hor with ha | hb
    · exact h1 ha
    · exact h2 hb
  rw [reRun, if_neg hne]

theorem reRun_lit_fail_nil (c : Char) (k : Captures) :
    reRun (.lit c) [] k = [] := rfl

theorem capGet_cons_self (g : GroupId) (v : List Char) (k : Captures) :
    capGet ((g, v) :: k) g = ⟨v⟩ := by
  rw [capGet]
  rw [List.lookup, beq_self_eq_true]

theorem capGet_cons_ne {g g' : GroupId} (v : List Char) (k : Captures)
    (h : g ≠ g') : capGet ((g', v) :: k) g = capGet k g := by
  rw [capGet, capGet, List.lookup, beq_false_of_ne h]

theorem capGet_nil (g : GroupId) : capGet [] g = "" := rfl

theorem capGet_skip {caps : Captures} {g : GroupId} (k : Captures)
    (hcaps : ∀ e ∈ caps, e.1 = GroupId.moduleName)
    (hg : g ≠ GroupId.moduleName) :
    capGet (caps ++ k) g = capGet k g := by
  induction caps with
  | nil => rfl
  | cons e caps' ih =>
    obtain ⟨g', v⟩ := e
    have hg' : g' = GroupId.moduleName :=
      hcaps _ (List.mem_cons_self _ _)
    rw [List.cons_append, capGet_cons_ne v _ (hg' ▸ hg)]
    exact ih fun e he => hcaps e (List.mem_cons_of_mem _ he)

/-- The greedy module-path repetition consumes exactly the rendered path
(whose components are clean) when what follows cannot begin another
repetition, capturing only module names. -/
theorem firstRun_pathRep {m : Nat} :
    ∀ (ps : List String) (b : Nat) (rest : List Char) (k : Captures),
    (∀ p ∈ ps, p.data ≠ [] ∧ '.' ∉ p.data) →
    hasPfxL "module.".data (rest.map lowCh) = false →
    (∀ p ∈ ps, p.data.length ≤ m + 1) →
    ps.length ≤ b →
    ∃ caps, (∀ e ∈ caps, e.1 = GroupId.moduleName) ∧
      FirstRun (repRE (.cat (litsRE "module.".data)
          (.cat (.grp .moduleName (plusRE .notDot m)) (.opt (.lit '.')))) b)
        (pRenderL ps ++ rest) k (caps ++ k) rest := by
  intro ps
  induction ps with
  | nil =>
    intro b rest k _ hfail _ _
    refine ⟨[], fun e he => absurd he (List.not_mem_nil e), ?_⟩
    show FirstRun _ (pRenderL [] ++ rest) k k rest
    rw [show pRenderL [] = [] from rfl, List.nil_append]
    cases b with
    | zero => exact firstRun_eps rest k
    | succ b' =>
      exact firstRun_rep_none
        (reRun_cat_fail _ (reRun_lits_fail k (by decide) hfail))
  | cons p ps' ih =>
    intro b rest k hclean hfail hlen hb
    obtain ⟨hpne, hpdot⟩ := hclean p (List.mem_cons_self _ _)
    cases b with
    | zero =>
      rw [List.length_cons] at hb
      omega
    | succ b' =>
      have hY : pRenderL (p :: ps') ++ rest =
          "module.".data ++ (p.data ++ '.' :: (pRenderL ps' ++ rest)) := by
        show (("module.".data ++ (p.data ++ ['.'])) ++ pRenderL ps') ++ rest
          = _
        simp only [List.append_assoc, List.cons_append, List.nil_append]
      have hall : ∀ c ∈ p.data, charMatches CharCls.notDot c = true := by
        intro c hc
        have hcd : c ≠ '.' := fun h => hpdot (h ▸ hc)
        simp [charMatches, hcd]
      have hstop : ∀ (c : Char) (rest' : List Char),
          '.' :: (pRenderL ps' ++ rest) = c :: rest' →
          charMatches CharCls.notDot c = false := by
        intro c rest' h
        injection h with h1 h2
        rw [← h1]
        rfl
      have hgrp := firstRun_grp GroupId.moduleName
        (firstRun_plus_at _ (p.data) _ ('.' :: (pRenderL ps' ++ rest))
          k hpne hall hstop (hlen p (List.mem_cons_self _ _)))
      obtain ⟨caps', hcaps', hfr'⟩ := ih b' rest ((GroupId.moduleName,
          (p.data ++ '.' :: (pRenderL ps' ++ rest)).take
            ((p.data ++ '.' :: (pRenderL ps' ++ rest)).length -
              ('.' :: (pRenderL ps' ++ rest)).length)) :: k)
        (fun q hq => hclean q (List.mem_cons_of_mem _ hq)) hfail
        (fun q hq => hlen q (List.mem_cons_of_mem _ hq))
        (by rw [List.length_cons] at hb; omega)
      refine ⟨caps' ++ [(GroupId.moduleName,
          (p.data ++ '.' :: (pRenderL ps' ++ rest)).take
            ((p.data ++ '.' :: (pRenderL ps' ++ rest)).length -
              ('.' :: (pRenderL ps' ++ rest)).length))], ?_, ?_⟩
      · intro e he
        rcases List.mem_append.mp he with he | he
        · exact hcaps' e he
        · rcases List.mem_cons.mp he with rfl | he
          · rfl
          · cases he
      · rw [hY, List.append_assoc, List.singleton_append]
        exact firstRun_rep_step
          (firstRun_cat (firstRun_lits "module.".data _ k)
            (firstRun_cat hgrp
              (firstRun_opt (firstRun_lit '.' (pRenderL ps' ++ rest) _))))
          hfr'

theorem take_pfx (a b : List Char) :
    (a ++ b).take ((a ++ b).length - b.length) = a := by
  rw [List.length_append, show a.length + b.length - b.length = a.length
    from by omega, List.take_left]

theorem pRenderL_length : ∀ ps : List String,
    ps.length ≤ (pRenderL ps).length ∧
    ∀ p ∈ ps, p.data.length ≤ (pRenderL ps).length := by
  intro ps
  induction ps with
  | nil => exact ⟨Nat.le_refl 0, fun p hp => absurd hp (List.not_mem_nil p)⟩
  | cons p ps' ih =>
    have hlen : (pRenderL (p :: ps')).length =
        8 + p.data.length + (pRenderL ps').length := by
      show (("module.".data ++ (p.data ++ ['.'])) ++ pRenderL ps').length = _
      simp only [List.length_append, List.length_cons, List.length_nil]
      omega
    refine ⟨?_, ?_⟩
    · rw [List.length_cons, hlen]
      have := ih.1
      omega
    · intro q hq
      rcases List.mem_cons.mp hq with rfl | hq
      · rw [hlen]
        omega
      · have := ih.2 q hq
        rw [hlen]
        omega

theorem joinDots_moduleParts : ∀ (ps rest : List String), rest ≠ [] →
    (joinDots (ps.flatMap (fun p => ["module", p]) ++ rest)).data =
    pRenderL ps ++ (joinDots rest).data := by
  intro ps
  induction ps with
  | nil =>
    intro rest _
    rw [show ([] : List String).flatMap (fun p => ["module", p]) = []
      from rfl, List.nil_append, show pRenderL [] = [] from rfl,
      List.nil_append]
  | cons p ps' ih =>
    intro rest hne
    have hflat : (p :: ps').flatMap (fun p => ["module", p]) ++ rest =
        "module" :: p :: (ps'.flatMap (fun p => ["module", p]) ++ rest) := by
      rw [List.flatMap_cons]
      rfl
    rw [hflat]
    rcases hL : ps'.flatMap (fun p => ["module", p]) ++ rest
      with _ | ⟨l0, lt⟩
    · exfalso
      rcases List.append_eq_nil.mp hL with ⟨-, h2⟩
      exact hne h2
    · rw [joinDots_cons_cons, joinDots_cons_cons, strData_append,
        strData_append, strData_append, strData_append, ← hL, ih rest hne]
      rw [show (".".data : List Char) = ['.'] from rfl,
        show pRenderL (p :: ps') =
          ("module.".data ++ (p.data ++ ['.'])) ++ pRenderL ps' from rfl,
        show "module.".data = "module".data ++ ['.'] from rfl]
      simp only [List.append_assoc, List.cons_append, List.nil_append]

theorem parsePath_render_aux : ∀ ps : List String,
    (∀ p ∈ ps, p ≠ "" ∧ '.' ∉ p.data ∧ p ≠ "module") →
    ((splitDotsL (pRenderL ps)).map (fun l => (⟨l⟩ : String))).filter
      (fun seg => seg ≠ "" && seg ≠ "module") = ps := by
  intro ps
  induction ps with
  | nil => decide
  | cons p ps' ih =>
    intro h
    obtain ⟨hne, hdot, hmod⟩ := h p (List.mem_cons_self _ _)
    have hrw : pRenderL (p :: ps') =
        "module".data ++ '.' :: (p.data ++ '.' :: pRenderL ps') := by
      show ("module.".data ++ (p.data ++ ['.'])) ++ pRenderL ps' = _
      rw [show "module.".data = "module".data ++ ['.'] from rfl]
      simp only [List.append_assoc, List.cons_append, List.nil_append]
    rw [hrw, splitDotsL_append _ _ (by decide), splitDotsL_append _ _ hdot,
      List.map_cons, List.map_cons, List.filter_cons, List.filter_cons]
    rw [show ((⟨"module".data⟩ : String) = "module") from rfl]
    rw [strMk_data p]
    rw [if_neg (by decide)]
    rw [if_pos (by
      rw [Bool.and_eq_true, decide_eq_true_eq, decide_eq_true_eq]
      exact ⟨hne, hmod⟩)]
    rw [ih (fun q hq => h q (List.mem_cons_of_mem _ hq))]

theorem parseResourcePath_render (ps : List String)
    (h : ∀ p ∈ ps, p ≠ "" ∧ '.' ∉ p.data ∧ p ≠ "module") (hne : ps ≠ []) :
    parseResourcePath ⟨pRenderL ps⟩ = ps := by
  unfold parseResourcePath
  rw [if_neg ?_]
  · exact parsePath_render_aux ps h
  · intro hh
    have hd : pRenderL ps = [] := congrArg String.data hh
    cases ps with
    | nil => exact hne rfl
    | cons p ps' =>
      have : ('m' :: ("odule.".data ++ (p.data ++ ['.']) ++ pRenderL ps'))
          = [] := hd
      cases this

theorem tokenize_of_firstRun {s : String} {caps : Captures}
    (h : FirstRun (addrREn s.data.length) s.data [] caps []) :
    tokenizeResourceAddress s = .ok caps := by
  obtain ⟨t, ht⟩ := h
  unfold tokenizeResourceAddress
  rw [ht]
  rfl

theorem charMatches_notDot_all {w : List Char} (h1 : '.' ∉ w) :
    ∀ c ∈ w, charMatches .notDot c = true := by
  intro c hc
  have hd : c ≠ '.' := fun h => h1 (h ▸ hc)
  simp [charMatches, hd]

theorem charMatches_notDotBracket_all {w : List Char} (h1 : '.' ∉ w)
    (h2 : '[' ∉ w) (h3 : ']' ∉ w) :
    ∀ c ∈ w, charMatches .notDotBracket c = true := by
  intro c hc
  have hd : c ≠ '.' := fun h => h1 (h ▸ hc)
  have hb : c ≠ '[' := fun h => h2 (h ▸ hc)
  have hb2 : c ≠ ']' := fun h => h3 (h ▸ hc)
  simp [charMatches, hd, hb, hb2]

theorem charMatches_digit_all {w : List Char}
    (h : w.all isDigitCh = true) :
    ∀ c ∈ w, charMatches .digit c = true := by
  intro c hc
  exact List.all_eq_true.mp h c hc

/-- Reduction of address parsing and key extraction given the capture
contents of a successful tokenization. -/
theorem parseAddr_core (A : String) (ps : List String)
    (k0 : ResourceStateKey) (capF : Captures)
    (htok : tokenizeResourceAddress A = .ok capF)
    (hT : capGet capF GroupId.typ = k0.typ)
    (hN : capGet capF GroupId.name = k0.name)
    (hP : parseResourcePath (capGet capF GroupId.path) = ps)
    (hIT : capGet capF GroupId.instType = "")
    (hI : parseResourceIndex (capGet capF GroupId.idx) = .ok k0.idx)
    (hM : (if capGet capF GroupId.dataPfx ≠ "" then ResourceMode.data
      else ResourceMode.managed) = k0.mode)
    (htne : k0.typ ≠ "") (hnne : k0.name ≠ "") (hne : ps ≠ []) :
    addressToStateKey A = .ok (ps, resourceStateKeyString k0) := by
  unfold addressToStateKey parseResourceAddress
  rw [htok]
  simp only [Except.bind, bind, pure, Except.pure, hI, hIT, hM, hT, hN, hP,
    show parseInstanceType "" = Except.ok InstanceType.primary from rfl]
  rw [if_neg (by simp [htne])]
  simp only [Except.bind, bind, pure, Except.pure]
  rw [if_neg (by simp [htne, hnne])]
  rw [if_neg (by simp [hne])]

/-- The type.name tail of the tokenizer on a clean rendered tail without
an index suffix. -/
theorem firstRun_tail_noIdx (n : Nat) (typL nameL : List Char)
    (k : Captures) (htne : typL ≠ [])
    (htall : ∀ c ∈ typL, charMatches .notDot c = true)
    (hnall : ∀ c ∈ nameL, charMatches .notDotBracket c = true)
    (htlen : typL.length ≤ n + 1) (hnlen : nameL.length ≤ n) :
    FirstRun (.cat (.opt (.cat (.grp .typ (plusRE .notDot n))
        (.cat (.lit '.') (.grp .name (repRE (.cls .notDotBracket) n)))))
      (.cat (.opt (.cat (.lit '.') (.grp .instType (plusRE .word n))))
        (.opt (.cat (.lit '[') (.cat (.grp .idx (plusRE .digit n))
          (.lit ']'))))))
      (typL ++ '.' :: nameL) k
      ((GroupId.name, nameL) :: (GroupId.typ, typL) :: k) [] := by
  have hTstop : ∀ (c : Char) (rest' : List Char),
      '.' :: nameL = c :: rest' →
      charMatches CharCls.notDot c = false := by
    intro c rest' h
    injection h with h1 _
    rw [← h1]
    rfl
  have hNstop : ∀ (c : Char) (rest' : List Char),
      ([] : List Char) = c :: rest' →
      charMatches CharCls.notDotBracket c = false := by
    intro c rest' h
    cases h
  have hT := firstRun_grp GroupId.typ
    (firstRun_plus_at _ typL _ ('.' :: nameL) k htne htall
      hTstop htlen)
  rw [take_pfx] at hT
  have hN := firstRun_grp GroupId.name
    (firstRun_repCls nameL n [] ((GroupId.typ, typL) :: k)
      hnall hNstop hnlen)
  rw [List.append_nil, List.length_nil, Nat.sub_zero, List.take_length]
    at hN
  exact firstRun_cat
    (firstRun_opt (firstRun_cat hT (firstRun_cat
      (firstRun_lit '.' nameL ((GroupId.typ, typL) :: k)) hN)))
    (firstRun_cat
      (firstRun_opt_none (reRun_cat_fail _ (reRun_lit_fail_nil '.' _)))
      (firstRun_opt_none (reRun_cat_fail _ (reRun_lit_fail_nil '[' _))))

/-- The type.name[idx] tail of the tokenizer on a clean rendered tail with
an index suffix. -/
theorem firstRun_tail_idx (n : Nat) (typL nameL digsL : List Char)
    (k : Captures) (htne : typL ≠ [])
    (hdne : digsL ≠ [])
    (htall : ∀ c ∈ typL, charMatches .notDot c = true)
    (hnall : ∀ c ∈ nameL, charMatches .notDotBracket c = true)
    (hdall : ∀ c ∈ digsL, charMatches .digit c = true)
    (htlen : typL.length ≤ n + 1) (hnlen : nameL.length ≤ n)
    (hdlen : digsL.length ≤ n + 1) :
    FirstRun (.cat (.opt (.cat (.grp .typ (plusRE .notDot n))
        (.cat (.lit '.') (.grp .name (repRE (.cls .notDotBracket) n)))))
      (.cat (.opt (.cat (.lit '.') (.grp .instType (plusRE .word n))))
        (.opt (.cat (.lit '[') (.cat (.grp .idx (plusRE .digit n))
          (.lit ']'))))))
      (typL ++ '.' :: (nameL ++ '[' :: (digsL ++ [']']))) k
      ((GroupId.idx, digsL) :: (GroupId.name, nameL) ::
        (GroupId.typ, typL) :: k) [] := by
  have hTstop : ∀ (c : Char) (rest' : List Char),
      '.' :: (nameL ++ '[' :: (digsL ++ [']'])) = c :: rest' →
      charMatches CharCls.notDot c = false := by
    intro c rest' h
    injection h with h1 _
    rw [← h1]
    rfl
  have hNstop : ∀ (c : Char) (rest' : List Char),
      '[' :: (digsL ++ [']']) = c :: rest' →
      charMatches CharCls.notDotBracket c = false := by
    intro c rest' h
    injection h with h1 _
    rw [← h1]
    rfl
  have hDstop : ∀ (c : Char) (rest' : List Char),
      ([']'] : List Char) = c :: rest' →
      charMatches CharCls.digit c = false := by
    intro c rest' h
    injection h with h1 _
    rw [← h1]
    rfl
  have hT := firstRun_grp GroupId.typ
    (firstRun_plus_at _ typL _
      ('.' :: (nameL ++ '[' :: (digsL ++ [']']))) k htne htall
      hTstop htlen)
  rw [take_pfx] at hT
  have hN := firstRun_grp GroupId.name
    (firstRun_repCls nameL n ('[' :: (digsL ++ [']']))
      ((GroupId.typ, typL) :: k) hnall hNstop hnlen)
  rw [take_pfx] at hN
  have hD := firstRun_grp GroupId.idx
    (firstRun_plus_at _ digsL _ ([']'])
      ((GroupId.name, nameL) :: (GroupId.typ, typL) :: k) hdne hdall
      hDstop hdlen)
  rw [take_pfx] at hD
  exact firstRun_cat
    (firstRun_opt (firstRun_cat hT (firstRun_cat
      (firstRun_lit '.' _ ((GroupId.typ, typL) :: k)) hN)))
    (firstRun_cat
      (firstRun_opt_none (reRun_cat_fail _
        (reRun_lit_fail_ne _ _ (by decide) (by decide))))
      (firstRun_opt (firstRun_cat
        (firstRun_lit '[' _ _)
        (firstRun_cat hD (firstRun_lit ']' [] _)))))

theorem addressToStateKey_render_m1 (ps : List String)
    (k0 : ResourceStateKey)
    (hps : ∀ p ∈ ps, p ≠ "" ∧ '.' ∉ p.data ∧ p ≠ "module")
    (hpsne : ps ≠ [])
    (htne : k0.typ ≠ "") (hnne : k0.name ≠ "")
    (htdot : '.' ∉ k0.typ.data)
    (hndot : '.' ∉ k0.name.data) (hnbr : '[' ∉ k0.name.data)
    (hnrb : ']' ∉ k0.name.data)
    (htmod : lowStr k0.typ ≠ "module")
    (htdata : lowStr k0.typ ≠ "data")
    (hm : k0.mode = ResourceMode.managed) (hIdxEq : k0.idx = -1) :
    addressToStateKey (resourceAddressString
      { path := ps, idx := k0.idx, instType := .invalid,
        instTypeSet := false, name := k0.name, typ := k0.typ,
        mode := k0.mode }) = .ok (ps, resourceStateKeyString k0) := by
  have htd : k0.typ.data ≠ [] :=
    fun h => htne (by rw [← strMk_data k0.typ, h])
  have hnd : k0.name.data ≠ [] :=
    fun h => hnne (by rw [← strMk_data k0.name, h])
  have hA : resourceAddressString
      { path := ps, idx := k0.idx, instType := .invalid,
        instTypeSet := false, name := k0.name, typ := k0.typ,
        mode := k0.mode } =
      joinDots (ps.flatMap (fun p => ["module", p]) ++
        [k0.typ, k0.name]) := by
    unfold resourceAddressString
    simp only [hm, hIdxEq]
    rw [if_pos htne, if_pos hnne,
      if_neg (show ¬((-1 : Int) ≥ 0) from by decide)]
    simp only [List.append_assoc, List.append_nil, List.nil_append]
    rfl
  rw [hA]
  have hAD : (joinDots (ps.flatMap (fun p => ["module", p]) ++
      [k0.typ, k0.name])).data =
      pRenderL ps ++ (k0.typ.data ++ '.' :: k0.name.data) := by
    rw [joinDots_moduleParts ps [k0.typ, k0.name]
      (fun h => List.noConfusion h)]
    rw [joinDots_cons_cons, strData_append, strData_append]
    rw [show (joinDots [k0.name]) = k0.name from rfl,
      show (".".data : List Char) = ['.'] from rfl]
    simp only [List.append_assoc, List.cons_append, List.nil_append]
  set A := joinDots (ps.flatMap (fun p => ["module", p]) ++
    [k0.typ, k0.name]) with hAdef
  obtain ⟨n, hnn⟩ : ∃ n, n = A.data.length := ⟨_, rfl⟩
  have hn := congrArg List.length hAD
  simp only [List.length_append, List.length_cons, List.length_nil] at hn
  rw [← hnn] at hn
  have hfail : hasPfxL "module.".data
      ((k0.typ.data ++ '.' :: k0.name.data).map lowCh) = false := by
    rw [List.map_append, List.map_cons]
    show hasPfxL ("module".data ++ ['.'])
      (k0.typ.data.map lowCh ++ '.' :: (k0.name.data.map lowCh)) = false
    exact hasPfxL_dotted _ _ _ (by decide) (not_dot_map_lowCh htdot)
      (Ne.symm (lowStr_ne_data htmod))
  obtain ⟨mnCaps, hmn, hpath⟩ := firstRun_pathRep (m := n) ps
    n (k0.typ.data ++ '.' :: k0.name.data) []
    (fun p hp => ⟨fun h => (hps p hp).1 (by rw [← strMk_data p, h]),
      (hps p hp).2.1⟩)
    hfail
    (fun p hp => by have := (pRenderL_length ps).2 p hp; omega)
    (by have := (pRenderL_length ps).1; omega)
  have hgP := firstRun_grp GroupId.path hpath
  rw [take_pfx] at hgP
  have hdfail : reRun (litsRE "data.".data)
      (k0.typ.data ++ '.' :: k0.name.data)
      ((GroupId.path, pRenderL ps) :: (mnCaps ++ [])) = [] := by
    refine reRun_lits_fail _ (by decide) ?_
    rw [List.map_append, List.map_cons]
    show hasPfxL ("data".data ++ ['.'])
      (k0.typ.data.map lowCh ++ '.' :: (k0.name.data.map lowCh)) = false
    exact hasPfxL_dotted _ _ _ (by decide) (not_dot_map_lowCh htdot)
      (Ne.symm (lowStr_ne_data htdata))
  have hgD := firstRun_grp GroupId.dataPfx (firstRun_opt_none hdfail)
  rw [Nat.sub_self, List.take_zero] at hgD
  have htail := firstRun_tail_noIdx n k0.typ.data k0.name.data
    ((GroupId.dataPfx, []) :: (GroupId.path, pRenderL ps) :: (mnCaps ++ []))
    htd (charMatches_notDot_all htdot)
    (charMatches_notDotBracket_all hndot hnbr hnrb)
    (by omega) (by omega)
  have hwhole : FirstRun (addrREn n) A.data []
      ((GroupId.name, k0.name.data) :: (GroupId.typ, k0.typ.data) ::
        (GroupId.dataPfx, []) :: (GroupId.path, pRenderL ps) ::
        (mnCaps ++ [])) [] := by
    rw [hAD]
    exact firstRun_cat hgP (firstRun_cat hgD htail)
  rw [hnn] at hwhole
  have htok := tokenize_of_firstRun hwhole
  refine parseAddr_core A ps k0 _ htok ?_ ?_ ?_ ?_ ?_ ?_ htne hnne hpsne
  · rw [capGet_cons_ne _ _ (by decide), capGet_cons_self]
  · rw [capGet_cons_self]
  · rw [capGet_cons_ne _ _ (by decide), capGet_cons_ne _ _ (by decide),
      capGet_cons_ne _ _ (by decide), capGet_cons_self]
    exact parseResourcePath_render ps hps hpsne
  · rw [capGet_cons_ne _ _ (by decide), capGet_cons_ne _ _ (by decide),
      capGet_cons_ne _ _ (by decide), capGet_cons_ne _ _ (by decide),
      capGet_skip [] hmn (by decide), capGet_nil]
  · rw [capGet_cons_ne _ _ (by decide), capGet_cons_ne _ _ (by decide),
      capGet_cons_ne _ _ (by decide), capGet_cons_ne _ _ (by decide),
      capGet_skip [] hmn (by decide), capGet_nil, hIdxEq]
    rfl
  · rw [capGet_cons_ne _ _ (by decide), capGet_cons_ne _ _ (by decide),
      capGet_cons_self]
    rw [if_neg (by simp)]
    exact hm.symm

theorem addressToStateKey_render_mIdx (ps : List String)
    (k0 : ResourceStateKey)
    (hps : ∀ p ∈ ps, p ≠ "" ∧ '.' ∉ p.data ∧ p ≠ "module")
    (hpsne : ps ≠ [])
    (htne : k0.typ ≠ "") (hnne : k0.name ≠ "")
    (htdot : '.' ∉ k0.typ.data)
    (hndot : '.' ∉ k0.name.data) (hnbr : '[' ∉ k0.name.data)
    (hnrb : ']' ∉ k0.name.data)
    (htmod : lowStr k0.typ ≠ "module")
    (htdata : lowStr k0.typ ≠ "data")
    (hm : k0.mode = ResourceMode.managed) (h0 : 0 ≤ k0.idx)
    (hb : k0.idx ≤ 2 ^ 63 - 1) :
    addressToStateKey (resourceAddressString
      { path := ps, idx := k0.idx, instType := .invalid,
        instTypeSet := false, name := k0.name, typ := k0.typ,
        mode := k0.mode }) = .ok (ps, resourceStateKeyString k0) := by
  have htd : k0.typ.data ≠ [] :=
    fun h => htne (by rw [← strMk_data k0.typ, h])
  have hnd : k0.name.data ≠ [] :=
    fun h => hnne (by rw [← strMk_data k0.name, h])
  obtain ⟨n0, hn0⟩ := Int.eq_ofNat_of_zero_le h0
  obtain ⟨hdne, hdall, hdpd⟩ := natRepr_digits n0
  have hdigs : (toString k0.idx).data = (Nat.repr n0).data := by
    rw [hn0]
    rfl
  have hA : resourceAddressString
      { path := ps, idx := k0.idx, instType := .invalid,
        instTypeSet := false, name := k0.name, typ := k0.typ,
        mode := k0.mode } =
      joinDots (ps.flatMap (fun p => ["module", p]) ++
        [k0.typ, k0.name ++ "[" ++ toString k0.idx ++ "]"]) := by
    unfold resourceAddressString
    simp only [hm]
    rw [if_pos htne, if_pos hnne, if_pos h0]
    simp only [List.append_assoc, List.append_nil, List.nil_append]
    rfl
  rw [hA]
  have hAD : (joinDots (ps.flatMap (fun p => ["module", p]) ++
      [k0.typ, k0.name ++ "[" ++ toString k0.idx ++ "]"])).data =
      pRenderL ps ++ (k0.typ.data ++ '.' :: (k0.name.data ++ '[' ::
        ((toString k0.idx).data ++ [']']))) := by
    rw [joinDots_moduleParts ps _ (fun h => List.noConfusion h)]
    rw [joinDots_cons_cons, strData_append, strData_append]
    rw [show (joinDots [k0.name ++ "[" ++ toString k0.idx ++ "]"]) =
      k0.name ++ "[" ++ toString k0.idx ++ "]" from rfl]
    rw [strData_append, strData_append, strData_append]
    rw [show (".".data : List Char) = ['.'] from rfl,
      show ("[".data : List Char) = ['['] from rfl,
      show ("]".data : List Char) = [']'] from rfl]
    simp only [List.append_assoc, List.cons_append, List.nil_append]
  set A := joinDots (ps.flatMap (fun p => ["module", p]) ++
    [k0.typ, k0.name ++ "[" ++ toString k0.idx ++ "]"]) with hAdef
  obtain ⟨n, hnn⟩ : ∃ n, n = A.data.length := ⟨_, rfl⟩
  have hn := congrArg List.length hAD
  simp only [List.length_append, List.length_cons, List.length_nil] at hn
  rw [← hnn] at hn
  have hfail : hasPfxL "module.".data
      ((k0.typ.data ++ '.' :: (k0.name.data ++ '[' ::
        ((toString k0.idx).data ++ [']']))).map lowCh) = false := by
    rw [List.map_append, List.map_cons]
    show hasPfxL ("module".data ++ ['.'])
      (k0.typ.data.map lowCh ++ '.' :: ((k0.name.data ++ '[' ::
        ((toString k0.idx).data ++ [']'])).map lowCh)) = false
    exact hasPfxL_dotted _ _ _ (by decide) (not_dot_map_lowCh htdot)
      (Ne.symm (lowStr_ne_data htmod))
  obtain ⟨mnCaps, hmn, hpath⟩ := firstRun_pathRep (m := n) ps
    n (k0.typ.data ++ '.' :: (k0.name.data ++ '[' ::
      ((toString k0.idx).data ++ [']']))) []
    (fun p hp => ⟨fun h => (hps p hp).1 (by rw [← strMk_data p, h]),
      (hps p hp).2.1⟩)
    hfail
    (fun p hp => by have := (pRenderL_length ps).2 p hp; omega)
    (by have := (pRenderL_length ps).1; omega)
  have hgP := firstRun_grp GroupId.path hpath
  rw [take_pfx] at hgP
  have hdfail : reRun (litsRE "data.".data)
      (k0.typ.data ++ '.' :: (k0.name.data ++ '[' ::
        ((toString k0.idx).data ++ [']'])))
      ((GroupId.path, pRenderL ps) :: (mnCaps ++ [])) = [] := by
    refine reRun_lits_fail _ (by decide) ?_
    rw [List.map_append, List.map_cons]
    show hasPfxL ("data".data ++ ['.'])
      (k0.typ.data.map lowCh ++ '.' :: ((k0.name.data ++ '[' ::
        ((toString k0.idx).data ++ [']'])).map lowCh)) = false
    exact hasPfxL_dotted _ _ _ (by decide) (not_dot_map_lowCh htdot)
      (Ne.symm (lowStr_ne_data htdata))
  have hgD := firstRun_grp GroupId.dataPfx (firstRun_opt_none hdfail)
  rw [Nat.sub_self, List.take_zero] at hgD
  have htail := firstRun_tail_idx n k0.typ.data k0.name.data
    (toString k0.idx).data
    ((GroupId.dataPfx, []) :: (GroupId.path, pRenderL ps) :: (mnCaps ++ []))
    htd (by rw [hdigs]; exact hdne)
    (charMatches_notDot_all htdot)
    (charMatches_notDotBracket_all hndot hnbr hnrb)
    (charMatches_digit_all (by rw [hdigs]; exact hdall))
    (by omega) (by omega) (by omega)
  have hwhole : FirstRun (addrREn n) A.data []
      ((GroupId.idx, (toString k0.idx).data) ::
        (GroupId.name, k0.name.data) :: (GroupId.typ, k0.typ.data) ::
        (GroupId.dataPfx, []) :: (GroupId.path, pRenderL ps) ::
        (mnCaps ++ [])) [] := by
    rw [hAD]
    exact firstRun_cat hgP (firstRun_cat hgD htail)
  rw [hnn] at hwhole
  have htok := tokenize_of_firstRun hwhole
  refine parseAddr_core A ps k0 _ htok ?_ ?_ ?_ ?_ ?_ ?_ htne hnne hpsne
  · rw [capGet_cons_ne _ _ (by decide), capGet_cons_ne _ _ (by decide),
      capGet_cons_self]
  · rw [capGet_cons_ne _ _ (by decide), capGet_cons_self]
  · rw [capGet_cons_ne _ _ (by decide), capGet_cons_ne _ _ (by decide),
      capGet_cons_ne _ _ (by decide), capGet_cons_ne _ _ (by decide),
      capGet_cons_self]
    exact parseResourcePath_render ps hps hpsne
  · rw [capGet_cons_ne _ _ (by decide), capGet_cons_ne _ _ (by decide),
      capGet_cons_ne _ _ (by decide), capGet_cons_ne _ _ (by decide),
      capGet_cons_ne _ _ (by decide), capGet_skip [] hmn (by decide),
      capGet_nil]
  · rw [capGet_cons_self, strMk_data]
    unfold parseResourceIndex
    rw [if_neg (fun h => hdne (by rw [← hdigs, h])),
      goAtoi_toString_nonneg h0 hb]
  · rw [capGet_cons_ne _ _ (by decide), capGet_cons_ne _ _ (by decide),
      capGet_cons_ne _ _ (by decide), capGet_cons_self]
    rw [if_neg (by simp)]
    exact hm.symm

theorem addressToStateKey_render_d1 (ps : List String)
    (k0 : ResourceStateKey)
    (hps : ∀ p ∈ ps, p ≠ "" ∧ '.' ∉ p.data ∧ p ≠ "module")
    (hpsne : ps ≠ [])
    (htne : k0.typ ≠ "") (hnne : k0.name ≠ "")
    (htdot : '.' ∉ k0.typ.data)
    (hndot : '.' ∉ k0.name.data) (hnbr : '[' ∉ k0.name.data)
    (hnrb : ']' ∉ k0.name.data)
    (hm : k0.mode = ResourceMode.data) (hIdxEq : k0.idx = -1) :
    addressToStateKey (resourceAddressString
      { path := ps, idx := k0.idx, instType := .invalid,
        instTypeSet := false, name := k0.name, typ := k0.typ,
        mode := k0.mode }) = .ok (ps, resourceStateKeyString k0) := by
  have htd : k0.typ.data ≠ [] :=
    fun h => htne (by rw [← strMk_data k0.typ, h])
  have hnd : k0.name.data ≠ [] :=
    fun h => hnne (by rw [← strMk_data k0.name, h])
  have hA : resourceAddressString
      { path := ps, idx := k0.idx, instType := .invalid,
        instTypeSet := false, name := k0.name, typ := k0.typ,
        mode := k0.mode } =
      joinDots (ps.flatMap (fun p => ["module", p]) ++
        ["data", k0.typ, k0.name]) := by
    unfold resourceAddressString
    simp only [hm, hIdxEq]
    rw [if_pos htne, if_pos hnne,
      if_neg (show ¬((-1 : Int) ≥ 0) from by decide)]
    simp only [List.append_assoc, List.append_nil, List.nil_append,
      List.cons_append]
    rfl
  rw [hA]
  have hAD : (joinDots (ps.flatMap (fun p => ["module", p]) ++
      ["data", k0.typ, k0.name])).data =
      pRenderL ps ++ ("data.".data ++
        (k0.typ.data ++ '.' :: k0.name.data)) := by
    rw [joinDots_moduleParts ps _ (fun h => List.noConfusion h)]
    rw [joinDots_cons_cons, joinDots_cons_cons, strData_append,
      strData_append, strData_append, strData_append]
    rw [show (joinDots [k0.name]) = k0.name from rfl,
      show (".".data : List Char) = ['.'] from rfl]
    simp only [List.append_assoc, List.cons_append, List.nil_append]
  set A := joinDots (ps.flatMap (fun p => ["module", p]) ++
    ["data", k0.typ, k0.name]) with hAdef
  obtain ⟨n, hnn⟩ : ∃ n, n = A.data.length := ⟨_, rfl⟩
  have hn := congrArg List.length hAD
  simp only [List.length_append, List.length_cons, List.length_nil] at hn
  rw [← hnn] at hn
  have hfail : hasPfxL "module.".data
      (("data.".data ++ (k0.typ.data ++ '.' :: k0.name.data)).map lowCh)
      = false := by
    rw [List.map_append]
    show hasPfxL ("module".data ++ ['.'])
      ("data".data ++ '.' ::
        ((k0.typ.data ++ '.' :: k0.name.data).map lowCh)) = false
    exact hasPfxL_dotted _ _ _ (by decide) (by decide) (by decide)
  obtain ⟨mnCaps, hmn, hpath⟩ := firstRun_pathRep (m := n) ps
    n ("data.".data ++ (k0.typ.data ++ '.' :: k0.name.data)) []
    (fun p hp => ⟨fun h => (hps p hp).1 (by rw [← strMk_data p, h]),
      (hps p hp).2.1⟩)
    hfail
    (fun p hp => by have := (pRenderL_length ps).2 p hp; omega)
    (by have := (pRenderL_length ps).1; omega)
  have hgP := firstRun_grp GroupId.path hpath
  rw [take_pfx] at hgP
  have hgD := firstRun_grp GroupId.dataPfx
    (firstRun_opt (firstRun_lits "data.".data
      (k0.typ.data ++ '.' :: k0.name.data)
      ((GroupId.path, pRenderL ps) :: (mnCaps ++ []))))
  rw [take_pfx] at hgD
  have htail := firstRun_tail_noIdx n k0.typ.data k0.name.data
    ((GroupId.dataPfx, "data.".data) :: (GroupId.path, pRenderL ps) ::
      (mnCaps ++ []))
    htd (charMatches_notDot_all htdot)
    (charMatches_notDotBracket_all hndot hnbr hnrb)
    (by omega) (by omega)
  have hwhole : FirstRun (addrREn n) A.data []
      ((GroupId.name, k0.name.data) :: (GroupId.typ, k0.typ.data) ::
        (GroupId.dataPfx, "data.".data) :: (GroupId.path, pRenderL ps) ::
        (mnCaps ++ [])) [] := by
    rw [hAD]
    exact firstRun_cat hgP (firstRun_cat hgD htail)
  rw [hnn] at hwhole
  have htok := tokenize_of_firstRun hwhole
  refine parseAddr_core A ps k0 _ htok ?_ ?_ ?_ ?_ ?_ ?_ htne hnne hpsne
  · rw [capGet_cons_ne _ _ (by decide), capGet_cons_self]
  · rw [capGet_cons_self]
  · rw [capGet_cons_ne _ _ (by decide), capGet_cons_ne _ _ (by decide),
      capGet_cons_ne _ _ (by decide), capGet_cons_self]
    exact parseResourcePath_render ps hps hpsne
  · rw [capGet_cons_ne _ _ (by decide), capGet_cons_ne _ _ (by decide),
      capGet_cons_ne _ _ (by decide), capGet_cons_ne _ _ (by decide),
      capGet_skip [] hmn (by decide), capGet_nil]
  · rw [capGet_cons_ne _ _ (by decide), capGet_cons_ne _ _ (by decide),
      capGet_cons_ne _ _ (by decide), capGet_cons_ne _ _ (by decide),
      capGet_skip [] hmn (by decide), capGet_nil, hIdxEq]
    rfl
  · rw [capGet_cons_ne _ _ (by decide), capGet_cons_ne _ _ (by decide),
      capGet_cons_self]
    rw [show (String.mk "data.".data) = "data." from rfl]
    rw [if_pos (by decide)]
    exact hm.symm

theorem addressToStateKey_render_dIdx (ps : List String)
    (k0 : ResourceStateKey)
    (hps : ∀ p ∈ ps, p ≠ "" ∧ '.' ∉ p.data ∧ p ≠ "module")
    (hpsne : ps ≠ [])
    (htne : k0.typ ≠ "") (hnne : k0.name ≠ "")
    (htdot : '.' ∉ k0.typ.data)
    (hndot : '.' ∉ k0.name.data) (hnbr : '[' ∉ k0.name.data)
    (hnrb : ']' ∉ k0.name.data)
    (hm : k0.mode = ResourceMode.data) (h0 : 0 ≤ k0.idx)
    (hb : k0.idx ≤ 2 ^ 63 - 1) :
    addressToStateKey (resourceAddressString
      { path := ps, idx := k0.idx, instType := .invalid,
        instTypeSet := false, name := k0.name, typ := k0.typ,
        mode := k0.mode }) = .ok (ps, resourceStateKeyString k0) := by
  have htd : k0.typ.data ≠ [] :=
    fun h => htne (by rw [← strMk_data k0.typ, h])
  have hnd : k0.name.data ≠ [] :=
    fun h => hnne (by rw [← strMk_data k0.name, h])
  obtain ⟨n0, hn0⟩ := Int.eq_ofNat_of_zero_le h0
  obtain ⟨hdne, hdall, hdpd⟩ := natRepr_digits n0
  have hdigs : (toString k0.idx).data = (Nat.repr n0).data := by
    rw [hn0]
    rfl
  have hA : resourceAddressString
      { path := ps, idx := k0.idx, instType := .invalid,
        instTypeSet := false, name := k0.name, typ := k0.typ,
        mode := k0.mode } =
      joinDots (ps.flatMap (fun p => ["module", p]) ++
        ["data", k0.typ, k0.name ++ "[" ++ toString k0.idx ++ "]"]) := by
    unfold resourceAddressString
    simp only [hm]
    rw [if_pos htne, if_pos hnne, if_pos h0]
    simp only [List.append_assoc, List.append_nil, List.nil_append,
      List.cons_append]
    rfl
  rw [hA]
  have hAD : (joinDots (ps.flatMap (fun p => ["module", p]) ++
      ["data", k0.typ, k0.name ++ "[" ++ toString k0.idx ++ "]"])).data =
      pRenderL ps ++ ("data.".data ++
        (k0.typ.data ++ '.' :: (k0.name.data ++ '[' ::
          ((toString k0.idx).data ++ [']'])))) := by
    rw [joinDots_moduleParts ps _ (fun h => List.noConfusion h)]
    rw [joinDots_cons_cons, joinDots_cons_cons, strData_append,
      strData_append, strData_append, strData_append]
    rw [show (joinDots [k0.name ++ "[" ++ toString k0.idx ++ "]"]) =
      k0.name ++ "[" ++ toString k0.idx ++ "]" from rfl]
    rw [strData_append, strData_append, strData_append]
    rw [show (".".data : List Char) = ['.'] from rfl,
      show ("[".data : List Char) = ['['] from rfl,
      show ("]".data : List Char) = [']'] from rfl]
    simp only [List.append_assoc, List.cons_append, List.nil_append]
  set A := joinDots (ps.flatMap (fun p => ["module", p]) ++
    ["data", k0.typ, k0.name ++ "[" ++ toString k0.idx ++ "]"]) with hAdef
  obtain ⟨n, hnn⟩ : ∃ n, n = A.data.length := ⟨_, rfl⟩
  have hn := congrArg List.length hAD
  simp only [List.length_append, List.length_cons, List.length_nil] at hn
  rw [← hnn] at hn
  have hfail : hasPfxL "module.".data
      (("data.".data ++ (k0.typ.data ++ '.' :: (k0.name.data ++ '[' ::
        ((toString k0.idx).data ++ [']'])))).map lowCh) = false := by
    rw [List.map_append]
    show hasPfxL ("module".data ++ ['.'])
      ("data".data ++ '.' ::
        ((k0.typ.data ++ '.' :: (k0.name.data ++ '[' ::
          ((toString k0.idx).data ++ [']']))).map lowCh)) = false
    exact hasPfxL_dotted _ _ _ (by decide) (by decide) (by decide)
  obtain ⟨mnCaps, hmn, hpath⟩ := firstRun_pathRep (m := n) ps
    n ("data.".data ++ (k0.typ.data ++ '.' :: (k0.name.data ++ '[' ::
      ((toString k0.idx).data ++ [']'])))) []
    (fun p hp => ⟨fun h => (hps p hp).1 (by rw [← strMk_data p, h]),
      (hps p hp).2.1⟩)
    hfail
    (fun p hp => by have := (pRenderL_length ps).2 p hp; omega)
    (by have := (pRenderL_length ps).1; omega)
  have hgP := firstRun_grp GroupId.path hpath
  rw [take_pfx] at hgP
  have hgD := firstRun_grp GroupId.dataPfx
    (firstRun_opt (firstRun_lits "data.".data
      (k0.typ.data ++ '.' :: (k0.name.data ++ '[' ::
        ((toString k0.idx).data ++ [']'])))
      ((GroupId.path, pRenderL ps) :: (mnCaps ++ []))))
  rw [take_pfx] at hgD
  have htail := firstRun_tail_idx n k0.typ.data k0.name.data
    (toString k0.idx).data
    ((GroupId.dataPfx, "data.".data) :: (GroupId.path, pRenderL ps) ::
      (mnCaps ++ []))
    htd (by rw [hdigs]; exact hdne)
    (charMatches_notDot_all htdot)
    (charMatches_notDotBracket_all hndot hnbr hnrb)
    (charMatches_digit_all (by rw [hdigs]; exact hdall))
    (by omega) (by omega) (by omega)
  have hwhole : FirstRun (addrREn n) A.data []
      ((GroupId.idx, (toString k0.idx).data) ::
        (GroupId.name, k0.name.data) :: (GroupId.typ, k0.typ.data) ::
        (GroupId.dataPfx, "data.".data) :: (GroupId.path, pRenderL ps) ::
        (mnCaps ++ [])) [] := by
    rw [hAD]
    exact firstRun_cat hgP (firstRun_cat hgD htail)
  rw [hnn] at hwhole
  have htok := tokenize_of_firstRun hwhole
  refine parseAddr_core A ps k0 _ htok ?_ ?_ ?_ ?_ ?_ ?_ htne hnne hpsne
  · rw [capGet_cons_ne _ _ (by decide), capGet_cons_ne _ _ (by decide),
      capGet_cons_self]
  · rw [capGet_cons_ne _ _ (by decide), capGet_cons_self]
  · rw [capGet_cons_ne _ _ (by decide), capGet_cons_ne _ _ (by decide),
      capGet_cons_ne _ _ (by decide), capGet_cons_ne _ _ (by decide),
      capGet_cons_self]
    exact parseResourcePath_render ps hps hpsne
  · rw [capGet_cons_ne _ _ (by decide), capGet_cons_ne _ _ (by decide),
      capGet_cons_ne _ _ (by decide), capGet_cons_ne _ _ (by decide),
      capGet_cons_ne _ _ (by decide), capGet_skip [] hmn (by decide),
      capGet_nil]
  · rw [capGet_cons_self, strMk_data]
    unfold parseResourceIndex
    rw [if_neg (fun h => hdne (by rw [← hdigs, h])),
      goAtoi_toString_nonneg h0 hb]
  · rw [capGet_cons_ne _ _ (by decide), capGet_cons_ne _ _ (by decide),
      capGet_cons_ne _ _ (by decide), capGet_cons_self]
    rw [show (String.mk "data.".data) = "data." from rfl]
    rw [if_pos (by decide)]
    exact hm.symm

/-- C3 as amended: over clean canonical identities — the key re-renders to
itself, type and name are nonempty, the type is dot-free and (for managed
resources) does not collide case-insensitively with the reserved words
"module" and "data" that steer the case-insensitive tokenizer, the name is
free of dots and brackets, the index is canonical, and path components are
nonempty, dot-free and not "module" — converting a key to an address and
back returns the original identity, with the empty path normalized to the
root path.  (Unrestricted the claim fails: see the counterexample, where a
non-canonical index spelling is rewritten.) -/
theorem key_roundtrip (path : List String) (key : String)
    (k : ResourceStateKey) (addr : String)
    (hparse : parseResourceStateKey key = .ok k)
    (hcanon : resourceStateKeyString k = key)
    (hpath : ∀ p ∈ path, p ≠ "" ∧ '.' ∉ p.data ∧ p ≠ "module")
    (htne : k.typ ≠ "") (hnne : k.name ≠ "")
    (htdot : '.' ∉ k.typ.data)
    (hndot : '.' ∉ k.name.data) (hnbr : '[' ∉ k.name.data)
    (hnrb : ']' ∉ k.name.data)
    (htmod : k.mode = ResourceMode.managed → lowStr k.typ ≠ "module")
    (htdata : k.mode = ResourceMode.managed → lowStr k.typ ≠ "data")
    (hidx : k.idx = -1 ∨ (0 ≤ k.idx ∧ k.idx ≤ 2 ^ 63 - 1))
    (hA : stateKeyToAddress path key = .ok addr) :
    addressToStateKey addr =
      .ok (if path.length = 0 then rootModulePath else path, key) := by
  unfold stateKeyToAddress at hA
  rw [hparse] at hA
  simp only [Except.bind, bind, pure, Except.pure] at hA
  injection hA with hA
  subst hA
  have hps : ∀ p ∈ (if path.length = 0 then rootModulePath else path),
      p ≠ "" ∧ '.' ∉ p.data ∧ p ≠ "module" := by
    split
    · intro p hp
      rcases List.mem_cons.mp hp with rfl | hp
      · exact ⟨by decide, by decide, by decide⟩
      · cases hp
    · exact hpath
  have hpsne : (if path.length = 0 then rootModulePath else path) ≠ [] := by
    split
    · exact fun h => List.noConfusion h
    · rename_i hlen
      intro h
      rw [h] at hlen
      exact hlen rfl
  rw [← hcanon]
  have hmd : k.mode = ResourceMode.managed ∨ k.mode = ResourceMode.data := by
    cases hmm : k.mode
    · exact Or.inl rfl
    · exact Or.inr rfl
  rcases hmd with hm | hm
  · rcases hidx with hIdxEq | ⟨h0, hb⟩
    · exact addressToStateKey_render_m1 _ k hps hpsne htne hnne htdot
        hndot hnbr hnrb (htmod hm) (htdata hm) hm hIdxEq
    · exact addressToStateKey_render_mIdx _ k hps hpsne htne hnne htdot
        hndot hnbr hnrb (htmod hm) (htdata hm) hm h0 hb
  · rcases hidx with hIdxEq | ⟨h0, hb⟩
    · exact addressToStateKey_render_d1 _ k hps hpsne htne hnne htdot
        hndot hnbr hnrb hm hIdxEq
    · exact addressToStateKey_render_dIdx _ k hps hpsne htne hnne htdot
        hndot hnbr hnrb hm h0 hb

set_option maxHeartbeats 2000000 in
/-- C3 amended-theorem witness: the identity (["app"], "a.b") is clean and
round-trips through "module.app.a.b". -/
theorem key_roundtrip_witness :
    addressToStateKey "module.app.a.b" = .ok (["app"], "a.b") :=
  key_roundtrip ["app"] "a.b"
    { name := "b", typ := "a", mode := .managed, idx := -1 }
    "module.app.a.b" (by rfl) (by rfl) (by decide) (by decide) (by decide)
    (by decide) (by decide) (by decide) (by decide)
    (fun _ => by decide) (fun _ => by decide) (Or.inl (by decide)) (by rfl)

theorem lookup_mem_isSome {α β : Type} [BEq α] [LawfulBEq α]
    {l : List (α × β)} {a : α} {b : β} (h : (a, b) ∈ l) :
    ∃ v, l.lookup a = some v := by
  induction l with
  | nil => cases h
  | cons e rest ih =>
    rw [List.lookup]
    split
    · exact ⟨_, rfl⟩
    · rename_i hne
      rcases List.mem_cons.mp h with heq | h
      · rw [← heq] at hne
        simp at hne
      · exact ih h

theorem lookup_eq_of_mem_nodup {α β : Type} [BEq α] [LawfulBEq α]
    {l : List (α × β)} {a : α} {b : β}
    (hnd : (l.map Prod.fst).Nodup) (h : (a, b) ∈ l) :
    l.lookup a = some b := by
  induction l with
  | nil => cases h
  | cons e rest ih =>
    rw [List.map_cons, List.nodup_cons] at hnd
    rcases List.mem_cons.mp h with heq | h
    · rw [← heq, List.lookup, beq_self_eq_true]
    · rw [List.lookup]
      split
      · rename_i hae
        exfalso
        apply hnd.1
        rw [show e.1 = a from (eq_of_beq hae).symm]
        exact List.mem_map_of_mem Prod.fst h
      · exact ih hnd.2 h

theorem lookup_append_none {α β : Type} [BEq α]
    {l1 : List (α × β)} {a : α} (l2 : List (α × β))
    (h : l1.lookup a = none) :
    (l1 ++ l2).lookup a = l2.lookup a := by
  induction l1 with
  | nil => rfl
  | cons e rest ih =>
    rw [List.cons_append]
    rcases hae : a == e.1 with _ | _
    · simp only [List.lookup, hae] at h ⊢
      exact ih h
    · simp only [List.lookup, hae] at h
      cases h

theorem lookup_singleton_ne {α β : Type} [BEq α] [LawfulBEq α]
    {a b : α} (v : β) (h : a ≠ b) :
    ([(b, v)] : List (α × β)).lookup a = none := by
  rw [List.lookup, beq_false_of_ne h]
  rfl

theorem tmInsert_fresh (tm : List (String × Nat)) (a : String) (nid : Nat)
    (h : tm.lookup a = none) : tmInsert tm a nid = tm ++ [(a, nid)] := by
  induction tm with
  | nil => rfl
  | cons e rest ih =>
    rw [tmInsert]
    split
    · rename_i hea
      rw [List.lookup, hea, beq_self_eq_true] at h
      cases h
    · rename_i hea
      rw [List.cons_append]
      congr 1
      apply ih
      rcases hae : (a == e.1) with _ | _
      · simp only [List.lookup, hae] at h
        exact h
      · exact absurd (eq_of_beq hae).symm hea

theorem set_of_getElem? {α : Type} : ∀ (l : List α) (i : Nat) (a : α),
    l[i]? = some a → l.set i a = l := by
  intro l
  induction l with
  | nil => intro i a h; cases h
  | cons x xs ih =>
    intro i a h
    cases i with
    | zero =>
      rw [List.getElem?_cons_zero] at h
      injection h with h
      rw [List.set_cons_zero, h]
    | succ n =>
      rw [List.getElem?_cons_succ] at h
      rw [List.set_cons_succ, ih n a h]

theorem nodup_getElem?_inj {α : Type} :
    ∀ {l : List α} {i j : Nat} {a : α}, l.Nodup →
    l[i]? = some a → l[j]? = some a → i = j := by
  intro l
  induction l with
  | nil => intro i j a _ h; cases h
  | cons x xs ih =>
    intro i j a hnd hi hj
    rw [List.nodup_cons] at hnd
    cases i with
    | zero =>
      cases j with
      | zero => rfl
      | succ m =>
        rw [List.getElem?_cons_zero] at hi
        rw [List.getElem?_cons_succ] at hj
        injection hi with hi
        exact absurd (hi ▸ mem_of_getElem? hj) hnd.1
    | succ n =>
      cases j with
      | zero =>
        rw [List.getElem?_cons_zero] at hj
        rw [List.getElem?_cons_succ] at hi
        injection hj with hj
        exact absurd (hj ▸ mem_of_getElem? hi) hnd.1
      | succ m =>
        rw [List.getElem?_cons_succ] at hi
        rw [List.getElem?_cons_succ] at hj
        rw [ih hnd.2 hi hj]

theorem render_ok_ne_empty {p : List String} {k a : String}
    (h : stateKeyToAddress p k = .ok a) : k ≠ "" := by
  intro he
  rw [he, show stateKeyToAddress p "" = .error (.malformedKey "") from rfl]
    at h
  cases h

theorem addrKey_ok_ne_empty {v : String} {pr : List String × String}
    (h : addressToStateKey v = .ok pr) : v ≠ "" := by
  intro he
  rw [he, show addressToStateKey "" = .error (.incompleteAddress "") from
    rfl] at h
  cases h

theorem kIdx_eq {R : List (String × ResourceState)} {j : Nat}
    {e : String × ResourceState} (h : R[j]? = some e) : kIdx R j = e.1 := by
  unfold kIdx
  rw [h]

theorem rIdx_eq {R : List (String × ResourceState)} {j : Nat}
    {e : String × ResourceState} (h : R[j]? = some e) : rIdx R j = e.2 := by
  unfold rIdx
  rw [h]

theorem singleMod_idx (p : List String)
    (R : List (String × ResourceState)) :
    moduleIdxByPath (singleMod p R) p = some 0 := by
  simp [moduleIdxByPath, singleMod, List.findIdx?_cons]

/-- C4 counterexample: the transform a.a to b.b on the graph {a.a, b.b} is
injective and deletion-free, yet Apply silently replaces the unmapped b.b
with the moved resource, and applying the inverse does not bring it back:
the round trip loses a resource, so it is not deep-equal to the input. -/
theorem apply_inverse_break :
    (∀ e1 ∈ [("a.a", "b.b")], ∀ e2 ∈ [("a.a", "b.b")],
      e1.2 = e2.2 → e1.1 = e2.1) ∧
    (∀ e ∈ [("a.a", "b.b")], e.2 ≠ "") ∧
    StateTransform.Apply [("a.a", "b.b")] collisionState =
      .ok replaceResult ∧
    StateTransform.Inverse [("a.a", "b.b")] = some [("b.b", "a.a")] ∧
    StateTransform.Apply [("b.b", "a.a")] replaceResult =
      .ok invRoundOut ∧
    ¬ StateEquiv invRoundOut collisionState := by
  refine ⟨by decide, by decide, by rfl, by rfl, by rfl, ?_⟩
  intro h
  have h0 := (h.2 0 _ _ rfl rfl).2.1 "b.b"
  exact absurd h0 (by decide)

theorem values_nodup {T : StateTransform}
    (hnd : (T.map Prod.fst).Nodup)
    (hinj : ∀ e1 ∈ T, ∀ e2 ∈ T, e1.2 = e2.2 → e1.1 = e2.1) :
    (T.map Prod.snd).Nodup := by
  induction T with
  | nil => exact List.nodup_nil
  | cons e rest ih =>
    rw [List.map_cons, List.nodup_cons] at hnd ⊢
    refine ⟨?_, ih hnd.2 (fun e1 h1 e2 h2 =>
      hinj e1 (List.mem_cons_of_mem _ h1) e2 (List.mem_cons_of_mem _ h2))⟩
    intro hmem
    rcases List.mem_map.mp hmem with ⟨f, hf, hfe⟩
    have heq := hinj e (List.mem_cons_self _ _) f
      (List.mem_cons_of_mem _ hf) hfe.symm
    refine hnd.1 ?_
    rw [heq]
    exact List.mem_map_of_mem Prod.fst hf

theorem inverse_of_clean {p : List String}
    {R : List (String × ResourceState)} {T : StateTransform}
    (hT : CleanTransform p R T) :
    StateTransform.Inverse T = some (T.map fun e => (e.2, e.1)) := by
  obtain ⟨-, hnd, hinj, hcanon, -⟩ := hT
  unfold StateTransform.Inverse
  rw [invGo_ok T [] ?h1 (values_nodup hnd hinj) ?h3]
  · rw [List.nil_append]
  case h1 =>
    intro e he
    obtain ⟨k2, hk2, -⟩ := (hcanon e he).2
    exact addrKey_ok_ne_empty hk2
  case h3 =>
    intro e _ f hf
    cases hf

theorem lookupMapping_nonroot {T : StateTransform} {a : String}
    (h : hasPfx a rootPfx = false) : lookupMapping T a = T.lookup a := by
  unfold lookupMapping
  rcases hl : T.lookup a with _ | v <;> simp [hl, h]

theorem lookup_none_of_ne {T : StateTransform} {x : String}
    (h : ∀ e ∈ T, e.1 ≠ x) : T.lookup x = none := by
  induction T with
  | nil => rfl
  | cons e rest ih =>
    rcases hxe : x == e.1 with _ | _
    · simp only [List.lookup, hxe]
      exact ih fun f hf => h f (List.mem_cons_of_mem _ hf)
    · exact absurd (eq_of_beq hxe).symm (h e (List.mem_cons_self _ _))

/-- When the root-stripped probe misses the transform, step 2's lookup is
the plain transform lookup. -/
theorem lookupMapping_clean {T : StateTransform} {a : String}
    (h : probeMiss T a) : lookupMapping T a = T.lookup a := by
  unfold lookupMapping
  rcases hl : T.lookup a with _ | v <;> simp only [hl]
  rcases hr : hasPfx a rootPfx with _ | _
  · rw [if_neg (by decide)]
  · rw [if_pos rfl]
    exact lookup_none_of_ne fun e he => (h hr e he).1

theorem probeMiss_inv {T : StateTransform} {x : String}
    (h : probeMiss T x) : probeMiss (T.map fun e => (e.2, e.1)) x := by
  intro hr f hf
  rcases List.mem_map.mp hf with ⟨e, he, rfl⟩
  exact ⟨(h hr e he).2, (h hr e he).1⟩

theorem mapped_canon {p : List String}
    {R : List (String × ResourceState)} {T : StateTransform}
    (hT : CleanTransform p R T) {a v : String}
    (hv : T.lookup a = some v) :
    ∃ kv, addressToStateKey v = .ok (p, kv) ∧
      stateKeyToAddress p kv = .ok v ∧ probeMiss T v ∧
      normalizeDest v = v ∧ v ≠ "" := by
  have hmem : (a, v) ∈ T := mem_of_lookup hv
  obtain ⟨kv, hkv, hrv⟩ := (hT.2.2.2.1 (a, v) hmem).2
  refine ⟨kv, hkv, hrv, (hT.2.2.2.2.2.2 (a, v) hmem).2, ?_,
    addrKey_ok_ne_empty hkv⟩
  unfold normalizeDest
  rw [if_pos (stateKeyToAddress_hasPfx hrv)]

theorem renAddr_mapped {T : StateTransform} {p : List String}
    {k a v : String} (ha : stateKeyToAddress p k = .ok a)
    (hv : T.lookup a = some v) :
    renAddr T p k = normalizeDest v := by
  unfold renAddr
  simp only [ha, hv]

theorem renAddr_unmapped {T : StateTransform} {p : List String}
    {k a : String} (ha : stateKeyToAddress p k = .ok a)
    (hv : T.lookup a = none) :
    renAddr T p k = a := by
  unfold renAddr
  simp only [ha, hv]

theorem renKey_mapped {T : StateTransform} {p : List String}
    {k a v : String} {pr : List String × String}
    (ha : stateKeyToAddress p k = .ok a) (hv : T.lookup a = some v)
    (hpr : addressToStateKey v = .ok pr) :
    renKey T p k = pr.2 := by
  unfold renKey
  simp only [ha, hv, hpr]

theorem renKey_unmapped {T : StateTransform} {p : List String}
    {k a : String} (ha : stateKeyToAddress p k = .ok a)
    (hv : T.lookup a = none) :
    renKey T p k = k := by
  unfold renKey
  simp only [ha, hv]

theorem graph_canon {p : List String} {R : List (String × ResourceState)}
    (hG : CleanGraph p R) {k : String} (hk : k ∈ R.map Prod.fst) :
    ∃ a, stateKeyToAddress p k = .ok a ∧
      addressToStateKey a = .ok (p, k) := by
  rcases List.mem_map.mp hk with ⟨e, he, hke⟩
  obtain ⟨a, h1, h2⟩ := hG.2.1 e he
  rw [hke] at h1 h2
  exact ⟨a, h1, h2⟩

theorem noRepl_lookup {p : List String} {R : List (String × ResourceState)}
    {T : StateTransform} (hT : CleanTransform p R T)
    {k : String} {e : String × String}
    (hk : k ∈ R.map Prod.fst) (he : e ∈ T)
    (hrender : stateKeyToAddress p k = .ok e.2) :
    ∃ w, T.lookup e.2 = some w := by
  rcases List.mem_map.mp hk with ⟨e', he', hke⟩
  obtain ⟨e0, he0, he0v⟩ :=
    hT.2.2.2.2.1 e he e' he' (by rw [hke]; exact hrender)
  have hmem : (e.2, e0.2) ∈ T := by
    rw [← he0v]
    exact he0
  exact lookup_mem_isSome hmem

theorem renAddr_inj {p : List String} {R : List (String × ResourceState)}
    {T : StateTransform} (hG : CleanGraph p R) (hT : CleanTransform p R T)
    {k1 k2 : String} (h1 : k1 ∈ R.map Prod.fst) (h2 : k2 ∈ R.map Prod.fst)
    (h : renAddr T p k1 = renAddr T p k2) : k1 = k2 := by
  obtain ⟨a1, hr1, hb1⟩ := graph_canon hG h1
  obtain ⟨a2, hr2, hb2⟩ := graph_canon hG h2
  rcases hl1 : T.lookup a1 with _ | v1 <;>
    rcases hl2 : T.lookup a2 with _ | v2
  · rw [renAddr_unmapped hr1 hl1, renAddr_unmapped hr2 hl2] at h
    subst h
    rw [hb1] at hb2
    injection hb2 with hb2
    injection hb2 with hbp hbk
  · obtain ⟨kv2, hkv2, hrv2, -, hnorm2, -⟩ := mapped_canon hT hl2
    rw [renAddr_unmapped hr1 hl1, renAddr_mapped hr2 hl2, hnorm2] at h
    rw [h] at hr1
    obtain ⟨w, hw⟩ := noRepl_lookup hT h1 (mem_of_lookup hl2) hr1
    rw [← h, hl1] at hw
    cases hw
  · obtain ⟨kv1, hkv1, hrv1, -, hnorm1, -⟩ := mapped_canon hT hl1
    rw [renAddr_mapped hr1 hl1, renAddr_unmapped hr2 hl2, hnorm1] at h
    rw [← h] at hr2
    obtain ⟨w, hw⟩ := noRepl_lookup hT h2 (mem_of_lookup hl1) hr2
    rw [h, hl2] at hw
    cases hw
  · obtain ⟨kv1, hkv1, hrv1, -, hnorm1, -⟩ := mapped_canon hT hl1
    obtain ⟨kv2, hkv2, hrv2, -, hnorm2, -⟩ := mapped_canon hT hl2
    rw [renAddr_mapped hr1 hl1, renAddr_mapped hr2 hl2, hnorm1, hnorm2] at h
    have hinjT := hT.2.2.1 (a1, v1) (mem_of_lookup hl1) (a2, v2)
      (mem_of_lookup hl2) h
    dsimp only at hinjT
    subst hinjT
    rw [hb1] at hb2
    injection hb2 with hb2
    injection hb2 with hbp hbk

theorem renKey_inj {p : List String} {R : List (String × ResourceState)}
    {T : StateTransform} (hG : CleanGraph p R) (hT : CleanTransform p R T)
    {k1 k2 : String} (h1 : k1 ∈ R.map Prod.fst) (h2 : k2 ∈ R.map Prod.fst)
    (h : renKey T p k1 = renKey T p k2) : k1 = k2 := by
  obtain ⟨a1, hr1, hb1⟩ := graph_canon hG h1
  obtain ⟨a2, hr2, hb2⟩ := graph_canon hG h2
  rcases hl1 : T.lookup a1 with _ | v1 <;>
    rcases hl2 : T.lookup a2 with _ | v2
  · rw [renKey_unmapped hr1 hl1, renKey_unmapped hr2 hl2] at h
    exact h
  · obtain ⟨kv2, hkv2, hrv2, -, -, -⟩ := mapped_canon hT hl2
    rw [renKey_unmapped hr1 hl1, renKey_mapped hr2 hl2 hkv2] at h
    dsimp only at h
    rw [← h] at hrv2
    rw [hr1] at hrv2
    injection hrv2 with hrv2
    rw [hrv2] at hr1
    obtain ⟨w, hw⟩ := noRepl_lookup hT h1 (mem_of_lookup hl2) hr1
    rw [← hrv2, hl1] at hw
    cases hw
  · obtain ⟨kv1, hkv1, hrv1, -, -, -⟩ := mapped_canon hT hl1
    rw [renKey_mapped hr1 hl1 hkv1, renKey_unmapped hr2 hl2] at h
    dsimp only at h
    rw [h] at hrv1
    rw [hr2] at hrv1
    injection hrv1 with hrv1
    rw [hrv1] at hr2
    obtain ⟨w, hw⟩ := noRepl_lookup hT h2 (mem_of_lookup hl1) hr2
    rw [← hrv1, hl2] at hw
    cases hw
  · obtain ⟨kv1, hkv1, hrv1, -, -, -⟩ := mapped_canon hT hl1
    obtain ⟨kv2, hkv2, hrv2, -, -, -⟩ := mapped_canon hT hl2
    rw [renKey_mapped hr1 hl1 hkv1, renKey_mapped hr2 hl2 hkv2] at h
    dsimp only at h
    rw [h] at hrv1
    rw [hrv2] at hrv1
    injection hrv1 with hrv1
    have hinjT := hT.2.2.1 (a1, v1) (mem_of_lookup hl1) (a2, v2)
      (mem_of_lookup hl2) hrv1.symm
    dsimp only at hinjT
    subst hinjT
    rw [hb1] at hb2
    injection hb2 with hb2
    injection hb2 with hbp hbk

theorem renKey_ne_empty {p : List String} {R : List (String × ResourceState)}
    {T : StateTransform} (hG : CleanGraph p R) (hT : CleanTransform p R T)
    {k : String} (hk : k ∈ R.map Prod.fst) : renKey T p k ≠ "" := by
  obtain ⟨a, hr, hb⟩ := graph_canon hG hk
  rcases hl : T.lookup a with _ | v
  · rw [renKey_unmapped hr hl]
    exact render_ok_ne_empty hr
  · obtain ⟨kv, hkv, hrv, -, -, -⟩ := mapped_canon hT hl
    rw [renKey_mapped hr hl hkv]
    exact render_ok_ne_empty hrv

theorem renKey_round {p : List String} {R : List (String × ResourceState)}
    {T : StateTransform} (hG : CleanGraph p R) (hT : CleanTransform p R T)
    {k : String} (hk : k ∈ R.map Prod.fst) :
    renKey (T.map fun e => (e.2, e.1)) p (renKey T p k) = k := by
  obtain ⟨a, hr, hb⟩ := graph_canon hG hk
  rcases hl : T.lookup a with _ | v
  · rw [renKey_unmapped hr hl]
    rcases hl' : (T.map fun e => (e.2, e.1)).lookup a with _ | w
    · exact renKey_unmapped hr hl'
    · exfalso
      have hmem := mem_of_lookup hl'
      rcases List.mem_map.mp hmem with ⟨e0, he0, heq⟩
      injection heq with heq1 heq2
      obtain ⟨w', hw'⟩ := noRepl_lookup hT hk he0 (by rw [heq1]; exact hr)
      rw [heq1, hl] at hw'
      cases hw'
  · obtain ⟨kv, hkv, hrv, -, -, -⟩ := mapped_canon hT hl
    rw [renKey_mapped hr hl hkv]
    have hmemInv : (v, a) ∈ T.map fun e => (e.2, e.1) :=
      List.mem_map.mpr ⟨(a, v), mem_of_lookup hl, rfl⟩
    have hndInv : ((T.map fun e => (e.2, e.1)).map Prod.fst).Nodup := by
      rw [List.map_map]
      exact values_nodup hT.2.1 hT.2.2.1
    have hlookInv : (T.map fun e => (e.2, e.1)).lookup v = some a :=
      lookup_eq_of_mem_nodup hndInv hmemInv
    rw [renKey_mapped hrv hlookInv hb]

theorem mmgo_preserve (nodes : List Node) (d : String) :
    ∀ (ids : List Nat) (acc : List (String × Nat)),
    (∀ j' ∈ ids, ∀ n', nodes[j']? = some n' → n'.key ≠ d) →
    (ids.foldl (fun acc j =>
      match nodes[j]? with
      | some n => tmInsert acc n.key j
      | none => acc) acc).lookup d = acc.lookup d := by
  intro ids
  induction ids with
  | nil =>
    intro acc _
    rfl
  | cons t rest ih =>
    intro acc hne
    rw [List.foldl_cons]
    rcases hn : nodes[t]? with _ | n <;> simp only [hn]
    · exact ih _ (fun j' hj' => hne j' (List.mem_cons_of_mem _ hj'))
    · rw [ih _ (fun j' hj' => hne j' (List.mem_cons_of_mem _ hj')),
        tmInsert_lookup_ne _ _ _ _
          (fun hdd => hne t (List.mem_cons_self _ _) n hn hdd.symm)]

theorem mmgo_lookup (nodes : List Node) {d : String} {j : Nat} {n : Node}
    (hn : nodes[j]? = some n) (hkey : n.key = d) :
    ∀ (ids : List Nat) (acc : List (String × Nat)), ids.Nodup → j ∈ ids →
    (∀ j' ∈ ids, ∀ n', nodes[j']? = some n' → n'.key = d → j' = j) →
    (ids.foldl (fun acc t =>
      match nodes[t]? with
      | some n => tmInsert acc n.key t
      | none => acc) acc).lookup d = some j := by
  intro ids
  induction ids with
  | nil =>
    intro acc _ hj
    cases hj
  | cons t rest ih =>
    intro acc hnd hj huniq
    rw [List.foldl_cons]
    rw [List.nodup_cons] at hnd
    by_cases htj : t = j
    · subst htj
      simp only [hn]
      rw [mmgo_preserve nodes d rest _ ?hpres]
      case hpres =>
        intro j' hj' n' hn' hk'
        have hjj := huniq j' (List.mem_cons_of_mem _ hj') n' hn' hk'
        exact hnd.1 (hjj ▸ hj')
      rw [hkey]
      exact tmInsert_lookup_self _ _ _
    · have hjr : j ∈ rest := by
        rcases List.mem_cons.mp hj with h | h
        · exact absurd h.symm htj
        · exact h
      rcases hnt : nodes[t]? with _ | nt <;> simp only [hnt] <;>
        exact ih _ hnd.2 hjr
          (fun j'' hj'' => huniq j'' (List.mem_cons_of_mem _ hj''))

theorem foldlNU_exact (g : Node → Node) :
    ∀ (ids : List Nat) (cur : List Node), ids.Nodup →
    ∀ (j : Nat) (n : Node), j ∈ ids → cur[j]? = some n →
    (ids.foldl (fun acc t => nodeUpdate acc t g) cur)[j]? = some (g n) := by
  intro ids
  induction ids with
  | nil =>
    intro cur _ j n hj
    cases hj
  | cons t rest ih =>
    intro cur hnd j n hj hcur
    rw [List.foldl_cons]
    rw [List.nodup_cons] at hnd
    by_cases htj : t = j
    · subst htj
      rw [foldlNU_untouched g rest _ _ hnd.1]
      exact nodeUpdate_getElem_self g hcur
    · rcases List.mem_cons.mp hj with h | h
      · exact absurd h.symm htj
      · refine ih _ hnd.2 j n h ?_
        rw [nodeUpdate_getElem_ne _ _ _ _ (fun hh => htj hh.symm)]
        exact hcur

theorem phase1Res_relabel (mi : Nat) (p : List String) :
    ∀ (RS : List (String × ResourceState)) (acc : List Node),
    (RS.map Prod.fst).Nodup →
    (∀ e ∈ RS, ∃ a, stateKeyToAddress p e.1 = .ok a ∧
      addressToStateKey a = .ok (p, e.1)) →
    (∀ n ∈ acc, ∀ e ∈ RS, ∀ a, stateKeyToAddress p e.1 = .ok a →
      n.addr ≠ a) →
    ∃ nodes, phase1Res mi p RS acc = .ok nodes ∧
      nodes.length = acc.length + RS.length ∧
      (∀ t : Nat, t < acc.length → nodes[t]? = acc[t]?) ∧
      (∀ (j : Nat) (e : String × ResourceState), RS[j]? = some e →
        ∃ a, stateKeyToAddress p e.1 = .ok a ∧
          nodes[acc.length + j]? = some
            { addr := a, key := e.1, repl := none,
              mod := some (ModRef.real mi), res := e.2, deps := [] }) := by
  intro RS
  induction RS with
  | nil =>
    intro acc _ _ _
    refine ⟨acc, rfl, by simp, fun t _ => rfl, fun j e hj => ?_⟩
    cases hj
  | cons e rest ih =>
    rcases e with ⟨k, r⟩
    intro acc hnd hcanon hfresh
    obtain ⟨a, ha, hba⟩ := hcanon (k, r) (List.mem_cons_self _ _)
    rw [List.map_cons, List.nodup_cons] at hnd
    have hany : acc.any (fun n => n.addr = a) = false := by
      rw [List.any_eq_false]
      intro n hn
      simp only [decide_eq_true_eq]
      exact hfresh n hn (k, r) (List.mem_cons_self _ _) a ha
    obtain ⟨nn, hnn⟩ : ∃ nn : Node, nn =
        { addr := a, key := k, repl := none
          mod := some (ModRef.real mi), res := r, deps := [] } := ⟨_, rfl⟩
    have hnaddr : nn.addr = a := by rw [hnn]
    have hfresh' : ∀ n ∈ acc ++ [nn],
        ∀ e' ∈ rest, ∀ a', stateKeyToAddress p e'.1 = .ok a' →
        n.addr ≠ a' := by
      intro n hn e' he' a' ha'
      rcases List.mem_append.mp hn with hn | hn
      · exact hfresh n hn e' (List.mem_cons_of_mem _ he') a' ha'
      · rcases List.mem_singleton.mp hn with rfl
        rw [hnaddr]
        intro haa
        obtain ⟨a2, ha2, hba2⟩ := hcanon e' (List.mem_cons_of_mem _ he')
        rw [ha2] at ha'
        injection ha' with ha'
        rw [haa, ← ha'] at hba
        rw [hba2] at hba
        injection hba with hba
        injection hba with hbap hbak
        apply hnd.1
        rw [← hbak]
        exact List.mem_map_of_mem Prod.fst he'
    obtain ⟨nodes, hrun, hlen, hpre, hspec⟩ := ih _ hnd.2
      (fun e' he' => hcanon e' (List.mem_cons_of_mem _ he')) hfresh'
    refine ⟨nodes, ?_, ?_, ?_, ?_⟩
    · rw [phase1Res, ha]
      simp only [hany, Bool.false_eq_true, if_false]
      rw [← hnn]
      exact hrun
    · rw [hlen]
      simp only [List.length_append, List.length_cons, List.length_nil]
      omega
    · intro t ht
      rw [hpre t (by simp only [List.length_append, List.length_cons,
        List.length_nil]; omega)]
      exact List.getElem?_append_left ht
    · intro j e' hj
      cases j with
      | zero =>
        rw [List.getElem?_cons_zero] at hj
        injection hj with hj
        subst hj
        refine ⟨a, ha, ?_⟩
        rw [Nat.add_zero, hpre acc.length (by simp only [List.length_append,
          List.length_cons, List.length_nil]; omega)]
        rw [List.getElem?_append_right (Nat.le_refl _)]
        simp only [Nat.sub_self, List.getElem?_cons_zero, hnn]
      | succ m =>
        rw [List.getElem?_cons_succ] at hj
        obtain ⟨a', ha', hspec'⟩ := hspec m e' hj
        refine ⟨a', ha', ?_⟩
        rw [show acc.length + (m + 1) = (acc ++ [nn]).length + m by
          simp only [List.length_append, List.length_cons,
            List.length_nil]; omega]
        exact hspec'

theorem phase1_relabel (p : List String) (R : List (String × ResourceState))
    (hWF : (R.map Prod.fst).Nodup)
    (hcanon : ∀ e ∈ R, ∃ a, stateKeyToAddress p e.1 = .ok a ∧
      addressToStateKey a = .ok (p, e.1))
    (hdeps : ∀ e ∈ R, ∀ d ∈ e.2.dependencies, ∃ r', (d, r') ∈ R) :
    ∃ nodes, phase1 (singleMod p R) = .ok nodes ∧
      nodes.length = R.length ∧
      ∀ (j : Nat) (e : String × ResourceState), R[j]? = some e →
        ∃ a dl, nodes[j]? = some
            { addr := a, key := e.1, repl := none,
              mod := some (ModRef.real 0), res := e.2, deps := dl } ∧
          stateKeyToAddress p e.1 = .ok a ∧
          dl.length = e.2.dependencies.length ∧
          (∀ (i : Nat) (d : String), e.2.dependencies[i]? = some d →
            ∃ t r', dl[i]? = some (some t) ∧ R[t]? = some (d, r')) := by
  obtain ⟨nodes0, hrun0, hlen0, -, hspec0⟩ :=
    phase1Res_relabel 0 p R [] hWF hcanon
      (fun n hn => absurd hn (List.not_mem_nil n))
  rw [List.length_nil, Nat.zero_add] at hlen0
  simp only [List.length_nil, Nat.zero_add] at hspec0
  have hphase : phase1 (singleMod p R) =
      .ok (resolveDeps nodes0 (List.range nodes0.length)) := by
    show phase1Go 0 [{ path := p, resources := R }] [] = _
    simp only [phase1Go, List.length_nil, hrun0, Except.bind, bind,
      Nat.sub_zero]
    rw [← List.range_eq_range']
  refine ⟨_, hphase, ?_, ?_⟩
  · rw [resolveDeps_eq, foldlNU_len, hlen0]
  · intro j e hj
    have hjlt : j < R.length := getElem?_lt_length hj
    obtain ⟨a, ha, hn0⟩ := hspec0 j e hj
    rw [resolveDeps_eq]
    have hnode := foldlNU_exact (fun n =>
        { n with deps := n.res.dependencies.map fun d =>
            (moduleMapOf nodes0 (List.range nodes0.length)).lookup d })
      (List.range nodes0.length) nodes0
      (List.nodup_range _) j _ (List.mem_range.mpr (by omega)) hn0
    refine ⟨a, _, hnode, ha, ?_, ?_⟩
    · exact List.length_map _ _
    · intro i d hi
      have hdmem : d ∈ e.2.dependencies := mem_of_getElem? hi
      obtain ⟨r', hmem⟩ := hdeps e (mem_of_getElem? hj) d hdmem
      obtain ⟨t, ht⟩ := getElem?_of_mem hmem
      obtain ⟨at2, hat, hnt⟩ := hspec0 t (d, r') ht
      have htlt : t < R.length := getElem?_lt_length ht
      have hmm : (moduleMapOf nodes0
          (List.range nodes0.length)).lookup d = some t := by
        rw [moduleMapOf_eq]
        refine mmgo_lookup nodes0 hnt rfl (List.range nodes0.length) []
          (List.nodup_range _) (List.mem_range.mpr (by omega)) ?_
        intro j' hj' n' hn' hk'
        rw [List.mem_range] at hj'
        rcases hre : R[j']? with _ | e'
        · rw [List.getElem?_eq_none_iff] at hre
          omega
        · obtain ⟨a', ha', hn''⟩ := hspec0 j' e' hre
          rw [hn''] at hn'
          injection hn' with hn'
          rw [← hn'] at hk'
          dsimp only at hk'
          refine @nodup_getElem?_inj String (R.map Prod.fst) j' t d hWF
            ?_ ?_
          · rw [List.getElem?_map, hre]
            dsimp only [Option.map]
            rw [hk']
          · rw [List.getElem?_map, ht]
            rfl
      dsimp only
      rw [List.getElem?_map, hi]
      dsimp only [Option.map]
      rw [hmm]
      exact ⟨t, r', rfl, ht⟩

theorem phase2Go_relabel (st : StateTransform) :
    ∀ (ids : List Nat) (nodes : List Node) (tm : List (String × Nat))
      (F : Nat → String) (M : Nat → Bool),
    ids.Nodup →
    (∀ j1 ∈ ids, ∀ j2 ∈ ids, F j1 = F j2 → j1 = j2) →
    (∀ j ∈ ids, tm.lookup (F j) = none) →
    (∀ j ∈ ids, ∃ n, nodes[j]? = some n ∧
      ((M j = true ∧ ∃ v, lookupMapping st n.addr = some v ∧ v ≠ "" ∧
          normalizeDest v = F j) ∨
        (M j = false ∧ lookupMapping st n.addr = none ∧ n.addr = F j))) →
    ∃ nodes',
      phase2Go st ids nodes tm =
        .ok (nodes', tm ++ ids.map fun j => (F j, j)) ∧
      nodes'.length = nodes.length ∧
      (∀ t : Nat, t ∉ ids → nodes'[t]? = nodes[t]?) ∧
      (∀ j ∈ ids, ∀ n, nodes[j]? = some n →
        nodes'[j]? = some (if M j then { n with addr := F j, key := "" }
          else n)) := by
  intro ids
  induction ids with
  | nil =>
    intro nodes tm F M _ _ _ _
    exact ⟨nodes, by rw [List.map_nil, List.append_nil]; rfl, rfl,
      fun t _ => rfl, fun j hj => absurd hj (List.not_mem_nil j)⟩
  | cons j rest ih =>
    intro nodes tm F M hnd hFinj htm hnodes
    rw [List.nodup_cons] at hnd
    obtain ⟨n, hn, hcase⟩ := hnodes j (List.mem_cons_self _ _)
    have hFne : ∀ j' ∈ rest, F j' ≠ F j := by
      intro j' hj' hFF
      exact hnd.1 ((hFinj j' (List.mem_cons_of_mem _ hj') j
        (List.mem_cons_self _ _) hFF) ▸ hj')
    rcases hcase with ⟨hM, v, hLM, hv, hnv⟩ | ⟨hM, hLM, haddr⟩
    · have htmj : tm.lookup (normalizeDest v) = none := by
        rw [hnv]
        exact htm j (List.mem_cons_self _ _)
      have hins : tmInsert tm (normalizeDest v) j = tm ++ [(F j, j)] := by
        rw [tmInsert_fresh _ _ _ htmj, hnv]
      obtain ⟨nodes', hrun, hlen, hunt, hupd⟩ := ih
        (nodeUpdate nodes j fun n =>
          { n with addr := normalizeDest v, key := "" })
        (tm ++ [(F j, j)]) F M hnd.2
        (fun j1 h1 j2 h2 => hFinj j1 (List.mem_cons_of_mem _ h1) j2
          (List.mem_cons_of_mem _ h2))
        (fun j' hj' => by
          rw [lookup_append_none _ (htm j' (List.mem_cons_of_mem _ hj')),
            lookup_singleton_ne _ (hFne j' hj')])
        (fun j' hj' => by
          obtain ⟨n', hn', hc'⟩ := hnodes j' (List.mem_cons_of_mem _ hj')
          have hne : j' ≠ j := fun h => hnd.1 (h ▸ hj')
          exact ⟨n', by rw [nodeUpdate_getElem_ne _ _ _ _ hne]; exact hn',
            hc'⟩)
      refine ⟨nodes', ?_, ?_, ?_, ?_⟩
      · simp only [phase2Go, hn, hLM, if_neg hv, htmj, hins]
        rw [hrun, List.map_cons]
        simp only [List.append_nil, List.append_assoc,
          List.singleton_append]
      · rw [hlen, nodeUpdate_length]
      · intro t ht
        rw [List.mem_cons, not_or] at ht
        rw [hunt t ht.2, nodeUpdate_getElem_ne _ _ _ _ ht.1]
      · intro j' hj' n2 hn2
        rcases List.mem_cons.mp hj' with rfl | hj'
        · rw [hn] at hn2
          injection hn2 with hn2
          rw [if_pos hM, hunt j' hnd.1,
            nodeUpdate_getElem_self _ hn, hnv, hn2]
        · have hne : j' ≠ j := fun h => hnd.1 (h ▸ hj')
          exact hupd j' hj' n2
            (by rw [nodeUpdate_getElem_ne _ _ _ _ hne]; exact hn2)
    · have htmj : tm.lookup n.addr = none := by
        rw [haddr]
        exact htm j (List.mem_cons_self _ _)
      have hins : tmInsert tm n.addr j = tm ++ [(F j, j)] := by
        rw [tmInsert_fresh _ _ _ htmj, haddr]
      obtain ⟨nodes', hrun, hlen, hunt, hupd⟩ := ih nodes
        (tm ++ [(F j, j)]) F M hnd.2
        (fun j1 h1 j2 h2 => hFinj j1 (List.mem_cons_of_mem _ h1) j2
          (List.mem_cons_of_mem _ h2))
        (fun j' hj' => by
          rw [lookup_append_none _ (htm j' (List.mem_cons_of_mem _ hj')),
            lookup_singleton_ne _ (hFne j' hj')])
        (fun j' hj' => hnodes j' (List.mem_cons_of_mem _ hj'))
      refine ⟨nodes', ?_, hlen, ?_, ?_⟩
      · simp only [phase2Go, hn, hLM, htmj, hins]
        rw [hrun, List.map_cons]
        simp only [List.append_nil, List.append_assoc,
          List.singleton_append]
      · intro t ht
        rw [List.mem_cons, not_or] at ht
        exact hunt t ht.2
      · intro j' hj' n2 hn2
        rcases List.mem_cons.mp hj' with rfl | hj'
        · rw [hn] at hn2
          injection hn2 with hn2
          rw [hunt j' hnd.1, hn, hn2]
          simp only [hM, Bool.false_eq_true, if_false]
        · exact hupd j' hj' n2 hn2

theorem map_id_on {α : Type} : ∀ (l : List α) (f : α → α),
    (∀ a ∈ l, f a = a) → l.map f = l := by
  intro l f h
  induction l with
  | nil => rfl
  | cons x xs ih =>
    rw [List.map_cons, h x (List.mem_cons_self _ _),
      ih (fun a ha => h a (List.mem_cons_of_mem _ ha))]

theorem nodeUpdate_id (nodes : List Node) (i : Nat) (f : Node → Node)
    (h : ∀ n, nodes[i]? = some n → f n = n) :
    nodeUpdate nodes i f = nodes := by
  unfold nodeUpdate
  rcases hn : nodes[i]? with _ | n
  · rfl
  · show nodes.set i (f n) = nodes
    rw [h n hn]
    exact set_of_getElem? _ _ _ hn

theorem phase3Go_relabel (s : TfState) (mi : Nat) :
    ∀ (ids : List Nat) (nodes : List Node) (tmps : List (List String))
      (F K : Nat → String),
    ids.Nodup →
    (∀ (t : Nat) (n : Node), nodes[t]? = some n → n.repl = none) →
    (∀ (t : Nat) (n : Node), nodes[t]? = some n → ∀ d ∈ n.deps,
      ∀ u : Nat, d = some u → u < nodes.length) →
    (∀ j ∈ ids, ∃ n, nodes[j]? = some n ∧ n.addr = F j ∧
      n.mod = some (ModRef.real mi) ∧
      ((n.key = "" ∧ ∃ q, addressToStateKey (F j) = .ok (q, K j) ∧
          moduleIdxByPath s q = some mi) ∨
        (n.key = K j ∧ K j ≠ ""))) →
    ∃ nodes',
      phase3Go s (ids.map fun j => (F j, j)) nodes tmps =
        .ok (nodes', tmps) ∧
      nodes'.length = nodes.length ∧
      (∀ (t : Nat) (n : Node), nodes'[t]? = some n → n.repl = none) ∧
      (∀ t : Nat, t ∉ ids → nodes'[t]? = nodes[t]?) ∧
      (∀ j ∈ ids, ∀ n, nodes[j]? = some n →
        nodes'[j]? = some
          { n with key := K j, mod := some (ModRef.real mi) }) := by
  intro ids
  induction ids with
  | nil =>
    intro nodes tmps F K _ hrepl _ _
    exact ⟨nodes, rfl, rfl, hrepl, fun t _ => rfl,
      fun j hj => absurd hj (List.not_mem_nil j)⟩
  | cons j rest ih =>
    intro nodes tmps F K hnd hrepl hdr hnodes
    rw [List.nodup_cons] at hnd
    obtain ⟨n, hn, haddr, hmod, hkcase⟩ := hnodes j (List.mem_cons_self _ _)
    rcases hkcase with ⟨hk, q, hparse, hmip⟩ | ⟨hkeq, hKne⟩
    · obtain ⟨n1eq, hn1⟩ : ∃ nodes1, nodes1 =
          nodeUpdate nodes j fun nn =>
            { nn with key := K j, mod := some (ModRef.real mi) } :=
        ⟨_, rfl⟩
      have hn1j : n1eq[j]? = some
          { n with key := K j, mod := some (ModRef.real mi) } := by
        rw [hn1]
        exact nodeUpdate_getElem_self _ hn
      have hlen1 : n1eq.length = nodes.length := by
        rw [hn1, nodeUpdate_length]
      have hrepl1 : ∀ (t : Nat) (nx : Node), n1eq[t]? = some nx →
          nx.repl = none := by
        intro t nx hx
        by_cases htj : t = j
        · subst htj
          rw [hn1j] at hx
          injection hx with hx
          rw [← hx]
          exact hrepl _ n hn
        · rw [hn1, nodeUpdate_getElem_ne _ _ _ _ htj] at hx
          exact hrepl t nx hx
      have hdr1 : ∀ (t : Nat) (nx : Node), n1eq[t]? = some nx →
          ∀ d ∈ nx.deps, ∀ u : Nat, d = some u → u < n1eq.length := by
        intro t nx hx d hd u hu
        rw [hlen1]
        by_cases htj : t = j
        · subst htj
          rw [hn1j] at hx
          injection hx with hx
          rw [← hx] at hd
          exact hdr _ n hn d hd u hu
        · rw [hn1, nodeUpdate_getElem_ne _ _ _ _ htj] at hx
          exact hdr t nx hx d hd u hu
      have hrest : ∀ j' ∈ rest, ∃ n', n1eq[j']? = some n' ∧
          n'.addr = F j' ∧ n'.mod = some (ModRef.real mi) ∧
          ((n'.key = "" ∧ ∃ q', addressToStateKey (F j') = .ok (q', K j') ∧
              moduleIdxByPath s q' = some mi) ∨
            (n'.key = K j' ∧ K j' ≠ "")) := by
        intro j' hj'
        obtain ⟨n', hn', ha', hm', hc'⟩ :=
          hnodes j' (List.mem_cons_of_mem _ hj')
        have hne : j' ≠ j := fun h => hnd.1 (h ▸ hj')
        refine ⟨n', ?_, ha', hm', hc'⟩
        rw [hn1, nodeUpdate_getElem_ne _ _ _ _ hne]
        exact hn'
      obtain ⟨nodes', hrun, hlen, hrepl', hunt, hupd⟩ :=
        ih n1eq tmps F K hnd.2 hrepl1 hdr1 hrest
      refine ⟨nodes', ?_, ?_, hrepl', ?_, ?_⟩
      · rw [List.map_cons]
        simp only [phase3Go, hn, if_pos hk, haddr, hparse, hmip,
          Except.bind, bind, pure, Except.pure]
        rw [← hn1]
        refine Eq.trans (congrArg (fun nds => phase3Go s
          (rest.map fun j => (F j, j)) nds tmps) ?_) hrun
        apply nodeUpdate_id
        intro nx hx
        rw [hn1j] at hx
        injection hx with hx
        dsimp only
        refine Eq.trans (congrArg (fun ds =>
          ({ nx with deps := ds } : Node)) ?_) rfl
        apply map_id_on
        intro d hd
        rcases d with _ | did
        · rfl
        · have hlt : did < n1eq.length := by
            rw [← hx] at hd
            exact hdr1 j _ hn1j (some did) hd did rfl
          rcases hdn : n1eq[did]? with _ | dn
          · rw [List.getElem?_eq_none_iff] at hdn
            omega
          · simp only [hdn, hrepl1 did dn hdn]
      · rw [hlen, hlen1]
      · intro t ht
        rw [List.mem_cons, not_or] at ht
        rw [hunt t ht.2, hn1, nodeUpdate_getElem_ne _ _ _ _ ht.1]
      · intro j' hj' nx hx
        rcases List.mem_cons.mp hj' with rfl | hj'
        · rw [hn] at hx
          injection hx with hx
          rw [hunt j' hnd.1, hn1j, hx]
        · have hne : j' ≠ j := fun h => hnd.1 (h ▸ hj')
          exact hupd j' hj' nx
            (by rw [hn1, nodeUpdate_getElem_ne _ _ _ _ hne]; exact hx)
    · have hkne : ¬(n.key = "") := by
        rw [hkeq]
        exact hKne
      obtain ⟨nodes', hrun, hlen, hrepl', hunt, hupd⟩ := ih nodes tmps F K
        hnd.2 hrepl hdr
        (fun j' hj' => hnodes j' (List.mem_cons_of_mem _ hj'))
      refine ⟨nodes', ?_, hlen, hrepl', ?_, ?_⟩
      · rw [List.map_cons]
        simp only [phase3Go, hn, if_neg hkne, Except.bind, bind, pure,
          Except.pure]
        refine Eq.trans (congrArg (fun nds => phase3Go s
          (rest.map fun j => (F j, j)) nds tmps) ?_) hrun
        apply nodeUpdate_id
        intro nx hx
        rw [hn] at hx
        injection hx with hx
        dsimp only
        refine Eq.trans (congrArg (fun ds =>
          ({ nx with deps := ds } : Node)) ?_) rfl
        apply map_id_on
        intro d hd
        rcases d with _ | did
        · rfl
        · have hlt : did < nodes.length := by
            rw [← hx] at hd
            exact hdr j _ hn (some did) hd did rfl
          rcases hdn : nodes[did]? with _ | dn
          · rw [List.getElem?_eq_none_iff] at hdn
            omega
          · simp only [hdn, hrepl did dn hdn]
      · intro t ht
        rw [List.mem_cons, not_or] at ht
        exact hunt t ht.2
      · intro j' hj' nx hx
        rcases List.mem_cons.mp hj' with rfl | hj'
        · rw [hn] at hx
          injection hx with hx
          subst hx
          rw [hunt j' hnd.1, hn, ← hkeq, ← hmod]
        · exact hupd j' hj' nx hx

theorem zip_filterMap_deps (nodes : List Node) (m : Option ModRef)
    (G : String → String) :
    ∀ (deps : List String) (dl : List (Option Nat)),
    dl.length = deps.length →
    (∀ (i : Nat) (d : String), deps[i]? = some d →
      ∃ (t : Nat) (dn : Node), dl[i]? = some (some t) ∧
        nodes[t]? = some dn ∧ dn.mod = m ∧ dn.key = G d) →
    (deps.zip dl).filterMap (fun od =>
      match od.2 with
      | none => some od.1
      | some did =>
        match nodes[did]? with
        | some dn => if dn.mod = m then some dn.key else none
        | none => none) = deps.map G := by
  intro deps
  induction deps with
  | nil =>
    intro dl _ _
    rfl
  | cons d ds ihd =>
    intro dl hlen hspec
    cases dl with
    | nil =>
      rw [List.length_nil, List.length_cons] at hlen
      cases hlen
    | cons o os =>
      obtain ⟨t, dn, ho, hdn, hm, hk⟩ := hspec 0 d
        (by rw [List.getElem?_cons_zero])
      rw [List.getElem?_cons_zero] at ho
      injection ho with ho
      subst ho
      rw [List.zip_cons_cons, List.filterMap_cons, List.map_cons]
      dsimp only
      simp only [hdn]
      rw [if_pos hm, hk]
      rw [ihd os ?hlen2 ?hspec2]
      case hlen2 =>
        rw [List.length_cons, List.length_cons] at hlen
        omega
      case hspec2 =>
        intro i d' hi
        obtain ⟨t', dn', ho', hdn', hm', hk'⟩ := hspec (i + 1) d'
          (by rw [List.getElem?_cons_succ]; exact hi)
        rw [List.getElem?_cons_succ] at ho'
        exact ⟨t', dn', ho', hdn', hm', hk'⟩

theorem phase45Go_relabel (nodes : List Node) (mi : Nat) :
    ∀ (ids : List Nat) (writes : List (ModRef × String × ResourceState))
      (F K : Nat → String) (W : Nat → ResourceState),
    ids.Nodup →
    (∀ j1 ∈ ids, ∀ j2 ∈ ids, K j1 = K j2 → j1 = j2) →
    (∀ w ∈ writes, ∀ j ∈ ids, w.1 = ModRef.real mi → w.2.1 ≠ K j) →
    (∀ j ∈ ids, ∃ n, nodes[j]? = some n ∧ n.mod = some (ModRef.real mi) ∧
      n.key = K j ∧ { n.res with dependencies := newDepsOf nodes n } = W j) →
    phase45Go nodes (ids.map fun j => (F j, j)) writes =
      .ok (writes ++ ids.map fun j => (ModRef.real mi, K j, W j)) := by
  intro ids
  induction ids with
  | nil =>
    intro writes F K W _ _ _ _
    rw [List.map_nil, List.map_nil, List.append_nil]
    rfl
  | cons j rest ih =>
    intro writes F K W hnd hKinj hw hnodes
    rw [List.nodup_cons] at hnd
    obtain ⟨n, hn, hmod, hkey, hres⟩ := hnodes j (List.mem_cons_self _ _)
    have hany : (writes.any fun w =>
        w.1 = ModRef.real mi && w.2.1 = n.key) = false := by
      rw [List.any_eq_false]
      intro w hwmem
      simp only [Bool.and_eq_true, decide_eq_true_eq, not_and]
      intro h1
      rw [hkey]
      exact hw w hwmem j (List.mem_cons_self _ _) h1
    have hw' : ∀ w ∈ writes ++ [(ModRef.real mi, K j, W j)], ∀ j' ∈ rest,
        w.1 = ModRef.real mi → w.2.1 ≠ K j' := by
      intro w hwmem j' hj' h1
      rcases List.mem_append.mp hwmem with hwmem | hwmem
      · exact hw w hwmem j' (List.mem_cons_of_mem _ hj') h1
      · rcases List.mem_singleton.mp hwmem with rfl
        dsimp only
        intro hKK
        exact hnd.1 ((hKinj j (List.mem_cons_self _ _) j'
          (List.mem_cons_of_mem _ hj') hKK) ▸ hj')
    rw [List.map_cons]
    simp only [phase45Go, hn, hmod, hany, Bool.false_eq_true, if_false]
    rw [hkey, hres]
    rw [ih (writes ++ [(ModRef.real mi, K j, W j)]) F K W hnd.2
      (fun j1 h1 j2 h2 => hKinj j1 (List.mem_cons_of_mem _ h1) j2
        (List.mem_cons_of_mem _ h2)) hw'
      (fun j' hj' => hnodes j' (List.mem_cons_of_mem _ hj'))]
    rw [List.map_cons]
    simp only [List.append_assoc, List.singleton_append]

theorem filterMap_real0 :
    ∀ (l : List (ModRef × String × ResourceState)),
    (∀ w ∈ l, w.1 = ModRef.real 0) →
    (l.filterMap fun w =>
      if w.1 = ModRef.real 0 then some w.2 else none) =
      l.map fun w => w.2 := by
  intro l
  induction l with
  | nil => intro _; rfl
  | cons w ws ih =>
    intro h
    rw [List.filterMap_cons, List.map_cons]
    rw [if_pos (h w (List.mem_cons_self _ _))]
    rw [ih (fun w' hw' => h w' (List.mem_cons_of_mem _ hw'))]

theorem assemble_single (p : List String)
    (R : List (String × ResourceState))
    (writes : List (ModRef × String × ResourceState))
    (hw : ∀ w ∈ writes, w.1 = ModRef.real 0) :
    assemble (singleMod p R) [] writes =
      singleMod p (writes.map fun w => w.2) := by
  have hred : assemble (singleMod p R) [] writes =
      TfState.mk [ModuleState.mk p (writes.filterMap fun w =>
        if w.1 = ModRef.real 0 then some w.2 else none)] := rfl
  rw [hred, filterMap_real0 writes hw]
  rfl

theorem colOf_relabel (nodes : List Node) (m : Option ModRef)
    (G : String → String) :
    ∀ (deps : List String) (dl : List (Option Nat)),
    dl.length = deps.length →
    (∀ (i : Nat) (d : String), deps[i]? = some d →
      ∃ (t : Nat) (dn : Node), dl[i]? = some (some t) ∧
        nodes[t]? = some dn ∧ dn.mod = m ∧ dn.key = G d) →
    colOf nodes m (deps.zip dl) = deps.map G := by
  intro deps
  induction deps with
  | nil =>
    intro dl _ _
    rfl
  | cons d ds ihd =>
    intro dl hlen hspec
    cases dl with
    | nil =>
      rw [List.length_nil, List.length_cons] at hlen
      cases hlen
    | cons o os =>
      obtain ⟨t, dn, ho, hdn, hm, hk⟩ := hspec 0 d
        (by rw [List.getElem?_cons_zero])
      rw [List.getElem?_cons_zero] at ho
      injection ho with ho
      subst ho
      unfold colOf
      rw [List.zip_cons_cons, List.filterMap_cons, List.map_cons]
      dsimp only
      simp only [hdn]
      rw [if_pos hm, hk]
      have hrest := ihd os ?hlen2 ?hspec2
      case hlen2 =>
        rw [List.length_cons, List.length_cons] at hlen
        omega
      case hspec2 =>
        intro i d' hi
        obtain ⟨t', dn', ho', hdn', hm', hk'⟩ := hspec (i + 1) d'
          (by rw [List.getElem?_cons_succ]; exact hi)
        rw [List.getElem?_cons_succ] at ho'
        exact ⟨t', dn', ho', hdn', hm', hk'⟩
      unfold colOf at hrest
      rw [hrest]

theorem newDepsOf_relabel (nodes : List Node) (n : Node) (G : String → String)
    (hlen : n.deps.length = n.res.dependencies.length)
    (hspec : ∀ (i : Nat) (d : String), n.res.dependencies[i]? = some d →
      ∃ (t : Nat) (dn : Node), n.deps[i]? = some (some t) ∧
        nodes[t]? = some dn ∧ dn.mod = n.mod ∧ dn.key = G d)
    (hne : ∀ d ∈ n.res.dependencies, ¬(G d = "") ∧ ¬(G d = n.key)) :
    newDepsOf nodes n = sortedDedup (n.res.dependencies.map G) := by
  rw [show newDepsOf nodes n = sortedDedup ((colOf nodes n.mod
    (n.res.dependencies.zip n.deps)).filter fun dep =>
      dep ≠ "" && dep ≠ n.key) from rfl]
  rw [colOf_relabel nodes n.mod G n.res.dependencies n.deps hlen hspec]
  congr 1
  apply List.filter_eq_self.mpr
  intro d hd
  rcases List.mem_map.mp hd with ⟨d0, hd0, rfl⟩
  simp only [Bool.and_eq_true, decide_eq_true_eq]
  exact hne d0 hd0

theorem mappedIdx_red {T : StateTransform} {p : List String}
    {R : List (String × ResourceState)} {j : Nat}
    {e : String × ResourceState} {a : String}
    (he : R[j]? = some e) (ha : stateKeyToAddress p e.1 = .ok a) :
    mappedIdx T p R j = (T.lookup a).isSome := by
  unfold mappedIdx
  rw [kIdx_eq he]
  simp only [ha]

theorem key_mem_of_getElem {R : List (String × ResourceState)} {j : Nat}
    {e : String × ResourceState} (he : R[j]? = some e) :
    e.1 ∈ R.map Prod.fst :=
  List.mem_map_of_mem Prod.fst (mem_of_getElem? he)

theorem apply_relabel (p : List String) (R : List (String × ResourceState))
    (T : StateTransform) (hG : CleanGraph p R) (hT : CleanTransform p R T) :
    StateTransform.Apply T (singleMod p R) =
      .ok (singleMod p (R.map (renRes T p))) := by
  obtain ⟨hWF, hcanon, hdeps⟩ := hG
  obtain ⟨nodes1, hrun1, hlen1, hspec1⟩ := phase1_relabel p R hWF
    (fun e he => by obtain ⟨a, h1, h2⟩ := hcanon e he; exact ⟨a, h1, h2⟩)
    (fun e he d hd => (hdeps e he d hd).2)
  have hentry : ∀ j ∈ List.range R.length,
      ∃ e : String × ResourceState, R[j]? = some e := by
    intro j hj
    rw [List.mem_range] at hj
    rcases he : R[j]? with _ | e
    · rw [List.getElem?_eq_none_iff] at he
      omega
    · exact ⟨e, rfl⟩
  have hmain : ∀ j ∈ List.range R.length,
      ∃ (e : String × ResourceState) (a : String) (dl : List (Option Nat)),
      R[j]? = some e ∧ stateKeyToAddress p e.1 = .ok a ∧
      addressToStateKey a = .ok (p, e.1) ∧ probeMiss T a ∧
      nodes1[j]? = some { addr := a, key := e.1, repl := none,
                          mod := some (ModRef.real 0), res := e.2,
                          deps := dl } ∧
      dl.length = e.2.dependencies.length ∧
      (∀ (i : Nat) (d : String), e.2.dependencies[i]? = some d →
        ∃ t r', dl[i]? = some (some t) ∧ R[t]? = some (d, r')) := by
    intro j hj
    obtain ⟨e, he⟩ := hentry j hj
    obtain ⟨a0, ha0, hb0⟩ := hcanon e (mem_of_getElem? he)
    have hr0 : probeMiss T a0 :=
      hT.2.2.2.2.2.1 e (mem_of_getElem? he) a0 ha0
    obtain ⟨a, dl, hn1, ha, hdl, hdspec⟩ := hspec1 j e he
    rw [ha0] at ha
    injection ha with ha
    subst ha
    exact ⟨e, a0, dl, he, ha0, hb0, hr0, hn1, hdl, hdspec⟩
  have hFinj : ∀ j1 ∈ List.range R.length, ∀ j2 ∈ List.range R.length,
      renAddr T p (kIdx R j1) = renAddr T p (kIdx R j2) → j1 = j2 := by
    intro j1 h1 j2 h2 hFF
    obtain ⟨e1, he1⟩ := hentry j1 h1
    obtain ⟨e2, he2⟩ := hentry j2 h2
    rw [kIdx_eq he1, kIdx_eq he2] at hFF
    have hk := renAddr_inj ⟨hWF, hcanon, hdeps⟩ hT
      (key_mem_of_getElem he1) (key_mem_of_getElem he2) hFF
    refine @nodup_getElem?_inj String (R.map Prod.fst) j1 j2 e1.1 hWF ?_ ?_
    · rw [List.getElem?_map, he1]
      rfl
    · rw [List.getElem?_map, he2, hk]
      rfl
  have hKinj : ∀ j1 ∈ List.range R.length, ∀ j2 ∈ List.range R.length,
      renKey T p (kIdx R j1) = renKey T p (kIdx R j2) → j1 = j2 := by
    intro j1 h1 j2 h2 hFF
    obtain ⟨e1, he1⟩ := hentry j1 h1
    obtain ⟨e2, he2⟩ := hentry j2 h2
    rw [kIdx_eq he1, kIdx_eq he2] at hFF
    have hk := renKey_inj ⟨hWF, hcanon, hdeps⟩ hT
      (key_mem_of_getElem he1) (key_mem_of_getElem he2) hFF
    refine @nodup_getElem?_inj String (R.map Prod.fst) j1 j2 e1.1 hWF ?_ ?_
    · rw [List.getElem?_map, he1]
      rfl
    · rw [List.getElem?_map, he2, hk]
      rfl
  have hnodes2hyp : ∀ j ∈ List.range R.length, ∃ n, nodes1[j]? = some n ∧
      ((mappedIdx T p R j = true ∧ ∃ v, lookupMapping T n.addr = some v ∧
          v ≠ "" ∧ normalizeDest v = renAddr T p (kIdx R j)) ∨
        (mappedIdx T p R j = false ∧ lookupMapping T n.addr = none ∧
          n.addr = renAddr T p (kIdx R j))) := by
    intro j hj
    obtain ⟨e, a, dl, he, ha, hb, hr, hn1, -, -⟩ := hmain j hj
    refine ⟨_, hn1, ?_⟩
    have hLM : lookupMapping T a = T.lookup a := lookupMapping_clean hr
    rcases hl : T.lookup a with _ | v
    · refine Or.inr ⟨?_, ?_, ?_⟩
      · rw [mappedIdx_red he ha, hl]
        rfl
      · dsimp only
        rw [hLM, hl]
      · dsimp only
        rw [kIdx_eq he, renAddr_unmapped ha hl]
    · obtain ⟨kv, hkv, hrv, hrov, hnorm, hvne⟩ := mapped_canon hT hl
      refine Or.inl ⟨?_, v, ?_, hvne, ?_⟩
      · rw [mappedIdx_red he ha, hl]
        rfl
      · dsimp only
        rw [hLM, hl]
      · rw [kIdx_eq he, renAddr_mapped ha hl]
  obtain ⟨nodes2, hrun2, hlen2, hunt2, hupd2⟩ := phase2Go_relabel T
    (List.range R.length) nodes1 []
    (fun j => renAddr T p (kIdx R j)) (fun j => mappedIdx T p R j)
    (List.nodup_range _) hFinj (fun j _ => rfl) hnodes2hyp
  have hchar2 : ∀ j ∈ List.range R.length,
      ∃ (e : String × ResourceState) (a : String) (dl : List (Option Nat)),
      R[j]? = some e ∧ stateKeyToAddress p e.1 = .ok a ∧
      addressToStateKey a = .ok (p, e.1) ∧ probeMiss T a ∧
      nodes2[j]? = some { addr := renAddr T p (kIdx R j),
                          key := (if mappedIdx T p R j then "" else e.1),
                          repl := none, mod := some (ModRef.real 0),
                          res := e.2, deps := dl } ∧
      dl.length = e.2.dependencies.length ∧
      (∀ (i : Nat) (d : String), e.2.dependencies[i]? = some d →
        ∃ t r', dl[i]? = some (some t) ∧ R[t]? = some (d, r')) := by
    intro j hj
    obtain ⟨e, a, dl, he, ha, hb, hr, hn1, hdl, hdspec⟩ := hmain j hj
    have h2 := hupd2 j hj _ hn1
    refine ⟨e, a, dl, he, ha, hb, hr, ?_, hdl, hdspec⟩
    rcases hl : T.lookup a with _ | v
    · have hM : mappedIdx T p R j = false := by
        rw [mappedIdx_red he ha, hl]
        rfl
      have hMne : ¬(mappedIdx T p R j = true) := by
        rw [hM]
        exact Bool.false_ne_true
      rw [if_neg hMne] at h2
      rw [if_neg hMne, kIdx_eq he, renAddr_unmapped ha hl]
      exact h2
    · have hM : mappedIdx T p R j = true := by
        rw [mappedIdx_red he ha, hl]
        rfl
      rw [if_pos hM] at h2
      rw [if_pos hM]
      exact h2
  have hrepl2 : ∀ (t : Nat) (n : Node), nodes2[t]? = some n →
      n.repl = none := by
    intro t n hn
    by_cases htr : t ∈ List.range R.length
    · obtain ⟨e, a, dl, he, ha, hb, hr, hn2, -, -⟩ := hchar2 t htr
      rw [hn2] at hn
      injection hn with hn
      rw [← hn]
    · rw [hunt2 t htr] at hn
      rw [List.mem_range] at htr
      rw [List.getElem?_eq_none (by rw [hlen1]; omega)] at hn
      cases hn
  have hdr2 : ∀ (t : Nat) (n : Node), nodes2[t]? = some n →
      ∀ d ∈ n.deps, ∀ u : Nat, d = some u → u < nodes2.length := by
    intro t n hn d hd u hu
    rw [hlen2, hlen1]
    by_cases htr : t ∈ List.range R.length
    · obtain ⟨e, a, dl, he, ha, hb, hr, hn2, hdl, hdspec⟩ := hchar2 t htr
      rw [hn2] at hn
      injection hn with hn
      rw [← hn] at hd
      obtain ⟨i, hi⟩ := getElem?_of_mem hd
      have hilt : i < dl.length := getElem?_lt_length hi
      rw [hdl] at hilt
      rcases hdep : e.2.dependencies[i]? with _ | d0
      · rw [List.getElem?_eq_none_iff] at hdep
        omega
      · obtain ⟨t', r', hslot, ht'⟩ := hdspec i d0 hdep
        rw [hslot] at hi
        injection hi with hi
        rw [← hi] at hu
        injection hu with hu
        rw [← hu]
        exact getElem?_lt_length ht'
    · rw [hunt2 t htr] at hn
      rw [List.mem_range] at htr
      rw [List.getElem?_eq_none (by rw [hlen1]; omega)] at hn
      cases hn
  have hnodes3hyp : ∀ j ∈ List.range R.length, ∃ n, nodes2[j]? = some n ∧
      n.addr = renAddr T p (kIdx R j) ∧ n.mod = some (ModRef.real 0) ∧
      ((n.key = "" ∧ ∃ q, addressToStateKey (renAddr T p (kIdx R j)) =
          .ok (q, renKey T p (kIdx R j)) ∧
          moduleIdxByPath (singleMod p R) q = some 0) ∨
        (n.key = renKey T p (kIdx R j) ∧ renKey T p (kIdx R j) ≠ "")) := by
    intro j hj
    obtain ⟨e, a, dl, he, ha, hb, hr, hn2, -, -⟩ := hchar2 j hj
    refine ⟨_, hn2, rfl, rfl, ?_⟩
    rcases hl : T.lookup a with _ | v
    · have hM : mappedIdx T p R j = false := by
        rw [mappedIdx_red he ha, hl]
        rfl
      have hMne : ¬(mappedIdx T p R j = true) := by
        rw [hM]
        exact Bool.false_ne_true
      refine Or.inr ⟨?_, ?_⟩
      · dsimp only
        rw [if_neg hMne, kIdx_eq he, renKey_unmapped ha hl]
      · rw [kIdx_eq he, renKey_unmapped ha hl]
        exact render_ok_ne_empty ha
    · have hM : mappedIdx T p R j = true := by
        rw [mappedIdx_red he ha, hl]
        rfl
      obtain ⟨kv, hkv, hrv, hrov, hnorm, hvne⟩ := mapped_canon hT hl
      refine Or.inl ⟨?_, p, ?_, singleMod_idx p R⟩
      · dsimp only
        rw [if_pos hM]
      · rw [kIdx_eq he, renAddr_mapped ha hl, hnorm,
          renKey_mapped ha hl hkv]
        exact hkv
  obtain ⟨nodes3, hrun3, hlen3, hrepl3, hunt3, hupd3⟩ := phase3Go_relabel
    (singleMod p R) 0 (List.range R.length) nodes2 []
    (fun j => renAddr T p (kIdx R j)) (fun j => renKey T p (kIdx R j))
    (List.nodup_range _) hrepl2 hdr2 hnodes3hyp
  have hchar3 : ∀ j ∈ List.range R.length,
      ∃ (e : String × ResourceState) (dl : List (Option Nat)),
      R[j]? = some e ∧
      nodes3[j]? = some { addr := renAddr T p (kIdx R j),
                          key := renKey T p (kIdx R j), repl := none,
                          mod := some (ModRef.real 0), res := e.2,
                          deps := dl } ∧
      dl.length = e.2.dependencies.length ∧
      (∀ (i : Nat) (d : String), e.2.dependencies[i]? = some d →
        ∃ t r', dl[i]? = some (some t) ∧ R[t]? = some (d, r')) := by
    intro j hj
    obtain ⟨e, a, dl, he, ha, hb, hr, hn2, hdl, hdspec⟩ := hchar2 j hj
    have h3 := hupd3 j hj _ hn2
    exact ⟨e, dl, he, h3, hdl, hdspec⟩
  have hnodes45hyp : ∀ j ∈ List.range R.length, ∃ n, nodes3[j]? = some n ∧
      n.mod = some (ModRef.real 0) ∧ n.key = renKey T p (kIdx R j) ∧
      { n.res with dependencies := newDepsOf nodes3 n } =
        { rIdx R j with
            dependencies := sortedDedup
              ((rIdx R j).dependencies.map (renKey T p)) } := by
    intro j hj
    obtain ⟨e, dl, he, hn3, hdl, hdspec⟩ := hchar3 j hj
    refine ⟨_, hn3, rfl, rfl, ?_⟩
    rw [rIdx_eq he]
    refine congrArg (fun ds =>
      ({ e.2 with dependencies := ds } : ResourceState)) ?_
    refine newDepsOf_relabel nodes3 _ (renKey T p) hdl ?_ ?_
    · intro i d hi
      obtain ⟨t, r', hslot, ht⟩ := hdspec i d hi
      have htr : t ∈ List.range R.length :=
        List.mem_range.mpr (getElem?_lt_length ht)
      obtain ⟨e', dl', he', hn3', -, -⟩ := hchar3 t htr
      rw [ht] at he'
      injection he' with he'
      refine ⟨t, _, hslot, hn3', rfl, ?_⟩
      rw [kIdx_eq ht]
    · intro d hd
      have hdres := hdeps e (mem_of_getElem? he) d hd
      obtain ⟨r', hmem⟩ := hdres.2
      have hdkey : d ∈ R.map Prod.fst :=
        List.mem_map_of_mem Prod.fst hmem
      constructor
      · exact renKey_ne_empty ⟨hWF, hcanon, hdeps⟩ hT hdkey
      · intro hGd
        refine hdres.1 ?_
        refine renKey_inj ⟨hWF, hcanon, hdeps⟩ hT hdkey
          (key_mem_of_getElem he) ?_
        rw [hGd, kIdx_eq he]
  have hrun45 := phase45Go_relabel nodes3 0 (List.range R.length) []
    (fun j => renAddr T p (kIdx R j)) (fun j => renKey T p (kIdx R j))
    (fun j => { rIdx R j with
        dependencies := sortedDedup
          ((rIdx R j).dependencies.map (renKey T p)) })
    (List.nodup_range _) hKinj
    (fun w hw => absurd hw (List.not_mem_nil w)) hnodes45hyp
  have hTempty : T.isEmpty = false := by
    cases T with
    | nil => exact absurd rfl hT.1
    | cons e rest => rfl
  have hfinal : (List.range R.length).map (fun j =>
      (renKey T p (kIdx R j),
       { rIdx R j with
           dependencies := sortedDedup
             ((rIdx R j).dependencies.map (renKey T p)) })) =
      R.map (renRes T p) := by
    refine List.ext_getElem? ?_
    intro i
    by_cases hi : i < R.length
    · rw [List.getElem?_map, List.getElem?_map, List.getElem?_range hi]
      obtain ⟨e, he⟩ := hentry i (List.mem_range.mpr hi)
      rw [he]
      dsimp only [Option.map]
      rw [kIdx_eq he, rIdx_eq he]
      rfl
    · rw [List.getElem?_map, List.getElem?_map,
        List.getElem?_eq_none (by rw [List.length_range]; omega),
        List.getElem?_eq_none (by omega)]
      rfl
  unfold StateTransform.Apply
  rw [hTempty]
  simp only [Bool.false_eq_true, if_false, hrun1]
  show (match phase2 T nodes1 with
    | .error e => ApplyOut.err e (singleMod p R)
    | .ok (nodes, tm) => _) = _
  unfold phase2
  rw [hlen1, hrun2, List.nil_append]
  show (match phase3 (singleMod p R) nodes2
      ((List.range R.length).map fun j => (renAddr T p (kIdx R j), j)) with
    | .error e => ApplyOut.err e (singleMod p R)
    | .ok (nodes, tmps) => _) = _
  unfold phase3
  rw [hrun3]
  show (match phase45Go nodes3
      ((List.range R.length).map fun j => (renAddr T p (kIdx R j), j)) []
      with
    | .error e => ApplyOut.panicked e
    | .ok writes => ApplyOut.ok (assemble (singleMod p R) [] writes)) = _
  rw [hrun45, List.nil_append]
  show ApplyOut.ok (assemble (singleMod p R) []
    ((List.range R.length).map fun j => (ModRef.real 0,
      renKey T p (kIdx R j),
      { rIdx R j with
          dependencies := sortedDedup
            ((rIdx R j).dependencies.map (renKey T p)) }))) = _
  rw [assemble_single p R _ ?hreal]
  case hreal =>
    intro w hw
    rcases List.mem_map.mp hw with ⟨j, hj, rfl⟩
    rfl
  rw [List.map_map]
  show ApplyOut.ok (singleMod p ((List.range R.length).map fun j =>
    (renKey T p (kIdx R j),
     { rIdx R j with
         dependencies := sortedDedup
           ((rIdx R j).dependencies.map (renKey T p)) }))) = _
  rw [hfinal]

theorem nodup_map_on {α β : Type} (f : α → β) :
    ∀ (l : List α),
    (∀ x ∈ l, ∀ y ∈ l, f x = f y → x = y) → l.Nodup → (l.map f).Nodup := by
  intro l
  induction l with
  | nil =>
    intro _ _
    exact List.nodup_nil
  | cons x xs ih =>
    intro hinj hnd
    rw [List.nodup_cons] at hnd
    rw [List.map_cons, List.nodup_cons]
    refine ⟨?_, ih (fun a ha b hb => hinj a (List.mem_cons_of_mem _ ha) b
      (List.mem_cons_of_mem _ hb)) hnd.2⟩
    intro hmem
    rcases List.mem_map.mp hmem with ⟨y, hy, hyx⟩
    have hxy := hinj y (List.mem_cons_of_mem _ hy) x
      (List.mem_cons_self _ _) hyx
    exact hnd.1 (hxy ▸ hy)

theorem entry_eq_of_key {α β : Type} [BEq α] [LawfulBEq α]
    {l : List (α × β)} (hnd : (l.map Prod.fst).Nodup) {x y : α × β}
    (hx : x ∈ l) (hy : y ∈ l) (h : x.1 = y.1) : x = y := by
  have h1 : l.lookup x.1 = some x.2 := lookup_eq_of_mem_nodup hnd hx
  have h2 : l.lookup y.1 = some y.2 := lookup_eq_of_mem_nodup hnd hy
  rw [h, h2] at h1
  injection h1 with h1
  rcases x with ⟨x1, x2⟩
  rcases y with ⟨y1, y2⟩
  dsimp only at h h1
  rw [h, h1]

theorem clean_graph_mapped {p : List String}
    {R : List (String × ResourceState)} {T : StateTransform}
    (hG : CleanGraph p R) (hT : CleanTransform p R T) :
    CleanGraph p (R.map (renRes T p)) := by
  obtain ⟨hWF, hcanon, hdeps⟩ := hG
  refine ⟨?_, ?_, ?_⟩
  · rw [List.map_map]
    refine nodup_map_on _ R ?_ (List.Nodup.of_map _ hWF)
    intro x hx y hy hxy
    have hkey : renKey T p x.1 = renKey T p y.1 := hxy
    have hxk := renKey_inj ⟨hWF, hcanon, hdeps⟩ hT
      (List.mem_map_of_mem Prod.fst hx) (List.mem_map_of_mem Prod.fst hy)
      hkey
    exact entry_eq_of_key hWF hx hy hxk
  · intro e' he'
    rcases List.mem_map.mp he' with ⟨e, he, rfl⟩
    obtain ⟨a, ha, hb⟩ := hcanon e he
    rcases hl : T.lookup a with _ | v
    · refine ⟨a, ?_, ?_⟩
      · show stateKeyToAddress p (renKey T p e.1) = .ok a
        rw [renKey_unmapped ha hl]
        exact ha
      · show addressToStateKey a = .ok (p, renKey T p e.1)
        rw [renKey_unmapped ha hl]
        exact hb
    · obtain ⟨kv, hkv, hrv, hrov, hnorm, hvne⟩ := mapped_canon hT hl
      refine ⟨v, ?_, ?_⟩
      · show stateKeyToAddress p (renKey T p e.1) = .ok v
        rw [renKey_mapped ha hl hkv]
        exact hrv
      · show addressToStateKey v = .ok (p, renKey T p e.1)
        rw [renKey_mapped ha hl hkv]
        exact hkv
  · intro e' he' d' hd'
    rcases List.mem_map.mp he' with ⟨e, he, rfl⟩
    have hd2 : d' ∈ (e.2.dependencies.map (renKey T p)) := by
      rw [← mem_sortedDedup]
      exact hd'
    rcases List.mem_map.mp hd2 with ⟨d, hd, rfl⟩
    have hdres := hdeps e he d hd
    obtain ⟨r', hmem⟩ := hdres.2
    have hdkey : d ∈ R.map Prod.fst := List.mem_map_of_mem Prod.fst hmem
    constructor
    · show renKey T p d ≠ renKey T p e.1
      intro hGd
      exact hdres.1 (renKey_inj ⟨hWF, hcanon, hdeps⟩ hT hdkey
        (List.mem_map_of_mem Prod.fst he) hGd)
    · exact ⟨(renRes T p (d, r')).2, List.mem_map_of_mem (renRes T p) hmem⟩

theorem clean_transform_inv {p : List String}
    {R : List (String × ResourceState)} {T : StateTransform}
    (hG : CleanGraph p R) (hT : CleanTransform p R T) :
    CleanTransform p (R.map (renRes T p)) (T.map fun e => (e.2, e.1)) := by
  refine ⟨?_, ?_, ?_, ?_, ?_, ?_, ?_⟩
  · cases T with
    | nil => exact absurd rfl hT.1
    | cons e rest => exact fun h => List.noConfusion h
  · rw [List.map_map]
    exact values_nodup hT.2.1 hT.2.2.1
  · intro e1' h1 e2' h2 hv
    rcases List.mem_map.mp h1 with ⟨f1, hf1, rfl⟩
    rcases List.mem_map.mp h2 with ⟨f2, hf2, rfl⟩
    dsimp only at hv ⊢
    have hf12 : f1 = f2 := entry_eq_of_key hT.2.1 hf1 hf2 hv
    rw [hf12]
  · intro e' he'
    rcases List.mem_map.mp he' with ⟨f, hf, rfl⟩
    obtain ⟨⟨k1, hk1a, hk1b⟩, ⟨k2, hk2a, hk2b⟩⟩ :=
      hT.2.2.2.1 f hf
    exact ⟨⟨k2, hk2a, hk2b⟩, ⟨k1, hk1a, hk1b⟩⟩
  · intro e' he' e'' he'' hren
    rcases List.mem_map.mp he' with ⟨f, hf, rfl⟩
    rcases List.mem_map.mp he'' with ⟨e, he, rfl⟩
    dsimp only [renRes] at hren ⊢
    obtain ⟨a, ha, hb⟩ := hG.2.1 e he
    rcases hl : T.lookup a with _ | v
    · exfalso
      rw [renKey_unmapped ha hl, ha] at hren
      injection hren with hren
      obtain ⟨w, hw⟩ := lookup_mem_isSome hf
      rw [← hren, hl] at hw
      cases hw
    · obtain ⟨kv, hkv, hrv, hrov, hnorm, hvne⟩ := mapped_canon hT hl
      rw [renKey_mapped ha hl hkv, hrv] at hren
      injection hren with hren
      refine ⟨(v, a), List.mem_map.mpr ⟨(a, v), mem_of_lookup hl, rfl⟩, ?_⟩
      rw [← hren]
  · intro e' he' a' ha'
    rcases List.mem_map.mp he' with ⟨e, he, rfl⟩
    obtain ⟨a, ha, hb⟩ := hG.2.1 e he
    rcases hl : T.lookup a with _ | v
    · rw [show (renRes T p e).1 = renKey T p e.1 from rfl,
        renKey_unmapped ha hl, ha] at ha'
      injection ha' with ha'
      subst ha'
      exact probeMiss_inv (hT.2.2.2.2.2.1 e he a ha)
    · obtain ⟨kv, hkv, hrv, hpm, hnorm, hvne⟩ := mapped_canon hT hl
      rw [show (renRes T p e).1 = renKey T p e.1 from rfl,
        renKey_mapped ha hl hkv] at ha'
      dsimp only at ha'
      rw [hrv] at ha'
      injection ha' with ha'
      subst ha'
      exact probeMiss_inv hpm
  · intro f hf
    rcases List.mem_map.mp hf with ⟨e, he, rfl⟩
    obtain ⟨hp1, hp2⟩ := hT.2.2.2.2.2.2 e he
    exact ⟨probeMiss_inv hp2, probeMiss_inv hp1⟩

theorem resMapEquiv_map :
    ∀ (R : List (String × ResourceState))
      (f : String × ResourceState → String × ResourceState),
    (∀ e ∈ R, (f e).1 = e.1 ∧ ResEquivDeps (f e).2 e.2) →
    ResMapEquiv ResEquivDeps (R.map f) R := by
  intro R
  induction R with
  | nil =>
    intro f _
    exact ⟨fun k => Iff.rfl, fun k ra rb hra => by cases hra⟩
  | cons e rest ih =>
    intro f h
    have hk := (h e (List.mem_cons_self _ _)).1
    have ihr := ih f (fun e' he' => h e' (List.mem_cons_of_mem _ he'))
    constructor
    · intro k
      rw [List.map_cons, List.lookup, List.lookup]
      rcases hke : (k == e.1) with _ | _
      · rw [show (k == (f e).1) = false from by rw [hk]; exact hke]
        exact ihr.1 k
      · rw [show (k == (f e).1) = true from by rw [hk]; exact hke]
        exact Iff.rfl
    · intro k ra rb hra hrb
      rw [List.map_cons, List.lookup] at hra
      rw [List.lookup] at hrb
      rcases hke : (k == e.1) with _ | _
      · rw [show (k == (f e).1) = false from by rw [hk]; exact hke] at hra
        rw [hke] at hrb
        exact ihr.2 k ra rb hra hrb
      · rw [show (k == (f e).1) = true from by rw [hk]; exact hke] at hra
        rw [hke] at hrb
        injection hra with hra
        injection hrb with hrb
        rw [← hra, ← hrb]
        exact (h e (List.mem_cons_self _ _)).2

theorem renRes_round {p : List String}
    {R : List (String × ResourceState)} {T : StateTransform}
    (hG : CleanGraph p R) (hT : CleanTransform p R T) :
    ∀ e ∈ R,
      (renRes (T.map fun f => (f.2, f.1)) p (renRes T p e)).1 = e.1 ∧
      ResEquivDeps (renRes (T.map fun f => (f.2, f.1)) p
        (renRes T p e)).2 e.2 := by
  intro e he
  have hkey : e.1 ∈ R.map Prod.fst := List.mem_map_of_mem Prod.fst he
  refine ⟨renKey_round hG hT hkey, rfl, rfl, ?_⟩
  intro d
  dsimp only [renRes]
  rw [mem_sortedDedup]
  constructor
  · intro hd
    rcases List.mem_map.mp hd with ⟨d1, hd1, rfl⟩
    rw [mem_sortedDedup] at hd1
    rcases List.mem_map.mp hd1 with ⟨d0, hd0, rfl⟩
    have hd0key : d0 ∈ R.map Prod.fst := by
      obtain ⟨r', hmem⟩ := (hG.2.2 e he d0 hd0).2
      exact List.mem_map_of_mem Prod.fst hmem
    rw [renKey_round hG hT hd0key]
    exact hd0
  · intro hd
    refine List.mem_map.mpr ⟨renKey T p d, ?_, ?_⟩
    · rw [mem_sortedDedup]
      exact List.mem_map_of_mem (renKey T p) hd
    · have hdkey : d ∈ R.map Prod.fst := by
        obtain ⟨r', hmem⟩ := (hG.2.2 e he d hd).2
        exact List.mem_map_of_mem Prod.fst hmem
      exact renKey_round hG hT hdkey

/-- C4 amended: over a clean single-module graph (unique canonical
identities, dependencies naming a sibling other than the resource itself;
the root module is allowed) and a clean transform (nonempty, injective,
unique canonical same-module sources and destinations, no destination that
implicitly replaces an untransformed resource, and no entry mentioning the
module.root.-stripped form of an involved address, which step 2 probes as
a fallback), Apply with the transform followed by Apply with its Inverse
restores the graph up to set equality of the rebuilt dependency lists. -/
theorem apply_inverse_roundtrip (p : List String)
    (R : List (String × ResourceState)) (T : StateTransform)
    (hG : CleanGraph p R) (hT : CleanTransform p R T) :
    ∃ Tinv g1 g2,
      StateTransform.Inverse T = some Tinv ∧
      StateTransform.Apply T (singleMod p R) = .ok g1 ∧
      StateTransform.Apply Tinv g1 = .ok g2 ∧
      StateEquiv g2 (singleMod p R) := by
  refine ⟨T.map fun e => (e.2, e.1), _, _, inverse_of_clean hT,
    apply_relabel p R T hG hT,
    apply_relabel p (R.map (renRes T p)) (T.map fun e => (e.2, e.1))
      (clean_graph_mapped hG hT) (clean_transform_inv hG hT), ?_⟩
  constructor
  · rfl
  · intro i ma mb hma hmb
    cases i with
    | zero =>
      have hma' : some (ModuleState.mk p
          ((R.map (renRes T p)).map
            (renRes (T.map fun e => (e.2, e.1)) p))) = some ma := hma
      have hmb' : some (ModuleState.mk p R) = some mb := hmb
      injection hma' with hma'
      injection hmb' with hmb'
      rw [← hma', ← hmb']
      refine ⟨rfl, ?_⟩
      show ResMapEquiv ResEquivDeps
        ((R.map (renRes T p)).map (renRes (T.map fun e => (e.2, e.1)) p)) R
      rw [List.map_map]
      exact resMapEquiv_map R _ (renRes_round hG hT)
    | succ n =>
      rw [show (singleMod p ((R.map (renRes T p)).map
        (renRes (T.map fun e => (e.2, e.1)) p))).modules[n + 1]? =
        none from rfl] at hma
      cases hma

set_option maxHeartbeats 2000000 in
/-- C4 amended-theorem witness: renaming a.x to a.z inside the root module
and applying the inverse restores the two-resource graph up to
dependency-set equality. -/
theorem apply_inverse_roundtrip_witness :
    ∃ Tinv g1 g2,
      StateTransform.Inverse [("module.root.a.x", "module.root.a.z")] =
        some Tinv ∧
      StateTransform.Apply [("module.root.a.x", "module.root.a.z")]
        (singleMod ["root"] [("a.x", { typ := "a" }),
          ("b.y", { typ := "b", dependencies := ["a.x"] })]) = .ok g1 ∧
      StateTransform.Apply Tinv g1 = .ok g2 ∧
      StateEquiv g2 (singleMod ["root"] [("a.x", { typ := "a" }),
        ("b.y", { typ := "b", dependencies := ["a.x"] })]) := by
  refine apply_inverse_roundtrip ["root"]
    [("a.x", { typ := "a" }), ("b.y", { typ := "b", dependencies := ["a.x"] })]
    [("module.root.a.x", "module.root.a.z")] ⟨by decide, ?_, ?_⟩
    ⟨fun h => List.noConfusion h, by decide, by decide, ?_, ?_, ?_, by decide⟩
  · intro e he
    rcases List.mem_cons.mp he with rfl | he2
    · exact ⟨"module.root.a.x", rfl, rfl⟩
    · rcases List.mem_cons.mp he2 with rfl | he3
      · exact ⟨"module.root.b.y", rfl, rfl⟩
      · cases he3
  · intro e he d hd
    rcases List.mem_cons.mp he with rfl | he2
    · cases hd
    · rcases List.mem_cons.mp he2 with rfl | he3
      · rcases List.mem_cons.mp hd with rfl | hd2
        · exact ⟨by decide, { typ := "a" }, List.mem_cons_self _ _⟩
        · cases hd2
      · cases he3
  · intro e he
    rcases List.mem_cons.mp he with rfl | he2
    · exact ⟨⟨"a.x", rfl, rfl⟩, ⟨"a.z", rfl, rfl⟩⟩
    · cases he2
  · intro e he e' he' hren
    rcases List.mem_cons.mp he with rfl | he2
    · rcases List.mem_cons.mp he' with rfl | he2'
      · rw [show stateKeyToAddress ["root"]
          (("a.x", ({ typ := "a" } : ResourceState))).1 =
          .ok "module.root.a.x" from rfl] at hren
        injection hren with hren
        exact absurd hren (by decide)
      · rcases List.mem_cons.mp he2' with rfl | he3'
        · rw [show stateKeyToAddress ["root"]
            (("b.y", ({ typ := "b", dependencies := ["a.x"] } :
              ResourceState))).1 =
            .ok "module.root.b.y" from rfl] at hren
          injection hren with hren
          exact absurd hren (by decide)
        · cases he3'
    · cases he2
  · intro e' he' a ha
    rcases List.mem_cons.mp he' with rfl | he2'
    · rw [show stateKeyToAddress ["root"]
        (("a.x", ({ typ := "a" } : ResourceState))).1 =
        .ok "module.root.a.x" from rfl] at ha
      injection ha with ha
      subst ha
      decide
    · rcases List.mem_cons.mp he2' with rfl | he3'
      · rw [show stateKeyToAddress ["root"]
          (("b.y", ({ typ := "b", dependencies := ["a.x"] } :
            ResourceState))).1 =
          .ok "module.root.b.y" from rfl] at ha
        injection ha with ha
        subst ha
        decide
      · cases he3'

end GoTf
